import Mathlib

/-!
Shallow embedding of the NebulousLabs/merkletree Go package, covering the
range-proof ("ladder") variant of `Tree` from tree.go, the verifier from
verify.go and the slice-capable `CachedTree`.

Conventions of the embedding:
* a Go `[]byte` is a `List Nat`; the Go nil slice and the empty slice are
  both written `[]` (the code only distinguishes them through `== nil`
  checks on hash outputs, and hash outputs are never nil for real hashes);
* the injected `hash.Hash` object is modelled as a function
  `H : List Nat → List Nat` mapping the concatenated written bytes to the
  digest; it is passed explicitly to every operation instead of being
  stored in the structure so that states stay decidably comparable;
* the `*subTree` stack linked by `next` pointers is a `List SubTreeNode`
  whose first element is `head` (the node of smallest height);
* Go functions that can abort at runtime return `Option` (`none` models
  the abort): `foldLader` aborts on a step with more than two proofs, the
  verifier's final `sums[0]` access aborts on an empty list;
* `uint64` values are `Nat`; where 64-bit wrap-around is observable in
  the embedded code (`proofEnd-1` and the `cachedBegin+1` comparison in
  `CachedTree.SetSlice`, the `cut` difference and its signed `int`
  reading in `CachedTree.Prove`) the arithmetic is taken mod 2^64
  explicitly.  Counters such as `currentIndex` can never realistically
  reach 2^64, so their increments are plain `Nat` successor.
-/

namespace Merkle

/-- Byte strings: a Go `[]byte` (nil and empty both `[]`). -/
abbrev Bytes := List Nat

/-- Modulus of Go's `uint64` arithmetic. -/
def uint64Mod : Nat := 2 ^ 64

/-- leafSum from tree.go: `Hash(0x00 || data)`. -/
def leafSum (H : Bytes → Bytes) (data : Bytes) : Bytes :=
  H (0 :: data)

/-- nodeSum from tree.go: `Hash(0x01 || a || b)`. -/
def nodeSum (H : Bytes → Bytes) (a b : Bytes) : Bytes :=
  H (1 :: (a ++ b))

/-- A subTree from tree.go: the root `sum` of a complete subtree of
2^height leaves covering leaf indices `[beginIdx, endIdx)` (Go fields
`begin` and `end`; renamed because `end` is a Lean keyword).  The Go
`next` pointer is the tail of the enclosing list. -/
structure SubTreeNode where
  height : Nat
  beginIdx : Nat
  endIdx : Nat
  sum : Bytes
deriving DecidableEq, Repr

/-- The stack of subtrees reachable from `Tree.head`, head first. -/
abbrev Stack := List SubTreeNode

/-- contains from tree.go (method of subTree on the tree's proof slice). -/
def SubTreeNode.contains (s : SubTreeNode) (proofBegin proofEnd : Nat) : Prop :=
  (s.beginIdx ≤ proofBegin ∧ proofBegin < s.endIdx) ∨
    (proofBegin ≤ s.beginIdx ∧ s.beginIdx < proofEnd)

instance (s : SubTreeNode) (pb pe : Nat) : Decidable (s.contains pb pe) := by
  unfold SubTreeNode.contains; infer_instance

/-- joinSubTrees from tree.go: combine two equal sized subtrees; `a` is the
taller/older node (`head.next`), `b` the current head. -/
def joinSubTrees (H : Bytes → Bytes) (a b : SubTreeNode) : SubTreeNode :=
  { height := a.height + 1
    beginIdx := a.beginIdx
    endIdx := b.endIdx
    sum := nodeSum H a.sum b.sum }

/-- proofLader from tree.go: `lader[height]` lists the captured hashes of
subtrees of that height, in capture order. -/
abbrev ProofLader := List (List Bytes)

/-- addToLader from tree.go: pad the ladder with empty steps up to `height`
and append `proof` to the step at `height`. -/
def addToLader (lader : ProofLader) (height : Nat) (proof : Bytes) : ProofLader :=
  let l := lader ++ List.replicate (height + 1 - lader.length) []
  l.set height (l.getD height [] ++ [proof])

/-- foldLader from tree.go: concatenate the ladder steps in height order;
`none` models the Go abort when a step holds more than two proofs. -/
def foldLader : ProofLader → Option (List Bytes)
  | [] => some []
  | step :: rest =>
    if 2 < step.length then none
    else
      match foldLader rest with
      | none => none
      | some proofs => some (step ++ proofs)

/-- The Tree state from tree.go (minus the stored hash object, which is
passed explicitly to the operations). -/
structure Tree where
  head : Stack
  currentIndex : Nat
  proofBegin : Nat
  proofEnd : Nat
  lader : ProofLader
  bases : List Bytes
  cachedTree : Bool
deriving DecidableEq, Repr

/-- New from tree.go: fresh tree proving the default slice `[0, 1)`. -/
def Tree.new : Tree :=
  { head := []
    currentIndex := 0
    proofBegin := 0
    proofEnd := 1
    lader := []
    bases := []
    cachedTree := false }

/-- The folding loop of Push from tree.go, written as a tail recursion over
the part of the stack below the head (`c` is the Go loop's `t.head`): as
long as the next subtree has the same height as the carried head, capture
a proof hash if exactly one of the two overlaps the proof slice (and the
hash is not nil), then join them. -/
def pushFoldGo (H : Bytes → Bytes) (proofBegin proofEnd : Nat) :
    SubTreeNode → Stack → ProofLader → Stack × ProofLader
  | c, [], lader => ([c], lader)
  | c, s :: rest, lader =>
    if c.height = s.height then
      let proof : Bytes :=
        if c.contains proofBegin proofEnd ∧ ¬ s.contains proofBegin proofEnd then
          s.sum
        else if ¬ c.contains proofBegin proofEnd ∧ s.contains proofBegin proofEnd then
          c.sum
        else []
      let lader' := if proof ≠ [] then addToLader lader c.height proof else lader
      pushFoldGo H proofBegin proofEnd (joinSubTrees H s c) rest lader'
    else (c :: s :: rest, lader)

/-- The folding loop of Push on a whole stack (head plus the rest). -/
def pushFold (H : Bytes → Bytes) (proofBegin proofEnd : Nat) :
    Stack → ProofLader → Stack × ProofLader
  | [], lader => ([], lader)
  | c :: ss, lader => pushFoldGo H proofBegin proofEnd c ss lader

/-- Push from tree.go: record the data in `bases` when the current index
falls in the proof slice, insert a height-0 subtree (raw data for cached
trees, `leafSum` otherwise) and fold equal-height subtrees. -/
def Tree.push (H : Bytes → Bytes) (t : Tree) (data : Bytes) : Tree :=
  let bases :=
    if t.proofBegin ≤ t.currentIndex ∧ t.currentIndex < t.proofEnd then
      t.bases ++ [data]
    else t.bases
  let node : SubTreeNode :=
    { height := 0
      beginIdx := t.currentIndex
      endIdx := t.currentIndex + 1
      sum := if t.cachedTree then data else leafSum H data }
  let fl := pushFold H t.proofBegin t.proofEnd (node :: t.head) t.lader
  { t with
    head := fl.1
    lader := fl.2
    bases := bases
    currentIndex := t.currentIndex + 1 }

/-- Pushing a whole list of leaves in order. -/
def Tree.pushList (H : Bytes → Bytes) (t : Tree) (leaves : List Bytes) : Tree :=
  leaves.foldl (Tree.push H) t

/-- The collapsing loop of Root from tree.go, as a tail recursion over the
part of the stack below the current node. -/
def rootFoldGo (H : Bytes → Bytes) : SubTreeNode → Stack → Bytes
  | c, [] => c.sum
  | c, s :: rest => rootFoldGo H (joinSubTrees H s c) rest

/-- The collapsing loop of Root from tree.go on a whole stack. -/
def rootFold (H : Bytes → Bytes) : Stack → Bytes
  | [] => []
  | c :: ss => rootFoldGo H c ss

/-- Root from tree.go: nil for the empty tree, otherwise the collapse of
the whole stack. -/
def Tree.root (H : Bytes → Bytes) (t : Tree) : Bytes :=
  rootFold H t.head

/-- The collapsing loop of Prove from tree.go: like Root's collapse, but
capturing into the ladder (at the height of the taller node) the hash of
whichever of the two joined subtrees lies outside the proof slice when the
other overlaps it. -/
def proveFoldGo (H : Bytes → Bytes) (proofBegin proofEnd : Nat) :
    SubTreeNode → Stack → ProofLader → ProofLader
  | _, [], lader => lader
  | c, s :: rest, lader =>
    let height := s.height
    let lader' :=
      if c.contains proofBegin proofEnd ∧ ¬ s.contains proofBegin proofEnd then
        addToLader lader height s.sum
      else if ¬ c.contains proofBegin proofEnd ∧ s.contains proofBegin proofEnd then
        addToLader lader height c.sum
      else lader
    proveFoldGo H proofBegin proofEnd (joinSubTrees H s c) rest lader'

/-- The capturing collapse of Prove on a whole stack. -/
def proveFold (H : Bytes → Bytes) (proofBegin proofEnd : Nat) :
    Stack → ProofLader → ProofLader
  | [], lader => lader
  | c :: ss, lader => proveFoldGo H proofBegin proofEnd c ss lader

/-- The quadruple returned by Prove (and CachedTree.Prove).  `proofSet`
is `none` for the Go nil proof set and `some` for an allocated one. -/
structure ProveResult where
  merkleRoot : Bytes
  proofSet : Option (List Bytes)
  proofBegin : Nat
  numLeaves : Nat
deriving DecidableEq, Repr

/-- Prove from tree.go.  The outer `Option` is `none` when `foldLader`
aborts; otherwise the result carries root, proof set, proof begin and
number of leaves. -/
def Tree.prove (H : Bytes → Bytes) (t : Tree) : Option ProveResult :=
  if t.head = [] ∨ t.currentIndex < t.proofEnd then
    some ⟨t.root H, none, t.proofBegin, t.currentIndex⟩
  else
    match foldLader (proveFold H t.proofBegin t.proofEnd t.head t.lader) with
    | none => none
    | some tailProofs =>
      some ⟨t.root H, some (t.bases ++ tailProofs), t.proofBegin, t.currentIndex⟩

/-- SetSlice from tree.go: only legal on an empty tree. -/
def Tree.setSlice (t : Tree) (b e : Nat) : Except String Tree :=
  if t.head ≠ [] then
    .error "cannot call SetIndex or SetSlice on Tree if Tree has not been reset"
  else
    .ok { t with proofBegin := b, proofEnd := e }

/-- SetIndex from tree.go: `SetSlice (i, i+1)`. -/
def Tree.setIndex (t : Tree) (i : Nat) : Except String Tree :=
  t.setSlice i (i + 1)

/-- The pairing loop inside the verifier from verify.go: combine adjacent
pairs with `nodeSum` and carry a trailing unpaired hash unchanged. -/
def chunkPairs (H : Bytes → Bytes) : List Bytes → List Bytes
  | a :: b :: rest => nodeSum H a b :: chunkPairs H rest
  | l => l

/-- The level loop of VerifyProofOfSlice from verify.go.  Each iteration
absorbs an odd left neighbour and, when the working sequence has odd
length and real leaves remain on the right, an odd right neighbour from
the proof set, then collapses one level.  `some false` models falsified
verification (including running out of proof entries), `none` models the
`sums[0]` abort on an empty final sequence.  The loop halves `numLeaves`
at each iteration, so it is bounded by a fuel counter which the caller
sets to the initial `numLeaves`; running out of fuel (also `none`) is
unreachable for that choice, see `verifyLoop_isSome`. -/
def verifyLoop (H : Bytes → Bytes) (merkleRoot : Bytes) :
    Nat → List Bytes → List Bytes → Nat → Nat → Nat → Option Bool
  | fuel, sums, proofSet, proofBegin, proofEnd, numLeaves =>
    if 1 < numLeaves then
      match fuel with
      | 0 => none
      | fuel + 1 =>
        if proofBegin % 2 = 1 ∧ proofSet = [] then some false
        else
          let sums1 := if proofBegin % 2 = 1 then proofSet.headD [] :: sums else sums
          let proofSet1 := if proofBegin % 2 = 1 then proofSet.tail else proofSet
          let proofBegin1 := if proofBegin % 2 = 1 then proofBegin - 1 else proofBegin
          if sums1.length % 2 = 1 ∧ proofEnd < numLeaves ∧ proofSet1 = [] then some false
          else
            let absorbR := sums1.length % 2 = 1 ∧ proofEnd < numLeaves
            let sums2 := if absorbR then sums1 ++ [proofSet1.headD []] else sums1
            let proofSet2 := if absorbR then proofSet1.tail else proofSet1
            let proofEnd2 := if absorbR then proofEnd + 1 else proofEnd
            verifyLoop H merkleRoot fuel (chunkPairs H sums2) proofSet2
              (proofBegin1 / 2) ((proofEnd2 + 1) / 2) ((numLeaves + 1) / 2)
    else
      if proofSet.length ≠ 0 then some false
      else
        match sums with
        | [] => none
        | s :: _ => some (decide (s = merkleRoot))

/-- VerifyProofOfSlice from verify.go.  The up-front rejections, the
consumption of `proofEnd - proofBegin` leaf entries (failing when the
proof set is shorter) and the level loop. -/
def VerifyProofOfSlice (H : Bytes → Bytes) (merkleRoot : Bytes)
    (proofSet : List Bytes) (proofBegin proofEnd numLeaves : Nat) : Option Bool :=
  if merkleRoot = [] then some false
  else if proofBegin ≥ proofEnd then some false
  else if proofEnd > numLeaves then some false
  else if proofSet.length < proofEnd - proofBegin then some false
  else
    verifyLoop H merkleRoot numLeaves
      ((proofSet.take (proofEnd - proofBegin)).map (leafSum H))
      (proofSet.drop (proofEnd - proofBegin))
      proofBegin proofEnd numLeaves

/-- VerifyProof from verify.go: the single-leaf case of slice proofs. -/
def VerifyProof (H : Bytes → Bytes) (merkleRoot : Bytes)
    (proofSet : List Bytes) (proofIndex numLeaves : Nat) : Option Bool :=
  VerifyProofOfSlice H merkleRoot proofSet proofIndex (proofIndex + 1) numLeaves

/-- The slice-capable CachedTree (cachedtree.go, later variant): a Tree of
pre-hashed nodes plus the proof slice expressed in original leaf indices
and in cached node indices. -/
structure CachedTree where
  cachedNodeHeight : Nat
  trueProofBegin : Nat
  trueProofEnd : Nat
  cachedBegin : Nat
  cachedEnd : Nat
  tree : Tree
deriving DecidableEq, Repr

/-- NewCachedTree from cachedtree.go: note the embedded Tree is zeroed
(`proofEnd = 0`, unlike `Tree.new`) with the cachedTree flag set. -/
def NewCachedTree (cachedNodeHeight : Nat) : CachedTree :=
  { cachedNodeHeight := cachedNodeHeight
    trueProofBegin := 0
    trueProofEnd := 0
    cachedBegin := 0
    cachedEnd := 0
    tree :=
      { head := []
        currentIndex := 0
        proofBegin := 0
        proofEnd := 0
        lader := []
        bases := []
        cachedTree := true } }

/-- Push of CachedTree: the embedded Tree's Push with the cachedTree flag
(set at construction), so the data is inserted un-hashed. -/
def CachedTree.push (H : Bytes → Bytes) (ct : CachedTree) (data : Bytes) : CachedTree :=
  { ct with tree := ct.tree.push H data }

def CachedTree.pushList (H : Bytes → Bytes) (ct : CachedTree) (roots : List Bytes) : CachedTree :=
  roots.foldl (CachedTree.push H) ct

/-- Root of CachedTree: inherited from the embedded Tree. -/
def CachedTree.root (H : Bytes → Bytes) (ct : CachedTree) : Bytes :=
  ct.tree.root H

/-- SetSlice from cachedtree.go: translate the leaf slice to cached-node
indices.  `proofEnd - 1` and the `cachedBegin + 1` comparison are Go
`uint64` operations and are taken mod 2^64 (for `proofEnd = 0` the
subtraction wraps around).  A slice spanning several cached nodes must be
aligned to cached-node boundaries.  (For `cachedNodeHeight ≥ 64` the Go
shift `1 << height` wraps to zero and the divisions abort; the theorems
below restrict heights to below 64.) -/
def CachedTree.setSlice (ct : CachedTree) (proofBegin proofEnd : Nat) :
    Except String CachedTree :=
  if ct.tree.head ≠ [] then
    .error "cannot call SetIndex or SetSlice on Tree if Tree has not been reset"
  else
    let unit := 2 ^ ct.cachedNodeHeight % uint64Mod
    let cachedBegin := proofBegin / unit
    let cachedEnd := (((proofEnd + (uint64Mod - 1)) % uint64Mod) / unit + 1) % uint64Mod
    if cachedEnd ≠ (cachedBegin + 1) % uint64Mod ∧
        (proofBegin % unit ≠ 0 ∨ proofEnd % unit ≠ 0) then
      .error "cannot call SetSlice affecting multiple cached elements and not covering entire cached elements"
    else
      (ct.tree.setSlice cachedBegin cachedEnd).map fun tr =>
        { ct with
          trueProofBegin := proofBegin
          trueProofEnd := proofEnd
          cachedBegin := cachedBegin
          cachedEnd := cachedEnd
          tree := tr }

/-- SetIndex from cachedtree.go: `SetSlice (i, i+1)`. -/
def CachedTree.setIndex (ct : CachedTree) (i : Nat) : Except String CachedTree :=
  ct.setSlice i (i + 1)

/-- Go's reading of a `uint64` value as the signed `int64` with the same
bit pattern (values of `2 ^ 63` and above become negative). -/
def int64OfUint64 (x : Nat) : Int :=
  if x < 2 ^ 63 then (x : Int) else (x : Int) - ((2 : Int) ^ 64)

/-- Prove from cachedtree.go: splice the caller's proof for the cached
unit(s) onto the tail of the embedded Tree's proof, dropping the `cut`
cached-unit base entries the verifier recomputes itself.  Index and count
are reported in original leaf space.  `cut` is the wrapping `uint64`
difference `cachedEnd - cachedBegin`; the readiness guard compares the
tail length against the signed reinterpretation `int(cut)` — false for
any `cut ≥ 2^63` — and the following `proofSetTail[cut:]` aborts (`none`)
whenever `cut` exceeds the tail length. -/
def CachedTree.prove (H : Bytes → Bytes) (ct : CachedTree)
    (cachedProofSet : List Bytes) : Option ProveResult :=
  let leavesPerCachedNode := 2 ^ ct.cachedNodeHeight % uint64Mod
  let numLeaves := leavesPerCachedNode * ct.tree.currentIndex % uint64Mod
  let cut := (ct.cachedEnd % uint64Mod + (uint64Mod - ct.cachedBegin % uint64Mod)) % uint64Mod
  match ct.tree.prove H with
  | none => none
  | some r =>
    let proofSetTail := r.proofSet.getD []
    if (proofSetTail.length : Int) < int64OfUint64 cut then
      some ⟨r.merkleRoot, none, ct.trueProofBegin, numLeaves⟩
    else if proofSetTail.length < cut then none
    else
      some ⟨r.merkleRoot, some (cachedProofSet ++ proofSetTail.drop cut),
        ct.trueProofBegin, numLeaves⟩


/-! ## Reference definitions

`perfRoot` is the root of a perfect subtree of `2^h` leaves, used to state
the stack invariant.  `specMerkleRoot` is the reference recursive Merkle
root in the words of the specification (claim C2): the root of a single
leaf is the leaf transform, and the root over `n > 1` leaves splits at the
largest power of two strictly smaller than `n`.  The leaf transform `f` is
`leafSum H` for ordinary trees and the identity for cached trees. -/

/-- The leaf transform applied by Push: raw data for cached trees,
`leafSum` otherwise. -/
def leafFun (H : Bytes → Bytes) (cached : Bool) : Bytes → Bytes :=
  fun data => if cached then data else leafSum H data

/-- Root of a perfect subtree of height `h` over (exactly) `2^h` leaves. -/
def perfRoot (H f : Bytes → Bytes) : Nat → List Bytes → Bytes
  | 0, l => f (l.headD [])
  | h + 1, l =>
    nodeSum H (perfRoot H f h (l.take (2 ^ h))) (perfRoot H f h (l.drop (2 ^ h)))

/-- Fuel-bounded binary logarithm (the fuel is irrelevant once it is at
least the argument, see `log2Fuel_eq`). -/
def log2Fuel : Nat → Nat → Nat
  | 0, _ => 0
  | fuel + 1, n => if 2 ≤ n then log2Fuel fuel (n / 2) + 1 else 0

/-- Modelled from the spec (reference for claim C2): the recursive Merkle
root, splitting `n > 1` leaves at the largest power of two strictly
smaller than `n` (that power is `2 ^ log2 (n-1)`).  The recursion is
bounded by a fuel counter instantiated with the list length. -/
def specMerkleRootGo (H f : Bytes → Bytes) : Nat → List Bytes → Bytes
  | 0, _ => []
  | fuel + 1, L =>
    if L.length = 0 then []
    else if L.length = 1 then f (L.headD [])
    else
      nodeSum H
        (specMerkleRootGo H f fuel (L.take (2 ^ log2Fuel (L.length - 1) (L.length - 1))))
        (specMerkleRootGo H f fuel (L.drop (2 ^ log2Fuel (L.length - 1) (L.length - 1))))

/-- The reference recursive Merkle root of the spec, with leaf transform
`f` (`leafSum H` for ordinary trees, the identity for cached trees). -/
def specMerkleRoot (H f : Bytes → Bytes) (L : List Bytes) : Bytes :=
  specMerkleRootGo H f L.length L

/-! ## The subtree stack invariant -/

/-- The height lies strictly below the first node of the stack (vacuously
true for the empty stack). -/
def heightLtStack (h : Nat) : Stack → Prop
  | [] => True
  | s :: _ => h < s.height

/-- The height is at most that of the first node of the stack (vacuously
true for the empty stack). -/
def heightLeStack (h : Nat) : Stack → Prop
  | [] => True
  | s :: _ => h ≤ s.height

/-- `StackModels H f stack L`: the stack (head first) is the canonical
subtree decomposition of the leaf list `L`.  The head node covers the
final `2 ^ height` leaves of `L` and its sum is the perfect subtree root
of that chunk; heights strictly increase towards the tail; the tail of
the stack models the remaining prefix of `L`. -/
def StackModels (H f : Bytes → Bytes) : Stack → List Bytes → Prop
  | [], L => L = []
  | s :: ss, L =>
    s.endIdx = L.length ∧
    s.beginIdx + 2 ^ s.height = L.length ∧
    s.sum = perfRoot H f s.height (L.drop s.beginIdx) ∧
    heightLtStack s.height ss ∧
    StackModels H f ss (L.take s.beginIdx)

/-- A fresh tree with a chosen proof slice and cached flag: the state of
`New` followed by `SetSlice` (and, for `cachedTree := true` with slice
`[0, 0)`, the embedded tree of `NewCachedTree`). -/
def Tree.fresh (a b : Nat) (cached : Bool) : Tree :=
  { Tree.new with proofBegin := a, proofEnd := b, cachedTree := cached }

theorem setSlice_new (a b : Nat) : Tree.new.setSlice a b = .ok (Tree.fresh a b false) := rfl

theorem pushFoldGo_stack (H f : Bytes → Bytes) (a b : Nat) :
    ∀ (ss : Stack) (c : SubTreeNode) (M : List Bytes) (lader : ProofLader),
      c.endIdx = M.length →
      c.beginIdx + 2 ^ c.height = M.length →
      c.sum = perfRoot H f c.height (M.drop c.beginIdx) →
      heightLeStack c.height ss →
      StackModels H f ss (M.take c.beginIdx) →
      StackModels H f (pushFoldGo H a b c ss lader).1 M := by
  intro ss
  induction ss with
  | nil =>
    intro c M lader h1 h2 h3 _ h5
    exact ⟨h1, h2, h3, trivial, h5⟩
  | cons s rest ih =>
    intro c M lader h1 h2 h3 h4 h5
    obtain ⟨g1, g2, g3, g4, g5⟩ := h5
    have hble : c.beginIdx ≤ M.length := by
      have := Nat.one_le_two_pow (n := c.height)
      omega
    have hlen : (M.take c.beginIdx).length = c.beginIdx := by
      simp [List.length_take]
      omega
    have g1' : s.endIdx = c.beginIdx := by rw [g1, hlen]
    have g2' : s.beginIdx + 2 ^ s.height = c.beginIdx := by rw [← hlen]; exact g2
    rw [pushFoldGo]
    by_cases hh : c.height = s.height
    · rw [if_pos hh]
      have e1 : s.sum = perfRoot H f s.height ((M.drop s.beginIdx).take (2 ^ s.height)) := by
        rw [g3, List.take_drop, g2']
      have e2 : c.sum = perfRoot H f s.height ((M.drop s.beginIdx).drop (2 ^ s.height)) := by
        rw [h3, List.drop_drop, g2', hh]
      apply ih
      · show c.endIdx = M.length
        exact h1
      · show s.beginIdx + 2 ^ (s.height + 1) = M.length
        have hp : 2 ^ (s.height + 1) = 2 ^ s.height + 2 ^ s.height := by
          rw [pow_succ]
          omega
        rw [hh] at h2
        omega
      · show nodeSum H s.sum c.sum = perfRoot H f (s.height + 1) (M.drop s.beginIdx)
        rw [perfRoot, ← e1, ← e2]
      · show heightLeStack (s.height + 1) rest
        cases rest with
        | nil => trivial
        | cons r _ => exact g4
      · show StackModels H f rest (M.take s.beginIdx)
        have hsble : s.beginIdx ≤ c.beginIdx := Nat.le.intro g2'
        rw [List.take_take, Nat.min_eq_left hsble] at g5
        exact g5
    · rw [if_neg hh]
      have hlt : c.height < s.height := lt_of_le_of_ne h4 hh
      exact ⟨h1, h2, h3, hlt, ⟨g1, g2, g3, g4, g5⟩⟩

theorem push_preserves (H : Bytes → Bytes) (t : Tree) (x : Bytes) :
    (t.push H x).proofBegin = t.proofBegin ∧
    (t.push H x).proofEnd = t.proofEnd ∧
    (t.push H x).cachedTree = t.cachedTree ∧
    (t.push H x).currentIndex = t.currentIndex + 1 := by
  simp [Tree.push]

theorem push_models (H : Bytes → Bytes) {t : Tree} {L : List Bytes} (x : Bytes)
    (hs : StackModels H (leafFun H t.cachedTree) t.head L)
    (hi : t.currentIndex = L.length) :
    StackModels H (leafFun H t.cachedTree) (t.push H x).head (L ++ [x]) := by
  show StackModels H (leafFun H t.cachedTree)
    (pushFoldGo H t.proofBegin t.proofEnd
      { height := 0, beginIdx := t.currentIndex, endIdx := t.currentIndex + 1,
        sum := if t.cachedTree then x else leafSum H x } t.head t.lader).1 (L ++ [x])
  apply pushFoldGo_stack
  · simp [hi]
  · simp [hi]
  · show (if t.cachedTree then x else leafSum H x) =
      perfRoot H (leafFun H t.cachedTree) 0 ((L ++ [x]).drop t.currentIndex)
    rw [perfRoot, hi, List.drop_left]
    rfl
  · cases t.head with
    | nil => trivial
    | cons s _ => exact Nat.zero_le _
  · rw [hi, List.take_left]
    exact hs

theorem pushList_invariant (H : Bytes → Bytes) (a b : Nat) (cached : Bool) (L : List Bytes) :
    StackModels H (leafFun H cached) (Tree.pushList H (Tree.fresh a b cached) L).head L ∧
    (Tree.pushList H (Tree.fresh a b cached) L).currentIndex = L.length ∧
    (Tree.pushList H (Tree.fresh a b cached) L).proofBegin = a ∧
    (Tree.pushList H (Tree.fresh a b cached) L).proofEnd = b ∧
    (Tree.pushList H (Tree.fresh a b cached) L).cachedTree = cached := by
  induction L using List.reverseRecOn with
  | nil =>
    refine ⟨?_, rfl, rfl, rfl, rfl⟩
    show ([] : List Bytes) = []
    rfl
  | append_singleton L x ih =>
    obtain ⟨ih1, ih2, ih3, ih4, ih5⟩ := ih
    rw [Tree.pushList, List.foldl_concat]
    rw [Tree.pushList] at ih1 ih2 ih3 ih4 ih5
    set t := List.foldl (Tree.push H) (Tree.fresh a b cached) L with ht
    obtain ⟨p1, p2, p3, p4⟩ := push_preserves H t x
    refine ⟨?_, ?_, ?_, ?_, ?_⟩
    · rw [← ih5]
      exact push_models H x (by rw [ih5]; exact ih1) ih2
    · simp [p4, ih2]
    · rw [p1, ih3]
    · rw [p2, ih4]
    · rw [p3, ih5]

/-! ## Root collapse versus the reference recursive Merkle root -/

theorem log2Fuel_eq :
    ∀ (fuel m k : Nat), m ≤ fuel → 2 ^ k ≤ m → m < 2 ^ (k + 1) → log2Fuel fuel m = k := by
  intro fuel
  induction fuel with
  | zero =>
    intro m k h1 h2 h3
    have := Nat.one_le_two_pow (n := k)
    omega
  | succ fuel ih =>
    intro m k h1 h2 h3
    rw [log2Fuel]
    by_cases hm : 2 ≤ m
    · rw [if_pos hm]
      cases k with
      | zero =>
        rw [pow_succ, pow_zero] at h3
        omega
      | succ k =>
        have hdiv1 : 2 ^ k ≤ m / 2 := by
          rw [Nat.le_div_iff_mul_le (by omega)]
          rw [pow_succ] at h2
          omega
        have hdiv2 : m / 2 < 2 ^ (k + 1) := by
          rw [Nat.div_lt_iff_lt_mul (by omega)]
          rw [pow_succ (2 : Nat) (k + 1)] at h3
          omega
        rw [ih (m / 2) k (by omega) hdiv1 hdiv2]
    · rw [if_neg hm]
      cases k with
      | zero => rfl
      | succ k =>
        have h2' : 2 ≤ 2 ^ (k + 1) := by
          have := Nat.one_le_two_pow (n := k)
          rw [pow_succ]
          omega
        omega

theorem pow_log2Fuel_le :
    ∀ (fuel m : Nat), 1 ≤ m → m ≤ fuel → 2 ^ log2Fuel fuel m ≤ m := by
  intro fuel
  induction fuel with
  | zero =>
    intro m h1 h2
    omega
  | succ fuel ih =>
    intro m h1 h2
    rw [log2Fuel]
    by_cases hm : 2 ≤ m
    · rw [if_pos hm, pow_succ]
      have := ih (m / 2) (by omega) (by omega)
      omega
    · rw [if_neg hm]
      simpa using h1

theorem specMerkleRootGo_congr (H f : Bytes → Bytes) :
    ∀ (f1 f2 : Nat) (L : List Bytes), L.length ≤ f1 → L.length ≤ f2 →
      specMerkleRootGo H f f1 L = specMerkleRootGo H f f2 L := by
  intro f1
  induction f1 with
  | zero =>
    intro f2 L h1 _
    have hL : L = [] := by
      cases L with
      | nil => rfl
      | cons x xs => simp at h1
    subst hL
    cases f2 with
    | zero => rfl
    | succ f2 =>
      simp [specMerkleRootGo]
  | succ f1 ih =>
    intro f2 L h1 h2
    cases f2 with
    | zero =>
      have hL : L = [] := by
        cases L with
        | nil => rfl
        | cons x xs => simp at h2
      subst hL
      simp [specMerkleRootGo]
    | succ f2 =>
      rw [specMerkleRootGo, specMerkleRootGo]
      by_cases h0 : L.length = 0
      · rw [if_pos h0, if_pos h0]
      · rw [if_neg h0, if_neg h0]
        by_cases hone : L.length = 1
        · rw [if_pos hone, if_pos hone]
        · rw [if_neg hone, if_neg hone]
          have hk1 : (1 : Nat) ≤ 2 ^ log2Fuel (L.length - 1) (L.length - 1) :=
            Nat.one_le_two_pow
          have hkle : 2 ^ log2Fuel (L.length - 1) (L.length - 1) ≤ L.length - 1 :=
            pow_log2Fuel_le _ _ (by omega) le_rfl
          have e1 : specMerkleRootGo H f f1
                (L.take (2 ^ log2Fuel (L.length - 1) (L.length - 1))) =
              specMerkleRootGo H f f2
                (L.take (2 ^ log2Fuel (L.length - 1) (L.length - 1))) := by
            apply ih
            · simp [List.length_take]
              omega
            · simp [List.length_take]
              omega
          have e2 : specMerkleRootGo H f f1
                (L.drop (2 ^ log2Fuel (L.length - 1) (L.length - 1))) =
              specMerkleRootGo H f f2
                (L.drop (2 ^ log2Fuel (L.length - 1) (L.length - 1))) := by
            apply ih
            · simp [List.length_drop]
              omega
            · simp [List.length_drop]
              omega
          rw [e1, e2]

/-- The fuel of `specMerkleRootGo` is irrelevant once sufficient. -/
theorem specMerkleRootGo_eq_spec (H f : Bytes → Bytes) (fuel : Nat) (L : List Bytes)
    (h : L.length ≤ fuel) : specMerkleRootGo H f fuel L = specMerkleRoot H f L :=
  specMerkleRootGo_congr H f fuel L.length L h le_rfl

/-- One-step unfolding of the reference root. -/
theorem specMerkleRoot_eq (H f : Bytes → Bytes) (L : List Bytes) :
    specMerkleRoot H f L =
      if L.length = 0 then []
      else if L.length = 1 then f (L.headD [])
      else
        nodeSum H
          (specMerkleRoot H f (L.take (2 ^ log2Fuel (L.length - 1) (L.length - 1))))
          (specMerkleRoot H f (L.drop (2 ^ log2Fuel (L.length - 1) (L.length - 1)))) := by
  have key : specMerkleRoot H f L = specMerkleRootGo H f (L.length + 1) L :=
    (specMerkleRootGo_eq_spec H f (L.length + 1) L (by omega)).symm
  rw [key, specMerkleRootGo]
  by_cases h0 : L.length = 0
  · rw [if_pos h0, if_pos h0]
  · rw [if_neg h0, if_neg h0]
    by_cases hone : L.length = 1
    · rw [if_pos hone, if_pos hone]
    · rw [if_neg hone, if_neg hone]
      have hk1 : (1 : Nat) ≤ 2 ^ log2Fuel (L.length - 1) (L.length - 1) :=
        Nat.one_le_two_pow
      have hkle : 2 ^ log2Fuel (L.length - 1) (L.length - 1) ≤ L.length - 1 :=
        pow_log2Fuel_le _ _ (by omega) le_rfl
      rw [specMerkleRootGo_eq_spec H f L.length _ (by simp [List.length_take]),
        specMerkleRootGo_eq_spec H f L.length _ (by simp [List.length_drop])]

theorem specMerkleRoot_split (H f : Bytes → Bytes) (l : List Bytes) (k : Nat)
    (h1 : 2 ^ k < l.length) (h2 : l.length ≤ 2 ^ (k + 1)) :
    specMerkleRoot H f l =
      nodeSum H (specMerkleRoot H f (l.take (2 ^ k))) (specMerkleRoot H f (l.drop (2 ^ k))) := by
  have hpow : (1 : Nat) ≤ 2 ^ k := Nat.one_le_two_pow
  rw [specMerkleRoot_eq]
  rw [if_neg (by omega), if_neg (by omega)]
  have hlog : log2Fuel (l.length - 1) (l.length - 1) = k :=
    log2Fuel_eq _ _ _ le_rfl (by omega) (by omega)
  rw [hlog]

theorem specMerkleRoot_pow (H f : Bytes → Bytes) :
    ∀ (h : Nat) (l : List Bytes), l.length = 2 ^ h →
      specMerkleRoot H f l = perfRoot H f h l := by
  intro h
  induction h with
  | zero =>
    intro l hl
    rw [specMerkleRoot_eq, if_neg (by omega), if_pos (by omega)]
    rfl
  | succ h ih =>
    intro l hl
    have hpow : (1 : Nat) ≤ 2 ^ h := Nat.one_le_two_pow
    have hlt : 2 ^ h < l.length := by
      rw [hl, pow_succ]
      omega
    rw [specMerkleRoot_split H f l h hlt (by omega), perfRoot]
    congr 1
    · apply ih
      simp [List.length_take]
      omega
    · apply ih
      rw [List.length_drop, hl, pow_succ]
      omega

/-- Size bound of the carried suffix against the first node of the stack. -/
def sizeLeStack (r : Nat) : Stack → Prop
  | [] => True
  | s :: _ => r ≤ 2 ^ s.height

theorem specMerkleRoot_singleton (H f : Bytes → Bytes) (x : Bytes) :
    specMerkleRoot H f [x] = f x := by
  rw [specMerkleRoot_eq]
  simp

theorem rootFoldGo_spec (H f : Bytes → Bytes) :
    ∀ (ss : Stack) (c : SubTreeNode) (L : List Bytes),
      c.beginIdx < L.length →
      c.sum = specMerkleRoot H f (L.drop c.beginIdx) →
      sizeLeStack (L.length - c.beginIdx) ss →
      StackModels H f ss (L.take c.beginIdx) →
      rootFoldGo H c ss = specMerkleRoot H f L := by
  intro ss
  induction ss with
  | nil =>
    intro c L h1 h2 _ h4
    have hb : c.beginIdx = 0 := by
      have : L.take c.beginIdx = [] := h4
      rcases List.take_eq_nil_iff.mp this with h | h
      · exact h
      · subst h; simp at h1
    show c.sum = specMerkleRoot H f L
    rw [h2, hb, List.drop_zero]
  | cons s rest ih =>
    intro c L h1 h2 h3 h4
    obtain ⟨g1, g2, g3, g4, g5⟩ := h4
    have hble : c.beginIdx ≤ L.length := le_of_lt h1
    have hlen : (L.take c.beginIdx).length = c.beginIdx := by
      simp [List.length_take]
      omega
    have g2' : s.beginIdx + 2 ^ s.height = c.beginIdx := by rw [← hlen]; exact g2
    have hr1 : 1 ≤ L.length - c.beginIdx := by omega
    have hr2 : L.length - c.beginIdx ≤ 2 ^ s.height := h3
    rw [rootFoldGo]
    apply ih
    · show s.beginIdx < L.length
      have : (1 : Nat) ≤ 2 ^ s.height := Nat.one_le_two_pow
      omega
    · show nodeSum H s.sum c.sum = specMerkleRoot H f (L.drop s.beginIdx)
      have hlen' : (L.drop s.beginIdx).length = 2 ^ s.height + (L.length - c.beginIdx) := by
        rw [List.length_drop]
        omega
      rw [specMerkleRoot_split H f (L.drop s.beginIdx) s.height
        (by omega) (by rw [hlen', pow_succ]; omega)]
      congr 1
      · rw [g3, List.take_drop, g2']
        symm
        apply specMerkleRoot_pow
        rw [List.length_drop, List.length_take]
        omega
      · rw [h2, List.drop_drop, g2']
    · show sizeLeStack (L.length - s.beginIdx) rest
      cases rest with
      | nil => trivial
      | cons r _ =>
        show L.length - s.beginIdx ≤ 2 ^ r.height
        have hg : s.height < r.height := g4
        have : 2 ^ (s.height + 1) ≤ 2 ^ r.height := Nat.pow_le_pow_right (by omega) hg
        rw [pow_succ] at this
        omega
    · show StackModels H f rest (L.take s.beginIdx)
      have hsble : s.beginIdx ≤ c.beginIdx := Nat.le.intro g2'
      rw [List.take_take, Nat.min_eq_left hsble] at g5
      exact g5

theorem root_eq_spec (H f : Bytes → Bytes) {stack : Stack} {L : List Bytes}
    (h : StackModels H f stack L) (hne : L ≠ []) :
    rootFold H stack = specMerkleRoot H f L := by
  cases stack with
  | nil => exact absurd h hne
  | cons s ss =>
    obtain ⟨g1, g2, g3, g4, g5⟩ := h
    have hpow : (1 : Nat) ≤ 2 ^ s.height := Nat.one_le_two_pow
    show rootFoldGo H s ss = specMerkleRoot H f L
    apply rootFoldGo_spec H f ss s L
    · omega
    · rw [g3]
      symm
      apply specMerkleRoot_pow
      rw [List.length_drop]
      omega
    · show sizeLeStack (L.length - s.beginIdx) ss
      cases ss with
      | nil => trivial
      | cons r _ =>
        show L.length - s.beginIdx ≤ 2 ^ r.height
        have hg : s.height < r.height := g4
        have : 2 ^ s.height ≤ 2 ^ r.height := Nat.pow_le_pow_right (by omega) (le_of_lt hg)
        omega
    · exact g5

theorem StackModels_chain (H f : Bytes → Bytes) :
    ∀ (ss : Stack) (L : List Bytes), StackModels H f ss L →
      List.Chain' (fun x y => x.height < y.height) ss ∧
        ∀ s ∈ ss, s.endIdx = s.beginIdx + 2 ^ s.height := by
  intro ss
  induction ss with
  | nil => exact fun L _ => ⟨List.chain'_nil, by simp⟩
  | cons s rest ih =>
    intro L h
    obtain ⟨g1, g2, g3, g4, g5⟩ := h
    obtain ⟨ihc, ihs⟩ := ih (L.take s.beginIdx) g5
    constructor
    · rw [List.chain'_cons']
      refine ⟨?_, ihc⟩
      intro y hy
      cases rest with
      | nil => simp at hy
      | cons r rest' =>
        simp at hy
        rw [← hy]
        exact g4
    · intro x hx
      rcases List.mem_cons.mp hx with hx | hx
      · subst hx
        omega
      · exact ihs x hx

/-! ## Roots of pushed trees -/

theorem leafFun_false (H : Bytes → Bytes) : leafFun H false = leafSum H := rfl

theorem leafFun_true (H : Bytes → Bytes) : leafFun H true = id := rfl

theorem tree_root_spec (H : Bytes → Bytes) {L : List Bytes} (hL : L ≠ [])
    (a b : Nat) (cached : Bool) :
    (Tree.pushList H (Tree.fresh a b cached) L).root H =
      specMerkleRoot H (leafFun H cached) L := by
  obtain ⟨h1, _, _, _, _⟩ := pushList_invariant H a b cached L
  exact root_eq_spec H _ h1 hL

/-- A toy hash (injective, never nil) used to instantiate witnesses. -/
def probeHash : Bytes → Bytes := fun l => 9 :: l

/-- C2: pushing `n ≥ 1` leaves into a fresh Tree yields the reference
recursive Merkle root of the spec (single leaf gives `leafSum`, more
leaves split at the largest power of two strictly below the count); in
particular one leaf `x` gives `leafSum x`, and the root over 8 leaves is
the `nodeSum` of the roots over the two halves. -/
theorem claim_C2 (H : Bytes → Bytes) (L : List Bytes) (x : Bytes) (L8 : List Bytes)
    (hL : L ≠ []) (h8 : L8.length = 8) :
    (Tree.pushList H Tree.new L).root H = specMerkleRoot H (leafSum H) L ∧
    (Tree.new.push H x).root H = leafSum H x ∧
    (Tree.pushList H Tree.new L8).root H =
      nodeSum H ((Tree.pushList H Tree.new (L8.take 4)).root H)
        ((Tree.pushList H Tree.new (L8.drop 4)).root H) := by
  have hroot : ∀ M : List Bytes, M ≠ [] →
      (Tree.pushList H Tree.new M).root H = specMerkleRoot H (leafSum H) M := by
    intro M hM
    have := tree_root_spec H hM 0 1 false
    rw [leafFun_false] at this
    exact this
  refine ⟨hroot L hL, ?_, ?_⟩
  · have h1 : (Tree.pushList H Tree.new [x]).root H = specMerkleRoot H (leafSum H) [x] :=
      hroot [x] (by simp)
    have h2 : specMerkleRoot H (leafSum H) [x] = leafSum H x :=
      specMerkleRoot_singleton H (leafSum H) x
    show (Tree.pushList H Tree.new [x]).root H = leafSum H x
    rw [h1, h2]
  · have ht : L8.take 4 ≠ [] := by
      intro hcon
      have := congrArg List.length hcon
      simp [List.length_take, h8] at this
    have hd : L8.drop 4 ≠ [] := by
      intro hcon
      have := congrArg List.length hcon
      simp [List.length_drop, h8] at this
    have h8ne : L8 ≠ [] := by
      intro hc
      rw [hc] at h8
      simp at h8
    rw [hroot L8 h8ne, hroot _ ht, hroot _ hd]
    have hsplit := specMerkleRoot_split H (leafSum H) L8 2 (by rw [h8]; norm_num)
      (by rw [h8]; norm_num)
    norm_num at hsplit
    exact hsplit

theorem claim_C2_witness :
    (([[1], [2], [3]] : List Bytes) ≠ [] ∧
      ([[1], [2], [3], [4], [5], [6], [7], [8]] : List Bytes).length = 8) ∧
    ((Tree.pushList probeHash Tree.new [[1], [2], [3]]).root probeHash =
        specMerkleRoot probeHash (leafSum probeHash) [[1], [2], [3]] ∧
      (Tree.new.push probeHash [7]).root probeHash = leafSum probeHash [7] ∧
      (Tree.pushList probeHash Tree.new
            [[1], [2], [3], [4], [5], [6], [7], [8]]).root probeHash =
        nodeSum probeHash
          ((Tree.pushList probeHash Tree.new
              (([[1], [2], [3], [4], [5], [6], [7], [8]] : List Bytes).take 4)).root probeHash)
          ((Tree.pushList probeHash Tree.new
              (([[1], [2], [3], [4], [5], [6], [7], [8]] : List Bytes).drop 4)).root
            probeHash)) :=
  ⟨⟨by decide, by decide⟩,
    claim_C2 probeHash [[1], [2], [3]] [7] [[1], [2], [3], [4], [5], [6], [7], [8]]
      (by decide) (by decide)⟩

theorem cachedTree_pushList_tree (H : Bytes → Bytes) :
    ∀ (roots : List Bytes) (ct : CachedTree),
      (CachedTree.pushList H ct roots).tree = Tree.pushList H ct.tree roots := by
  intro roots
  induction roots with
  | nil => intro ct; rfl
  | cons r rs ih =>
    intro ct
    show (CachedTree.pushList H (ct.push H r) rs).tree = _
    rw [ih]
    rfl

/-- C6: after any sequence of pushes into a fresh tree (any proof slice,
plain or cached flavour), the subtree stack has strictly increasing
heights from head to tail and every node covers exactly `2 ^ height`
leaves; the same holds for the stack of a CachedTree. -/
theorem claim_C6 (H : Bytes → Bytes) (a b : Nat) (cached : Bool) (L : List Bytes)
    (roots : List Bytes) (ch : Nat) :
    (List.Chain' (fun x y => x.height < y.height)
        (Tree.pushList H (Tree.fresh a b cached) L).head ∧
      ∀ s ∈ (Tree.pushList H (Tree.fresh a b cached) L).head,
        s.endIdx = s.beginIdx + 2 ^ s.height) ∧
    List.Chain' (fun x y => x.height < y.height)
      (CachedTree.pushList H (NewCachedTree ch) roots).tree.head := by
  constructor
  · obtain ⟨h1, _⟩ := pushList_invariant H a b cached L
    exact StackModels_chain H _ _ L h1
  · rw [cachedTree_pushList_tree]
    have hct : (NewCachedTree ch).tree = Tree.fresh 0 0 true := rfl
    rw [hct]
    obtain ⟨h1, _⟩ := pushList_invariant H 0 0 true roots
    exact (StackModels_chain H _ _ roots h1).1

/-- C9: Prove on an empty tree, or with fewer leaves than the selected
proof end, returns the current root, a nil proof set, the proof begin and
the current index; in particular a tree with zero pushes proves to a nil
proof set and its Root is the nil sentinel. -/
theorem claim_C9 (H : Bytes → Bytes) (t : Tree)
    (h : t.head = [] ∨ t.currentIndex < t.proofEnd) :
    t.prove H = some ⟨t.root H, none, t.proofBegin, t.currentIndex⟩ ∧
    Tree.new.prove H = some ⟨[], none, 0, 0⟩ ∧
    Tree.new.root H = [] := by
  refine ⟨?_, rfl, rfl⟩
  rw [Tree.prove, if_pos h]

theorem claim_C9_witness :
    (((Tree.fresh 0 2 false).push probeHash [5]).head = [] ∨
      ((Tree.fresh 0 2 false).push probeHash [5]).currentIndex <
        ((Tree.fresh 0 2 false).push probeHash [5]).proofEnd) ∧
    (((Tree.fresh 0 2 false).push probeHash [5]).prove probeHash =
        some ⟨((Tree.fresh 0 2 false).push probeHash [5]).root probeHash, none,
          ((Tree.fresh 0 2 false).push probeHash [5]).proofBegin,
          ((Tree.fresh 0 2 false).push probeHash [5]).currentIndex⟩ ∧
      Tree.new.prove probeHash = some ⟨[], none, 0, 0⟩ ∧
      Tree.new.root probeHash = []) := by
  have hside : ((Tree.fresh 0 2 false).push probeHash [5]).head = [] ∨
      ((Tree.fresh 0 2 false).push probeHash [5]).currentIndex <
        ((Tree.fresh 0 2 false).push probeHash [5]).proofEnd := by
    right
    decide
  exact ⟨hside, claim_C9 probeHash ((Tree.fresh 0 2 false).push probeHash [5]) hside⟩
/-! ## CachedTree claims -/

/-- C8 counterexample: the claim promises that whenever the tail proof
has fewer entries than `cut = cachedEnd - cachedBegin`, Prove returns a
nil proof set with accurate root, index and count.  But `cut` is a
wrapping `uint64` difference and the guard compares against its signed
`int` reading: after `SetSlice (5, 3)` at cached node height 0 (accepted,
since whole cached units are covered) and three pushes, `cut` wraps to
`2^64 - 2`, `int(cut) = -2` silently skips the readiness guard, and
`proofSetTail[cut:]` aborts instead of returning the promised nil proof
set. -/
theorem claim_C8_counterexample :
    ∃ ct : CachedTree,
      (NewCachedTree 0).setSlice 5 3 = .ok ct ∧
      ((CachedTree.pushList probeHash ct [[1], [2], [3]]).tree.prove probeHash).isSome
        = true ∧
      CachedTree.prove probeHash (CachedTree.pushList probeHash ct [[1], [2], [3]]) [[7]]
        = none := by
  refine ⟨_, rfl, ?_, ?_⟩
  · decide
  · decide

/-- C8 (amended): when the embedded Tree's Prove yields a result, the
cached node height is below 64, the leaf count does not overflow, and the
cached range is well formed (`cachedBegin ≤ cachedEnd < 2^64` with a
difference below `2^63`, as produced by every `SetSlice` call with
`beginLeaf < endLeaf` on heights below 63), CachedTree.Prove returns the
supplied cached proof set spliced with the tail of the embedded proof
after dropping `cut = cachedEnd - cachedBegin` entries — or a nil proof
set when the tail has fewer than `cut` entries; either way the root, the
original-leaf-space index `trueProofBegin` and the leaf count
`2 ^ cachedNodeHeight * currentIndex` are returned. -/
theorem claim_C8_amended (H : Bytes → Bytes) (ct : CachedTree) (cps : List Bytes)
    (r : ProveResult)
    (hp : ct.tree.prove H = some r) (hh : ct.cachedNodeHeight < 64)
    (hsz : 2 ^ ct.cachedNodeHeight * ct.tree.currentIndex < uint64Mod)
    (hbe : ct.cachedBegin ≤ ct.cachedEnd) (hElt : ct.cachedEnd < uint64Mod)
    (hcut : ct.cachedEnd - ct.cachedBegin < 2 ^ 63) :
    ct.prove H cps =
      some ⟨r.merkleRoot,
        if (r.proofSet.getD []).length < ct.cachedEnd - ct.cachedBegin then none
        else some (cps ++ (r.proofSet.getD []).drop (ct.cachedEnd - ct.cachedBegin)),
        ct.trueProofBegin,
        2 ^ ct.cachedNodeHeight * ct.tree.currentIndex⟩ := by
  have hpow : 2 ^ ct.cachedNodeHeight % uint64Mod = 2 ^ ct.cachedNodeHeight := by
    apply Nat.mod_eq_of_lt
    exact Nat.pow_lt_pow_right (by omega) hh
  have hnl : 2 ^ ct.cachedNodeHeight % uint64Mod * ct.tree.currentIndex % uint64Mod =
      2 ^ ct.cachedNodeHeight * ct.tree.currentIndex := by
    rw [hpow]
    exact Nat.mod_eq_of_lt hsz
  have hBmod : ct.cachedBegin % uint64Mod = ct.cachedBegin :=
    Nat.mod_eq_of_lt (by omega)
  have hEmod : ct.cachedEnd % uint64Mod = ct.cachedEnd := Nat.mod_eq_of_lt hElt
  have hUpos : 0 < uint64Mod := by
    rw [uint64Mod]
    positivity
  have hcuteq : (ct.cachedEnd % uint64Mod +
      (uint64Mod - ct.cachedBegin % uint64Mod)) % uint64Mod =
      ct.cachedEnd - ct.cachedBegin := by
    rw [hBmod, hEmod]
    rw [show ct.cachedEnd + (uint64Mod - ct.cachedBegin) =
      (ct.cachedEnd - ct.cachedBegin) + uint64Mod from by omega]
    rw [Nat.add_mod_right]
    exact Nat.mod_eq_of_lt (by omega)
  have hint : int64OfUint64 (ct.cachedEnd - ct.cachedBegin) =
      ((ct.cachedEnd - ct.cachedBegin : Nat) : Int) := by
    rw [int64OfUint64, if_pos hcut]
  rw [CachedTree.prove, hp]
  simp only [hcuteq, hnl, hint]
  by_cases hlt : (r.proofSet.getD []).length < ct.cachedEnd - ct.cachedBegin
  · rw [if_pos (Nat.cast_lt.mpr hlt), if_pos hlt]
  · rw [if_neg (fun hc => hlt (Nat.cast_lt.mp hc)), if_neg hlt, if_neg hlt]

theorem claim_C8_amended_witness :
    ((NewCachedTree 1).tree.prove probeHash =
        some ⟨[], none, 0, 0⟩ ∧ (1 : Nat) < 64 ∧ 2 ^ 1 * 0 < uint64Mod ∧
        (0 : Nat) ≤ 0 ∧ (0 : Nat) < uint64Mod ∧ (0 : Nat) - 0 < 2 ^ 63) ∧
    (NewCachedTree 1).prove probeHash [[3]] =
      some ⟨[], if (([] : List Bytes)).length < 0 - 0 then none
        else some ([[3]] ++ ([] : List Bytes).drop (0 - 0)), 0, 2 ^ 1 * 0⟩ := by
  refine ⟨⟨by decide, by decide, ?_, by decide, ?_, by decide⟩, ?_⟩
  · show 0 < uint64Mod
    decide
  · show 0 < uint64Mod
    decide
  · exact claim_C8_amended probeHash (NewCachedTree 1) [[3]] ⟨[], none, 0, 0⟩ (by decide)
      (by decide) (by show 0 < uint64Mod; decide) (by decide)
      (by show 0 < uint64Mod; decide) (by decide)

/-- C10 counterexample: `SetSlice (1, 0)` on a fresh cached tree of node
height 1 does return an error (the misalignment branch fires on the
wrapped range), refuting the claim as stated. -/
theorem claim_C10_counterexample :
    (NewCachedTree 1).setSlice 1 0 =
      .error "cannot call SetSlice affecting multiple cached elements and not covering entire cached elements" := by
  rfl

/-- C10 amended: for cached node heights below 64 and a slice begin that is
a multiple of the cached-unit size, `SetSlice (begin, 0)` on an empty
cached tree does not return an error: `(endLeaf - 1)` wraps around in
64-bit arithmetic and the call reports success with the wrapped range
`cachedEnd = ((2^64 - 1) / 2^height + 1) mod 2^64`. -/
theorem claim_C10_amended (ht begin' : Nat) (hh : ht < 64) (halign : begin' % 2 ^ ht = 0) :
    ∃ ct' : CachedTree,
      (NewCachedTree ht).setSlice begin' 0 = .ok ct' ∧
      ct'.cachedEnd = ((2 ^ 64 - 1) / 2 ^ ht + 1) % 2 ^ 64 ∧
      ct'.cachedBegin = begin' / 2 ^ ht ∧
      ct'.tree.proofBegin = ct'.cachedBegin ∧
      ct'.tree.proofEnd = ct'.cachedEnd ∧
      ct'.trueProofBegin = begin' ∧
      ct'.trueProofEnd = 0 := by
  have hpow : 2 ^ ht % uint64Mod = 2 ^ ht := by
    apply Nat.mod_eq_of_lt
    exact Nat.pow_lt_pow_right (by omega) hh
  have hmod : (0 + (uint64Mod - 1)) % uint64Mod = 2 ^ 64 - 1 := by
    rw [Nat.zero_add]
    apply Nat.mod_eq_of_lt
    show uint64Mod - 1 < uint64Mod
    have : (0 : Nat) < uint64Mod := by
      rw [uint64Mod]
      positivity
    omega
  rw [CachedTree.setSlice]
  simp only [show (NewCachedTree ht).cachedNodeHeight = ht from rfl]
  rw [if_neg (by simp [NewCachedTree])]
  rw [if_neg ?hcond]
  case hcond =>
    intro hcon
    rcases hcon.2 with hc | hc
    · rw [hpow] at hc
      exact hc halign
    · rw [hpow] at hc
      simp at hc
  · rw [Tree.setSlice, if_neg (by simp [NewCachedTree])]
    refine ⟨_, rfl, ?_, ?_, rfl, rfl, rfl, rfl⟩
    · show (((0 + (uint64Mod - 1)) % uint64Mod) / (2 ^ ht % uint64Mod) + 1) % uint64Mod =
        ((2 ^ 64 - 1) / 2 ^ ht + 1) % 2 ^ 64
      rw [hmod, hpow]
      rfl
    · show begin' / (2 ^ ht % uint64Mod) = begin' / 2 ^ ht
      rw [hpow]

theorem claim_C10_witness :
    ((2 : Nat) < 64 ∧ (8 : Nat) % 2 ^ 2 = 0) ∧
    (∃ ct' : CachedTree,
      (NewCachedTree 2).setSlice 8 0 = .ok ct' ∧
      ct'.cachedEnd = ((2 ^ 64 - 1) / 2 ^ 2 + 1) % 2 ^ 64 ∧
      ct'.cachedBegin = 8 / 2 ^ 2 ∧
      ct'.tree.proofBegin = ct'.cachedBegin ∧
      ct'.tree.proofEnd = ct'.cachedEnd ∧
      ct'.trueProofBegin = 8 ∧
      ct'.trueProofEnd = 0) :=
  ⟨⟨by decide, by decide⟩, claim_C10_amended 2 8 (by decide) (by decide)⟩

/-! ## Cached-tree root equivalence (claim C7) -/

theorem lt_pow_log2Fuel_succ :
    ∀ (fuel m : Nat), m ≤ fuel → m < 2 ^ (log2Fuel fuel m + 1) := by
  intro fuel
  induction fuel with
  | zero =>
    intro m h
    have : m = 0 := by omega
    subst this
    positivity
  | succ fuel ih =>
    intro m h
    rw [log2Fuel]
    by_cases hm : 2 ≤ m
    · rw [if_pos hm]
      have hrec := ih (m / 2) (by omega)
      rw [pow_succ (2 : Nat) (log2Fuel fuel (m / 2) + 1)]
      omega
    · rw [if_neg hm]
      norm_num
      omega

theorem length_flatten_uniform {u : Nat} :
    ∀ (blocks : List (List Bytes)), (∀ blk ∈ blocks, blk.length = u) →
      blocks.flatten.length = blocks.length * u := by
  intro blocks
  induction blocks with
  | nil => intro _; simp
  | cons blk bs ih =>
    intro hu
    have hblk : blk.length = u := hu blk (by simp)
    have hrest : ∀ b ∈ bs, b.length = u := fun b hb => hu b (by simp [hb])
    simp [List.length_append, ih hrest, hblk]
    ring

theorem flatten_take_uniform {u : Nat} :
    ∀ (blocks : List (List Bytes)) (p : Nat), (∀ blk ∈ blocks, blk.length = u) →
      blocks.flatten.take (p * u) = (blocks.take p).flatten ∧
        blocks.flatten.drop (p * u) = (blocks.drop p).flatten := by
  intro blocks
  induction blocks with
  | nil => intro p _; simp
  | cons blk bs ih =>
    intro p hu
    have hblk : blk.length = u := hu blk (by simp)
    have hrest : ∀ b ∈ bs, b.length = u := fun b hb => hu b (by simp [hb])
    cases p with
    | zero => simp
    | succ p =>
      obtain ⟨iht, ihd⟩ := ih p hrest
      have hmul : (p + 1) * u = u + p * u := by ring
      constructor
      · rw [List.flatten_cons, List.take_append_eq_append_take, hmul]
        rw [List.take_of_length_le (by omega), hblk]
        have : u + p * u - u = p * u := by omega
        rw [this, iht, List.take_succ_cons, List.flatten_cons]
      · rw [List.flatten_cons, List.drop_append_eq_append_drop, hmul]
        rw [List.drop_eq_nil_of_le (by omega), hblk]
        have : u + p * u - u = p * u := by omega
        rw [this, ihd, List.drop_succ_cons]
        simp

theorem spec_id_blocks (H f : Bytes → Bytes) (hgt : Nat) :
    ∀ (n : Nat) (blocks : List (List Bytes)), blocks.length = n → blocks ≠ [] →
      (∀ blk ∈ blocks, blk.length = 2 ^ hgt) →
      specMerkleRoot H id (blocks.map (perfRoot H f hgt)) =
        specMerkleRoot H f blocks.flatten := by
  intro n
  induction n using Nat.strong_induction_on with
  | _ n ih =>
    intro blocks hn hne hu
    by_cases h1 : blocks.length = 1
    · obtain ⟨b, rfl⟩ := List.length_eq_one.mp h1
      have hb : b.length = 2 ^ hgt := hu b (by simp)
      show specMerkleRoot H id [perfRoot H f hgt b] = specMerkleRoot H f ([b].flatten)
      rw [specMerkleRoot_singleton]
      show perfRoot H f hgt b = specMerkleRoot H f ([b].flatten)
      have hflat : ([b] : List (List Bytes)).flatten = b := by simp
      rw [hflat, specMerkleRoot_pow H f hgt b hb]
    · have hge : 1 ≤ blocks.length := by
        cases blocks with
        | nil => exact absurd rfl hne
        | cons x xs => simp
      have h2 : 2 ≤ blocks.length := by omega
      have hq1 : 2 ^ log2Fuel (blocks.length - 1) (blocks.length - 1) ≤ blocks.length - 1 :=
        pow_log2Fuel_le _ _ (by omega) le_rfl
      have hq2 : blocks.length - 1 < 2 ^ (log2Fuel (blocks.length - 1) (blocks.length - 1) + 1) :=
        lt_pow_log2Fuel_succ _ _ le_rfl
      set q := log2Fuel (blocks.length - 1) (blocks.length - 1) with hqdef
      have hp1 : (1 : Nat) ≤ 2 ^ q := Nat.one_le_two_pow
      have hgt1 : (1 : Nat) ≤ 2 ^ hgt := Nat.one_le_two_pow
      -- split the cached-root list
      have hmaplen : (blocks.map (perfRoot H f hgt)).length = blocks.length := by
        simp
      have hsplitL := specMerkleRoot_split H id (blocks.map (perfRoot H f hgt)) q
        (by rw [hmaplen]; omega) (by rw [hmaplen]; omega)
      -- split the flat leaf list
      have hflatlen : blocks.flatten.length = blocks.length * 2 ^ hgt :=
        length_flatten_uniform blocks hu
      have hsplitR := specMerkleRoot_split H f blocks.flatten (q + hgt)
        (by
          rw [hflatlen, pow_add]
          calc 2 ^ q * 2 ^ hgt ≤ (blocks.length - 1) * 2 ^ hgt := by
                exact Nat.mul_le_mul_right _ hq1
            _ < blocks.length * 2 ^ hgt := by
                exact (Nat.mul_lt_mul_right (by omega)).mpr (by omega))
        (by
          rw [hflatlen, pow_add]
          have : blocks.length ≤ 2 ^ (q + 1) := by omega
          calc blocks.length * 2 ^ hgt ≤ 2 ^ (q + 1) * 2 ^ hgt :=
                Nat.mul_le_mul_right _ this
            _ = 2 ^ (q + hgt + 1) := by ring
        )
      rw [hsplitL, hsplitR]
      have hpowadd : 2 ^ (q + hgt) = 2 ^ q * 2 ^ hgt := pow_add 2 q hgt
      obtain ⟨htake, hdrop⟩ := flatten_take_uniform blocks (2 ^ q) hu
      have e1 := ih (blocks.take (2 ^ q)).length
        (by rw [List.length_take]; omega)
        (blocks.take (2 ^ q)) rfl
        (by
          intro hcon
          have hccon := congrArg List.length hcon
          rw [List.length_take] at hccon
          simp only [List.length_nil, Nat.min_eq_zero_iff] at hccon
          rcases hccon with hc0 | hc0
          · omega
          · omega)
        (fun blk hb => hu blk (List.take_subset _ _ hb))
      have e2 := ih (blocks.drop (2 ^ q)).length
        (by rw [List.length_drop]; omega)
        (blocks.drop (2 ^ q)) rfl
        (by
          intro hcon
          have hccon := congrArg List.length hcon
          rw [List.length_drop] at hccon
          simp only [List.length_nil] at hccon
          omega)
        (fun blk hb => hu blk (List.drop_subset _ _ hb))
      rw [hpowadd, htake, hdrop, ← List.map_take, ← List.map_drop]
      rw [e1, e2]

/-- C7: pushing the per-block roots (each block holding `2 ^ height` raw
leaves, hashed by an ordinary fresh Tree) into a CachedTree of that height
yields a Root byte-identical to the Root of a direct Tree over all the raw
leaves. -/
theorem claim_C7 (H : Bytes → Bytes) (ch : Nat) (blocks : List (List Bytes))
    (hne : blocks ≠ []) (hu : ∀ blk ∈ blocks, blk.length = 2 ^ ch) :
    (CachedTree.pushList H (NewCachedTree ch)
        (blocks.map (fun blk => (Tree.pushList H Tree.new blk).root H))).root H =
      (Tree.pushList H Tree.new blocks.flatten).root H := by
  have hmapeq : blocks.map (fun blk => (Tree.pushList H Tree.new blk).root H) =
      blocks.map (perfRoot H (leafSum H) ch) := by
    apply List.map_congr_left
    intro blk hb
    have hlen := hu blk hb
    have hgt1 : (1 : Nat) ≤ 2 ^ ch := Nat.one_le_two_pow
    have hne' : blk ≠ [] := by
      intro hc
      rw [hc] at hlen
      simp at hlen
      omega
    have hr := tree_root_spec H hne' 0 1 false
    rw [leafFun_false] at hr
    show (Tree.pushList H (Tree.fresh 0 1 false) blk).root H = _
    rw [hr]
    exact specMerkleRoot_pow H (leafSum H) ch blk hlen
  show (CachedTree.pushList H (NewCachedTree ch) _).tree.root H = _
  rw [cachedTree_pushList_tree, hmapeq]
  have hct : (NewCachedTree ch).tree = Tree.fresh 0 0 true := rfl
  rw [hct]
  have hroots_ne : blocks.map (perfRoot H (leafSum H) ch) ≠ [] := by
    intro hc
    exact hne (List.map_eq_nil_iff.mp hc)
  have hcr := tree_root_spec H hroots_ne 0 0 true
  rw [leafFun_true] at hcr
  rw [hcr]
  have hflat_ne : blocks.flatten ≠ [] := by
    intro hc
    have hlen := length_flatten_uniform blocks hu
    rw [hc] at hlen
    simp only [List.length_nil] at hlen
    have hgt1 : (1 : Nat) ≤ 2 ^ ch := Nat.one_le_two_pow
    have hbl : 1 ≤ blocks.length := by
      cases blocks with
      | nil => exact absurd rfl hne
      | cons x xs => simp
    have hprod : 1 * 1 ≤ blocks.length * 2 ^ ch := Nat.mul_le_mul hbl hgt1
    omega
  have hdr := tree_root_spec H hflat_ne 0 1 false
  rw [leafFun_false] at hdr
  show _ = (Tree.pushList H (Tree.fresh 0 1 false) blocks.flatten).root H
  rw [hdr]
  exact spec_id_blocks H (leafSum H) ch blocks.length blocks rfl hne hu

theorem claim_C7_witness :
    (([[[1], [2]], [[3], [4]], [[5], [6]], [[7], [8]]] : List (List Bytes)) ≠ [] ∧
      ∀ blk ∈ ([[[1], [2]], [[3], [4]], [[5], [6]], [[7], [8]]] : List (List Bytes)),
        blk.length = 2 ^ 1) ∧
    (CachedTree.pushList probeHash (NewCachedTree 1)
        (([[[1], [2]], [[3], [4]], [[5], [6]], [[7], [8]]] : List (List Bytes)).map
          (fun blk => (Tree.pushList probeHash Tree.new blk).root probeHash))).root probeHash =
      (Tree.pushList probeHash Tree.new
          ([[[1], [2]], [[3], [4]], [[5], [6]], [[7], [8]]] : List (List Bytes)).flatten).root
        probeHash :=
  ⟨⟨by decide, by decide⟩,
    claim_C7 probeHash 1 [[[1], [2]], [[3], [4]], [[5], [6]], [[7], [8]]] (by decide) (by decide)⟩

/-! ## Level hashes

`levelHashes H f L ℓ` is the list of node hashes of the clamped Merkle
tree over `L` at height `ℓ` (incomplete rightmost nodes carry the hash of
their only child upward, exactly as `chunkPairs` carries a trailing
element).  The verifier's working sequence at each loop iteration is a
slice of one of these levels. -/
def levelHashes (H f : Bytes → Bytes) (L : List Bytes) : Nat → List Bytes
  | 0 => L.map f
  | ℓ + 1 => chunkPairs H (levelHashes H f L ℓ)

/-- Index of the first node overlapping the proof slice at a level. -/
def idxA (a ℓ : Nat) : Nat := a / 2 ^ ℓ

/-- One past the index of the last node overlapping, at a level, a slice
ending at `b ≥ 1` (also: the number of nodes of a level over `b` leaves). -/
def idxB (b ℓ : Nat) : Nat := (b - 1) / 2 ^ ℓ + 1

/-- The leaves covered by node `j` of level `ℓ`. -/
def chunkOf (M : List Bytes) (j ℓ : Nat) : List Bytes :=
  (M.take ((j + 1) * 2 ^ ℓ)).drop (j * 2 ^ ℓ)

theorem idxA_succ (a ℓ : Nat) : idxA a (ℓ + 1) = idxA a ℓ / 2 := by
  rw [idxA, idxA, pow_succ, Nat.div_div_eq_div_mul]

theorem idxB_succ (b ℓ : Nat) : idxB b (ℓ + 1) = (idxB b ℓ + 1) / 2 := by
  rw [idxB, idxB]
  rw [show (b - 1) / 2 ^ ℓ + 1 + 1 = (b - 1) / 2 ^ ℓ + 2 from rfl]
  rw [Nat.add_div_right _ (by omega), pow_succ, Nat.div_div_eq_div_mul]

theorem idxA_lt_idxB (a b ℓ : Nat) (hab : a < b) : idxA a ℓ < idxB b ℓ := by
  rw [idxA, idxB]
  have : a / 2 ^ ℓ ≤ (b - 1) / 2 ^ ℓ := Nat.div_le_div_right (by omega)
  omega

theorem idxB_le_one (b ℓ : Nat) (h : b ≤ 2 ^ ℓ) : idxB b ℓ ≤ 1 := by
  have hp : (1 : Nat) ≤ 2 ^ ℓ := Nat.one_le_two_pow
  rw [idxB]
  have : (b - 1) / 2 ^ ℓ = 0 := Nat.div_eq_of_lt (by omega)
  omega

theorem one_le_idxB (b ℓ : Nat) : 1 ≤ idxB b ℓ := by
  rw [idxB]
  exact Nat.le_add_left 1 _

theorem idxB_mul_le (b ℓ : Nat) : (idxB b ℓ - 1) * 2 ^ ℓ ≤ b - 1 := by
  rw [idxB]
  simp only [Nat.add_sub_cancel]
  exact Nat.div_mul_le_self _ _

theorem lt_idxB_mul (b ℓ : Nat) (hb : 1 ≤ b) : b ≤ idxB b ℓ * 2 ^ ℓ := by
  rw [idxB, Nat.add_mul, Nat.one_mul]
  have h1 : 2 ^ ℓ * ((b - 1) / 2 ^ ℓ) + (b - 1) % 2 ^ ℓ = b - 1 := Nat.div_add_mod _ _
  have h1' : (b - 1) / 2 ^ ℓ * 2 ^ ℓ + (b - 1) % 2 ^ ℓ = b - 1 := by
    rw [Nat.mul_comm] at h1
    exact h1
  have h2 : (b - 1) % 2 ^ ℓ < 2 ^ ℓ := Nat.mod_lt _ (by positivity)
  omega

theorem chunkPairs_length (H : Bytes → Bytes) :
    ∀ l : List Bytes, (chunkPairs H l).length = (l.length + 1) / 2
  | [] => by simp [chunkPairs]
  | [_] => by simp [chunkPairs]
  | a :: b :: rest => by
    show (nodeSum H a b :: chunkPairs H rest).length = _
    rw [List.length_cons, chunkPairs_length H rest]
    simp only [List.length_cons]
    omega

theorem chunkPairs_getD_pair (H : Bytes → Bytes) :
    ∀ (j : Nat) (l : List Bytes), 2 * j + 1 < l.length →
      (chunkPairs H l).getD j [] = nodeSum H (l.getD (2 * j) []) (l.getD (2 * j + 1) []) := by
  intro j
  induction j with
  | zero =>
    intro l hl
    match l with
    | a :: b :: rest => rfl
  | succ j ih =>
    intro l hl
    match l with
    | a :: b :: rest =>
      have hr : 2 * j + 1 < rest.length := by
        simp at hl
        omega
      have e := ih rest hr
      have g1 : (chunkPairs H (a :: b :: rest)).getD (j + 1) [] =
          (chunkPairs H rest).getD j [] := rfl
      have g2 : (a :: b :: rest).getD (2 * (j + 1)) [] = rest.getD (2 * j) [] := by
        have h2 : 2 * (j + 1) = 2 * j + 2 := by ring
        rw [h2]
        rfl
      have g3 : (a :: b :: rest).getD (2 * (j + 1) + 1) [] = rest.getD (2 * j + 1) [] := by
        have h3 : 2 * (j + 1) + 1 = 2 * j + 1 + 2 := by ring
        rw [h3]
        rfl
      rw [g1, g2, g3, e]

theorem chunkPairs_getD_orphan (H : Bytes → Bytes) :
    ∀ (j : Nat) (l : List Bytes), l.length = 2 * j + 1 →
      (chunkPairs H l).getD j [] = l.getD (2 * j) [] := by
  intro j
  induction j with
  | zero =>
    intro l hl
    match l with
    | [a] => rfl
  | succ j ih =>
    intro l hl
    match l with
    | a :: b :: rest =>
      have hr : rest.length = 2 * j + 1 := by
        simp at hl
        omega
      have e := ih rest hr
      have g1 : (chunkPairs H (a :: b :: rest)).getD (j + 1) [] =
          (chunkPairs H rest).getD j [] := rfl
      have g2 : (a :: b :: rest).getD (2 * (j + 1)) [] = rest.getD (2 * j) [] := by
        have h2 : 2 * (j + 1) = 2 * j + 2 := by ring
        rw [h2]
        rfl
      rw [g1, g2, e]

theorem levelHashes_length (H f : Bytes → Bytes) (L : List Bytes) (hL : 1 ≤ L.length) :
    ∀ ℓ, (levelHashes H f L ℓ).length = idxB L.length ℓ := by
  intro ℓ
  induction ℓ with
  | zero =>
    show (L.map f).length = (L.length - 1) / 1 + 1
    simp only [List.length_map, Nat.div_one]
    omega
  | succ ℓ ih =>
    show (chunkPairs H (levelHashes H f L ℓ)).length = _
    rw [chunkPairs_length, ih, idxB_succ]

theorem headD_eq_getD (l : List Bytes) (d : Bytes) : l.headD d = l.getD 0 d := by
  cases l with
  | nil => rfl
  | cons x xs => rfl

theorem levelHashes_getD_complete (H f : Bytes → Bytes) (M : List Bytes) :
    ∀ (ℓ j : Nat), (j + 1) * 2 ^ ℓ ≤ M.length →
      (levelHashes H f M ℓ).getD j [] = perfRoot H f ℓ (chunkOf M j ℓ) := by
  intro ℓ
  induction ℓ with
  | zero =>
    intro j hj
    rw [pow_zero, Nat.mul_one] at hj
    have hjlt : j < M.length := by omega
    show (M.map f).getD j [] = f ((chunkOf M j 0).headD [])
    have e0 : chunkOf M j 0 = [M.getD j []] := by
      rw [chunkOf, pow_zero, Nat.mul_one, Nat.mul_one]
      rw [(List.take_drop j 1 M).symm, List.drop_eq_getElem_cons hjlt]
      rw [List.getD_eq_getElem M [] hjlt]
      rfl
    rw [e0]
    show (M.map f).getD j [] = f (M.getD j [])
    rw [List.getD_eq_getElem?_getD, List.getElem?_map, List.getElem?_eq_getElem hjlt]
    rw [List.getD_eq_getElem M [] hjlt]
    rfl
  | succ ℓ ih =>
    intro j hj
    have hpow : (1 : Nat) ≤ 2 ^ ℓ := Nat.one_le_two_pow
    have hmul : ∀ k : Nat, k * 2 ^ (ℓ + 1) = 2 * k * 2 ^ ℓ := by
      intro k
      rw [pow_succ]
      ring
    have hj' : (2 * j + 1 + 1) * 2 ^ ℓ ≤ M.length := by
      rw [hmul (j + 1)] at hj
      calc (2 * j + 1 + 1) * 2 ^ ℓ = 2 * (j + 1) * 2 ^ ℓ := by ring
        _ ≤ M.length := hj
    have hN : 1 ≤ M.length := by
      have h1 : 1 * 2 ^ (ℓ + 1) ≤ (j + 1) * 2 ^ (ℓ + 1) :=
        Nat.mul_le_mul_right _ (by omega)
      have h2 : (1 : Nat) ≤ 2 ^ (ℓ + 1) := Nat.one_le_two_pow
      omega
    have hlt : 2 * j + 1 < (levelHashes H f M ℓ).length := by
      rw [levelHashes_length H f M hN ℓ]
      rw [idxB]
      have hd : 2 * j + 1 ≤ (M.length - 1) / 2 ^ ℓ := by
        apply Nat.le_div_iff_mul_le (by positivity) |>.mpr
        have hsm : (2 * j + 1 + 1) * 2 ^ ℓ = (2 * j + 1) * 2 ^ ℓ + 2 ^ ℓ := by ring
        omega
      omega
    show (chunkPairs H (levelHashes H f M ℓ)).getD j [] = _
    rw [chunkPairs_getD_pair H j _ hlt]
    rw [ih (2 * j) (by
      have hsm : (2 * j + 1 + 1) * 2 ^ ℓ = (2 * j + 1) * 2 ^ ℓ + 2 ^ ℓ := by ring
      omega)]
    rw [ih (2 * j + 1) hj']
    rw [perfRoot]
    have c1 : chunkOf M (2 * j) ℓ = (chunkOf M j (ℓ + 1)).take (2 ^ ℓ) := by
      rw [chunkOf, chunkOf, List.take_drop, List.take_take]
      have e : j * 2 ^ (ℓ + 1) + 2 ^ ℓ = (2 * j + 1) * 2 ^ ℓ := by
        rw [pow_succ]
        ring
      rw [e]
      have e2 : min ((2 * j + 1) * 2 ^ ℓ) ((j + 1) * 2 ^ (ℓ + 1)) = (2 * j + 1) * 2 ^ ℓ := by
        apply Nat.min_eq_left
        rw [pow_succ]
        nlinarith
      rw [e2]
      have e3 : j * 2 ^ (ℓ + 1) = 2 * j * 2 ^ ℓ := hmul j
      rw [e3]
    have c2 : chunkOf M (2 * j + 1) ℓ = (chunkOf M j (ℓ + 1)).drop (2 ^ ℓ) := by
      rw [chunkOf, chunkOf, List.drop_drop]
      have e : j * 2 ^ (ℓ + 1) + 2 ^ ℓ = (2 * j + 1) * 2 ^ ℓ := by
        rw [pow_succ]
        ring
      rw [e]
      have e2 : (2 * j + 1 + 1) * 2 ^ ℓ = (j + 1) * 2 ^ (ℓ + 1) := by
        rw [pow_succ]
        ring
      rw [e2]
    rw [c1, c2]

theorem perfRoot_ne (H f : Bytes → Bytes) (hH : ∀ y, H y ≠ []) (hf : ∀ y, f y ≠ []) :
    ∀ (h : Nat) (l : List Bytes), perfRoot H f h l ≠ [] := by
  intro h
  cases h with
  | zero => intro l; exact hf _
  | succ h => intro l; exact hH _

/-- Characterisation of `contains` for a node `j` of level `ℓ`:
it overlaps the slice `[a, b)` exactly when `idxA a ℓ ≤ j < idxB b ℓ`. -/
theorem contains_iff (s : SubTreeNode) (j ℓ a b : Nat) (hab : a < b)
    (hbg : s.beginIdx = j * 2 ^ ℓ) (hed : s.endIdx = (j + 1) * 2 ^ ℓ) :
    s.contains a b ↔ (idxA a ℓ ≤ j ∧ j < idxB b ℓ) := by
  have hpos : (0 : Nat) < 2 ^ ℓ := by positivity
  have hsucc : (j + 1) * 2 ^ ℓ = j * 2 ^ ℓ + 2 ^ ℓ := Nat.succ_mul j (2 ^ ℓ)
  have hA : a / 2 ^ ℓ ≤ j ↔ a < (j + 1) * 2 ^ ℓ := by
    rw [show (a / 2 ^ ℓ ≤ j) = (a / 2 ^ ℓ < j + 1) from propext (by omega)]
    exact Nat.div_lt_iff_lt_mul hpos
  have hB : j ≤ (b - 1) / 2 ^ ℓ ↔ j * 2 ^ ℓ ≤ b - 1 := Nat.le_div_iff_mul_le hpos
  rw [SubTreeNode.contains, hbg, hed, idxA, idxB]
  constructor
  · rintro (⟨h1, h2⟩ | ⟨h1, h2⟩)
    · exact ⟨hA.mpr h2, by have := hB.mpr (by omega); omega⟩
    · exact ⟨hA.mpr (by omega), by have := hB.mpr (by omega); omega⟩
  · rintro ⟨h1, h2⟩
    have h1' := hA.mp h1
    have h2' := hB.mp (by omega)
    by_cases hc : j * 2 ^ ℓ ≤ a
    · exact Or.inl ⟨hc, h1'⟩
    · exact Or.inr ⟨by omega, by omega⟩

theorem pad_getD (lader : ProofLader) (k : Nat) :
    ∀ ℓ : Nat, (lader ++ List.replicate k ([] : List Bytes)).getD ℓ [] = lader.getD ℓ [] := by
  induction lader with
  | nil =>
    intro ℓ
    simp only [List.nil_append, List.getD_eq_getElem?_getD, List.getElem?_replicate,
      List.getElem?_nil]
    split <;> rfl
  | cons x xs ih =>
    intro ℓ
    cases ℓ with
    | zero => rfl
    | succ n =>
      show (xs ++ List.replicate k []).getD n [] = xs.getD n []
      exact ih n

/-- The slot view of `addToLader`: only the slot at `height` changes, by
appending the proof. -/
theorem addToLader_getD (lader : ProofLader) (h : Nat) (p : Bytes) (ℓ : Nat) :
    (addToLader lader h p).getD ℓ [] =
      if ℓ = h then lader.getD h [] ++ [p] else lader.getD ℓ [] := by
  rw [addToLader]
  have hlen : h < (lader ++ List.replicate (h + 1 - lader.length) ([] : List Bytes)).length := by
    rw [List.length_append, List.length_replicate]
    omega
  rw [List.getD_eq_getElem?_getD, List.getElem?_set]
  by_cases he : ℓ = h
  · subst he
    rw [if_pos rfl, if_pos hlen]
    show (lader ++ List.replicate (ℓ + 1 - lader.length) []).getD ℓ [] ++ [p] =
      if ℓ = ℓ then lader.getD ℓ [] ++ [p] else lader.getD ℓ []
    rw [if_pos rfl, pad_getD]
  · rw [if_neg (fun hh => he hh.symm), if_neg he]
    rw [← List.getD_eq_getElem?_getD, pad_getD]

/-- A stack whose node heights are all at least `h0` covers a number of
leaves divisible by `2 ^ h0`. -/
theorem StackModels_dvd (H f : Bytes → Bytes) :
    ∀ (ss : Stack) (P : List Bytes) (h0 : Nat),
      StackModels H f ss P → heightLeStack h0 ss → 2 ^ h0 ∣ P.length := by
  intro ss
  induction ss with
  | nil =>
    intro P h0 hm _
    rw [hm]
    simp
  | cons s rest ih =>
    intro P h0 hm hle
    obtain ⟨g1, g2, g3, g4, g5⟩ := hm
    have hh0 : h0 ≤ s.height := hle
    have hble : s.beginIdx ≤ P.length := by
      have := Nat.one_le_two_pow (n := s.height)
      omega
    have hlen : (P.take s.beginIdx).length = s.beginIdx := by
      simp [List.length_take]
      omega
    have hle' : heightLeStack h0 rest := by
      cases rest with
      | nil => trivial
      | cons r rr =>
        have hlt : s.height < r.height := g4
        show h0 ≤ r.height
        omega
    have hdvd := ih (P.take s.beginIdx) h0 g5 hle'
    rw [hlen] at hdvd
    have hpow : 2 ^ h0 ∣ 2 ^ s.height := pow_dvd_pow 2 hh0
    have hsum : 2 ^ h0 ∣ s.beginIdx + 2 ^ s.height := dvd_add hdvd hpow
    rw [g2] at hsum
    exact hsum

/-- In a modelled stack each node starts at a multiple of its span. -/
theorem StackModels_aligned (H f : Bytes → Bytes) (s : SubTreeNode) (ss : Stack)
    (L : List Bytes) (hm : StackModels H f (s :: ss) L) : 2 ^ s.height ∣ s.beginIdx := by
  obtain ⟨g1, g2, g3, g4, g5⟩ := hm
  have hble : s.beginIdx ≤ L.length := by
    have := Nat.one_le_two_pow (n := s.height)
    omega
  have hlen : (L.take s.beginIdx).length = s.beginIdx := by
    simp [List.length_take]
    omega
  have hle : heightLeStack s.height ss := by
    cases ss with
    | nil => trivial
    | cons r rr => exact Nat.le_of_lt g4
  have := StackModels_dvd H f ss (L.take s.beginIdx) s.height g5 hle
  rwa [hlen] at this

theorem chunkOf_append (M L' : List Bytes) (j ℓ : Nat) (h : (j + 1) * 2 ^ ℓ ≤ M.length) :
    chunkOf (M ++ L') j ℓ = chunkOf M j ℓ := by
  rw [chunkOf, chunkOf, List.take_append_of_le_length h]

/-- The hash of a node all of whose leaves are already present does not
change when more leaves arrive. -/
theorem levelHashes_getD_stable (H f : Bytes → Bytes) (M L' : List Bytes) (j ℓ : Nat)
    (h : (j + 1) * 2 ^ ℓ ≤ M.length) :
    (levelHashes H f (M ++ L') ℓ).getD j [] = (levelHashes H f M ℓ).getD j [] := by
  have h' : (j + 1) * 2 ^ ℓ ≤ (M ++ L').length := by
    rw [List.length_append]
    omega
  rw [levelHashes_getD_complete H f (M ++ L') ℓ j h',
    levelHashes_getD_complete H f M ℓ j h, chunkOf_append M L' j ℓ h]

/-- One orphan lift: a last, genuinely incomplete node keeps its hash one
level up. -/
theorem levelHashes_getD_lift (H f : Bytes → Bytes) (M : List Bytes)
    (x ℓ : Nat) (hdvd : 2 ^ (ℓ + 1) ∣ x) (hx : x < M.length) (hm : M.length ≤ x + 2 ^ ℓ) :
    (levelHashes H f M (ℓ + 1)).getD (x / 2 ^ (ℓ + 1)) [] =
      (levelHashes H f M ℓ).getD (x / 2 ^ ℓ) [] := by
  obtain ⟨c, hc⟩ := hdvd
  have hpos : (0 : Nat) < 2 ^ ℓ := by positivity
  have hq : x / 2 ^ (ℓ + 1) = c := by
    rw [hc]
    exact Nat.mul_div_cancel_left c (by positivity)
  have hx2 : x / 2 ^ ℓ = 2 * c := by
    rw [hc, pow_succ]
    rw [show 2 ^ ℓ * 2 * c = 2 ^ ℓ * (2 * c) from by ring]
    exact Nat.mul_div_cancel_left _ hpos
  have hxeq : x = 2 * c * 2 ^ ℓ := by rw [hc, pow_succ]; ring
  have hM1 : 1 ≤ M.length := by omega
  have hN : (levelHashes H f M ℓ).length = 2 * c + 1 := by
    rw [levelHashes_length H f M hM1, idxB]
    have hle : 2 * c * 2 ^ ℓ ≤ M.length - 1 := by omega
    have hlt : M.length - 1 < (2 * c + 1) * 2 ^ ℓ := by
      have he : (2 * c + 1) * 2 ^ ℓ = 2 * c * 2 ^ ℓ + 2 ^ ℓ := by ring
      omega
    rw [Nat.div_eq_of_lt_le hle hlt]
  show (chunkPairs H (levelHashes H f M ℓ)).getD (x / 2 ^ (ℓ + 1)) [] = _
  rw [hq, hx2]
  exact chunkPairs_getD_orphan H c _ hN

/-- Iterated orphan lift: a trailing incomplete node keeps its hash at all
higher levels it is aligned to. -/
theorem levelHashes_getD_liftLe (H f : Bytes → Bytes) (M : List Bytes) (x : Nat) :
    ∀ ℓc ℓ : Nat, ℓc ≤ ℓ → 2 ^ ℓ ∣ x → x < M.length → M.length ≤ x + 2 ^ ℓc →
      (levelHashes H f M ℓ).getD (x / 2 ^ ℓ) [] =
        (levelHashes H f M ℓc).getD (x / 2 ^ ℓc) [] := by
  intro ℓc ℓ
  induction ℓ with
  | zero =>
    intro hle _ _ _
    have : ℓc = 0 := by omega
    rw [this]
  | succ ℓ ih =>
    intro hle hdvd hx hm
    rcases Nat.lt_or_ge ℓc (ℓ + 1) with hlt | hge
    · have hle' : ℓc ≤ ℓ := by omega
      have hdvd' : 2 ^ ℓ ∣ x := dvd_trans (pow_dvd_pow 2 (by omega)) hdvd
      have hm' : M.length ≤ x + 2 ^ ℓ := by
        have : 2 ^ ℓc ≤ 2 ^ ℓ := Nat.pow_le_pow_right (by omega) hle'
        omega
      rw [levelHashes_getD_lift H f M x ℓ hdvd hx hm']
      exact ih hle' hdvd' hx hm
    · have : ℓc = ℓ + 1 := by omega
      rw [this]

/-- `contains` for a node whose span is cut short on the right (the ragged
last node of a level), for slices ending inside the node's true extent. -/
theorem contains_iff_ragged (s : SubTreeNode) (j ℓ a b : Nat) (hab : a < b)
    (hb : b ≤ s.endIdx) (hbg : s.beginIdx = j * 2 ^ ℓ) (hed : s.endIdx ≤ (j + 1) * 2 ^ ℓ) :
    s.contains a b ↔ (idxA a ℓ ≤ j ∧ j < idxB b ℓ) := by
  have hpos : (0 : Nat) < 2 ^ ℓ := by positivity
  have hsucc : (j + 1) * 2 ^ ℓ = j * 2 ^ ℓ + 2 ^ ℓ := Nat.succ_mul j (2 ^ ℓ)
  have hA : a / 2 ^ ℓ ≤ j ↔ a < (j + 1) * 2 ^ ℓ := by
    rw [show (a / 2 ^ ℓ ≤ j) = (a / 2 ^ ℓ < j + 1) from propext (by omega)]
    exact Nat.div_lt_iff_lt_mul hpos
  have hB : j ≤ (b - 1) / 2 ^ ℓ ↔ j * 2 ^ ℓ ≤ b - 1 := Nat.le_div_iff_mul_le hpos
  rw [SubTreeNode.contains, hbg, idxA, idxB]
  constructor
  · rintro (⟨h1, h2⟩ | ⟨h1, h2⟩)
    · exact ⟨hA.mpr (by omega), by have := hB.mpr (by omega); omega⟩
    · exact ⟨hA.mpr (by omega), by have := hB.mpr (by omega); omega⟩
  · rintro ⟨h1, h2⟩
    have h2' := hB.mp (by omega)
    by_cases hc : j * 2 ^ ℓ ≤ a
    · exact Or.inl ⟨hc, by omega⟩
    · exact Or.inr ⟨by omega, by omega⟩

/-- The proofs captured during the push phase at one ladder height: the
left sibling of the slice once its pair is fully pushed, then the right
sibling once its pair is fully pushed. -/
def pushSibs (H f : Bytes → Bytes) (M : List Bytes) (a b ℓ : Nat) : List Bytes :=
  (if idxA a ℓ % 2 = 1 ∧ (idxA a ℓ + 1) * 2 ^ ℓ ≤ M.length
   then [(levelHashes H f M ℓ).getD (idxA a ℓ - 1) []] else []) ++
  (if idxB b ℓ % 2 = 1 ∧ (idxB b ℓ + 1) * 2 ^ ℓ ≤ M.length
   then [(levelHashes H f M ℓ).getD (idxB b ℓ) []] else [])

/-- The proofs a verifier of the slice absorbs at one level: the left
sibling whenever the first covered node index is odd, the right sibling
whenever the one-past-last covered node index is odd and not past the
level's last node. -/
def sibsAt (H f : Bytes → Bytes) (M : List Bytes) (a b ℓ : Nat) : List Bytes :=
  (if idxA a ℓ % 2 = 1
   then [(levelHashes H f M ℓ).getD (idxA a ℓ - 1) []] else []) ++
  (if idxB b ℓ % 2 = 1 ∧ idxB b ℓ < idxB M.length ℓ
   then [(levelHashes H f M ℓ).getD (idxB b ℓ) []] else [])

/-- A ladder slot already fully captured for the shorter list keeps its
value when a leaf arrives, unless the new length completes a sibling pair
(`2 ^ (ℓ+1)` divides it). -/
theorem pushSibs_stable (H f : Bytes → Bytes) (M : List Bytes) (hM : M ≠ []) (a b ℓ : Nat)
    (hflip : ¬ 2 ^ (ℓ + 1) ∣ M.length) :
    pushSibs H f M.dropLast a b ℓ = pushSibs H f M a b ℓ := by
  have hMd : M.dropLast ++ [M.getLast hM] = M := List.dropLast_append_getLast hM
  have hlen : M.dropLast.length = M.length - 1 := List.length_dropLast M
  have hM1 : 1 ≤ M.length := List.length_pos.mpr hM
  have hpow : (1 : Nat) ≤ 2 ^ ℓ := Nat.one_le_two_pow
  have hstable : ∀ j : Nat, (j + 1) * 2 ^ ℓ ≤ M.length - 1 →
      (levelHashes H f M.dropLast ℓ).getD j [] = (levelHashes H f M ℓ).getD j [] := by
    intro j hj
    conv_rhs => rw [← hMd]
    rw [levelHashes_getD_stable H f M.dropLast [M.getLast hM] j ℓ (by omega)]
  have hcond : ∀ X : Nat, X % 2 = 1 →
      ((X + 1) * 2 ^ ℓ ≤ M.length - 1 ↔ (X + 1) * 2 ^ ℓ ≤ M.length) := by
    intro X hX
    constructor
    · omega
    · intro hle
      rcases Nat.lt_or_ge ((X + 1) * 2 ^ ℓ) M.length with h | h
      · omega
      · exfalso
        apply hflip
        have he : (X + 1) * 2 ^ ℓ = M.length := by omega
        have : 2 ^ (ℓ + 1) ∣ (X + 1) * 2 ^ ℓ := by
          have h2 : (2 : Nat) ∣ X + 1 := by omega
          obtain ⟨k, hk⟩ := h2
          exact ⟨k, by rw [hk, pow_succ]; ring⟩
        rwa [he] at this
  rw [pushSibs, pushSibs, hlen]
  have hseg : ∀ (X : Nat) (v v' : Bytes),
      (X % 2 = 1 → (X + 1) * 2 ^ ℓ ≤ M.length - 1 → v = v') →
      (if X % 2 = 1 ∧ (X + 1) * 2 ^ ℓ ≤ M.length - 1 then [v] else ([] : List Bytes)) =
        (if X % 2 = 1 ∧ (X + 1) * 2 ^ ℓ ≤ M.length then [v'] else []) := by
    intro X v v' hv
    by_cases hX : X % 2 = 1
    · by_cases hle : (X + 1) * 2 ^ ℓ ≤ M.length - 1
      · rw [if_pos ⟨hX, hle⟩, if_pos ⟨hX, (hcond X hX).mp hle⟩, hv hX hle]
      · rw [if_neg (by tauto), if_neg (by
          rintro ⟨h1, h2⟩
          exact hle ((hcond X hX).mpr h2))]
    · rw [if_neg (by tauto), if_neg (by tauto)]
  rw [hseg (idxA a ℓ) _ _ (fun hX hle => hstable (idxA a ℓ - 1) (by
      have hm2 : (idxA a ℓ - 1 + 1) * 2 ^ ℓ ≤ (idxA a ℓ + 1) * 2 ^ ℓ :=
        Nat.mul_le_mul_right _ (by omega)
      omega)),
    hseg (idxB b ℓ) _ _ (fun hX hle => hstable (idxB b ℓ) hle)]

theorem levelHashes_getD_dropLast (H f : Bytes → Bytes) (M : List Bytes) (hM : M ≠ [])
    (j ℓ : Nat) (hj : (j + 1) * 2 ^ ℓ ≤ M.length - 1) :
    (levelHashes H f M.dropLast ℓ).getD j [] = (levelHashes H f M ℓ).getD j [] := by
  have hMd : M.dropLast ++ [M.getLast hM] = M := List.dropLast_append_getLast hM
  have hlen : M.dropLast.length = M.length - 1 := List.length_dropLast M
  conv_rhs => rw [← hMd]
  rw [levelHashes_getD_stable H f M.dropLast [M.getLast hM] j ℓ (by omega)]

theorem pushFoldGo_cons (H : Bytes → Bytes) (a b : Nat) (c s : SubTreeNode) (rest : Stack)
    (lader : ProofLader) (hh : c.height = s.height) :
    pushFoldGo H a b c (s :: rest) lader =
      pushFoldGo H a b (joinSubTrees H s c) rest
        (if (if c.contains a b ∧ ¬ s.contains a b then s.sum
             else if ¬ c.contains a b ∧ s.contains a b then c.sum else []) ≠ []
         then addToLader lader c.height
           (if c.contains a b ∧ ¬ s.contains a b then s.sum
            else if ¬ c.contains a b ∧ s.contains a b then c.sum else [])
         else lader) := by
  rw [pushFoldGo, if_pos hh]

set_option maxHeartbeats 1000000 in
/-- The push-time folding loop turns an up-to-date ladder for the leaves
before the newest one into an up-to-date ladder for all leaves: every slot
holds exactly the sibling proofs of the fully pushed pairs. -/
theorem pushFoldGo_lader (H f : Bytes → Bytes) (a b : Nat) (hab : a < b)
    (hH : ∀ y, H y ≠ []) (hf : ∀ y, f y ≠ []) (M : List Bytes) :
    ∀ (ss : Stack) (c : SubTreeNode) (lader : ProofLader),
      c.endIdx = M.length →
      c.beginIdx + 2 ^ c.height = M.length →
      c.sum = perfRoot H f c.height (M.drop c.beginIdx) →
      heightLeStack c.height ss →
      StackModels H f ss (M.take c.beginIdx) →
      (∀ ℓ, lader.getD ℓ [] =
        if ℓ < c.height then pushSibs H f M a b ℓ else pushSibs H f M.dropLast a b ℓ) →
      ∀ ℓ, (pushFoldGo H a b c ss lader).2.getD ℓ [] = pushSibs H f M a b ℓ := by
  intro ss
  induction ss with
  | nil =>
    intro c lader h1 h2 h3 h4 h5 hlader ℓ
    show lader.getD ℓ [] = _
    rw [hlader ℓ]
    by_cases hℓ : ℓ < c.height
    · rw [if_pos hℓ]
    · rw [if_neg hℓ]
      have hx0 : c.beginIdx = 0 := by
        have h50 : (M.take c.beginIdx) = [] := h5
        have hble : c.beginIdx ≤ M.length := by
          have := Nat.one_le_two_pow (n := c.height)
          omega
        have := congrArg List.length h50
        simp only [List.length_take, List.length_nil] at this
        omega
      have hM : M ≠ [] := by
        intro he
        rw [he] at h2
        simp only [List.length_nil] at h2
        have := Nat.one_le_two_pow (n := c.height)
        omega
      apply pushSibs_stable H f M hM a b ℓ
      intro hdvd
      have hm : M.length = 2 ^ c.height := by omega
      have hdvd1 : 2 ^ (c.height + 1) ∣ M.length :=
        dvd_trans (pow_dvd_pow 2 (by omega)) hdvd
      have hdvd2 : 2 ^ (c.height + 1) ∣ 2 ^ c.height := by rwa [hm] at hdvd1
      have hle := Nat.le_of_dvd (by positivity) hdvd2
      have hlt : (2 : Nat) ^ c.height < 2 ^ (c.height + 1) := by
        rw [pow_succ]
        have := Nat.one_le_two_pow (n := c.height)
        omega
      omega
  | cons s rest ih =>
    intro c lader h1 h2 h3 h4 h5 hlader
    obtain ⟨g1, g2, g3, g4, g5⟩ := h5
    have hble : c.beginIdx ≤ M.length := by
      have := Nat.one_le_two_pow (n := c.height)
      omega
    have hlen : (M.take c.beginIdx).length = c.beginIdx := by
      simp [List.length_take]
      omega
    have g1' : s.endIdx = c.beginIdx := by rw [g1, hlen]
    have g2' : s.beginIdx + 2 ^ s.height = c.beginIdx := by rw [← hlen]; exact g2
    by_cases hh : c.height = s.height
    swap
    · rw [pushFoldGo, if_neg hh]
      intro ℓ
      show lader.getD ℓ [] = _
      rw [hlader ℓ]
      by_cases hℓ : ℓ < c.height
      · rw [if_pos hℓ]
      · rw [if_neg hℓ]
        have hM : M ≠ [] := by
          intro he
          rw [he] at h2
          simp only [List.length_nil] at h2
          have := Nat.one_le_two_pow (n := c.height)
          omega
        apply pushSibs_stable H f M hM a b ℓ
        intro hdvd
        have hlt : c.height < s.height := lt_of_le_of_ne h4 hh
        have hdle : heightLeStack (c.height + 1) (s :: rest) := by
          show c.height + 1 ≤ s.height
          omega
        have hdvdx := StackModels_dvd H f (s :: rest) (M.take c.beginIdx) (c.height + 1)
          ⟨g1, g2, g3, g4, g5⟩ hdle
        rw [hlen] at hdvdx
        have hdvd1 : 2 ^ (c.height + 1) ∣ M.length :=
          dvd_trans (pow_dvd_pow 2 (by omega)) hdvd
        have hdvd2 : 2 ^ (c.height + 1) ∣ 2 ^ c.height := by
          have hsub := Nat.dvd_sub' hdvd1 hdvdx
          rwa [show M.length - c.beginIdx = 2 ^ c.height from by omega] at hsub
        have hle := Nat.le_of_dvd (by positivity) hdvd2
        have hlt2 : (2 : Nat) ^ c.height < 2 ^ (c.height + 1) := by
          rw [pow_succ]
          have := Nat.one_le_two_pow (n := c.height)
          omega
        omega
    · rw [hh] at h2 h3 hlader
      have hpos : (0 : Nat) < 2 ^ s.height := by positivity
      have hpow1 : (1 : Nat) ≤ 2 ^ s.height := hpos
      have hm1 : 1 ≤ M.length := by omega
      have hM : M ≠ [] := by
        intro he
        rw [he] at hm1
        simp at hm1
      have hdxa := StackModels_dvd H f (s :: rest) (M.take c.beginIdx) s.height
        ⟨g1, g2, g3, g4, g5⟩ (show s.height ≤ s.height from le_refl _)
      rw [hlen] at hdxa
      have hsx : 2 ^ (s.height + 1) ∣ s.beginIdx := by
        have hle : heightLeStack (s.height + 1) rest := by
          cases rest with
          | nil => trivial
          | cons r rr => exact g4
        have hdv := StackModels_dvd H f rest ((M.take c.beginIdx).take s.beginIdx)
          (s.height + 1) g5 hle
        have hsble : s.beginIdx ≤ c.beginIdx := Nat.le.intro g2'
        rwa [List.take_take, Nat.min_eq_left hsble, List.length_take,
          Nat.min_eq_left (le_trans hsble hble)] at hdv
      set i := c.beginIdx / 2 ^ s.height with hidef
      have hbeg : i * 2 ^ s.height = c.beginIdx := Nat.div_mul_cancel hdxa
      have hi1 : 1 ≤ i := by
        rw [hidef, Nat.le_div_iff_mul_le hpos, Nat.one_mul]
        omega
      have hsucci : (i + 1) * 2 ^ s.height = i * 2 ^ s.height + 2 ^ s.height := by ring
      have hm_eq : M.length = (i + 1) * 2 ^ s.height := by omega
      have hsbeg : s.beginIdx = (i - 1) * 2 ^ s.height := by
        have e2 : (i - 1 + 1) * 2 ^ s.height = (i - 1) * 2 ^ s.height + 2 ^ s.height := by ring
        have e : (i - 1) * 2 ^ s.height + 2 ^ s.height = i * 2 ^ s.height := by
          rw [← e2, Nat.sub_add_cancel hi1]
        omega
      have hodd : i % 2 = 1 := by
        obtain ⟨k, hk⟩ := hsx
        have e : (i - 1) * 2 ^ s.height = (2 * k) * 2 ^ s.height := by
          rw [← hsbeg, hk, pow_succ]
          ring
        have := Nat.eq_of_mul_eq_mul_right hpos e
        omega
      have hAB : idxA a s.height < idxB b s.height := idxA_lt_idxB a b s.height hab
      have hcc : c.contains a b ↔ (idxA a s.height ≤ i ∧ i < idxB b s.height) :=
        contains_iff c i s.height a b hab hbeg.symm (by rw [h1, hm_eq])
      have hsc : s.contains a b ↔
          (idxA a s.height ≤ i - 1 ∧ i - 1 < idxB b s.height) :=
        contains_iff s (i - 1) s.height a b hab hsbeg (by
          rw [g1', show i - 1 + 1 = i from by omega]
          exact hbeg.symm)
      have hssum : s.sum = (levelHashes H f M s.height).getD (i - 1) [] := by
        rw [levelHashes_getD_complete H f M s.height (i - 1) (by
            rw [show i - 1 + 1 = i from by omega]
            omega),
          chunkOf, show i - 1 + 1 = i from by omega, hbeg, ← hsbeg, g3]
      have hcsum : c.sum = (levelHashes H f M s.height).getD i [] := by
        rw [levelHashes_getD_complete H f M s.height i (by omega),
          chunkOf, ← hm_eq, List.take_length, hbeg, h3]
      have hsnn : s.sum ≠ [] := by rw [g3]; exact perfRoot_ne H f hH hf _ _
      have hcnn : c.sum ≠ [] := by rw [h3]; exact perfRoot_ne H f hH hf _ _
      have e1 : s.sum = perfRoot H f s.height ((M.drop s.beginIdx).take (2 ^ s.height)) := by
        rw [g3, List.take_drop, g2']
      have e2 : c.sum = perfRoot H f s.height ((M.drop s.beginIdx).drop (2 ^ s.height)) := by
        rw [h3, List.drop_drop, g2']
      have H1' : (joinSubTrees H s c).endIdx = M.length := h1
      have H2' : (joinSubTrees H s c).beginIdx + 2 ^ (joinSubTrees H s c).height = M.length := by
        show s.beginIdx + 2 ^ (s.height + 1) = M.length
        have hp : 2 ^ (s.height + 1) = 2 ^ s.height + 2 ^ s.height := by
          rw [pow_succ]
          omega
        omega
      have H3' : (joinSubTrees H s c).sum =
          perfRoot H f (joinSubTrees H s c).height (M.drop (joinSubTrees H s c).beginIdx) := by
        show nodeSum H s.sum c.sum = perfRoot H f (s.height + 1) (M.drop s.beginIdx)
        rw [perfRoot, ← e1, ← e2]
      have H4' : heightLeStack (joinSubTrees H s c).height rest := by
        show heightLeStack (s.height + 1) rest
        cases rest with
        | nil => trivial
        | cons r _ => exact g4
      have H5' : StackModels H f rest (M.take (joinSubTrees H s c).beginIdx) := by
        show StackModels H f rest (M.take s.beginIdx)
        have hsble : s.beginIdx ≤ c.beginIdx := Nat.le.intro g2'
        rw [List.take_take, Nat.min_eq_left hsble] at g5
        exact g5
      rw [pushFoldGo_cons H a b c s rest lader hh, hh]
      by_cases hcap1 : c.contains a b ∧ ¬ s.contains a b
      · rw [if_pos hcap1, if_pos hsnn]
        have hiB : i < idxB b s.height := (hcc.mp hcap1.1).2
        have hAi : idxA a s.height = i := by
          obtain ⟨hc1, hs1⟩ := hcap1
          obtain ⟨hA1, hA2⟩ := hcc.mp hc1
          rcases Nat.lt_or_ge (i - 1) (idxA a s.height) with h' | h'
          · omega
          · exact absurd (hsc.mpr ⟨h', by omega⟩) hs1
        apply ih (joinSubTrees H s c) (addToLader lader s.height s.sum) H1' H2' H3' H4' H5'
        intro ℓ
        show (addToLader lader s.height s.sum).getD ℓ [] =
          if ℓ < s.height + 1 then pushSibs H f M a b ℓ else pushSibs H f M.dropLast a b ℓ
        rw [addToLader_getD]
        by_cases hℓ : ℓ = s.height
        · rw [if_pos hℓ, hℓ, if_pos (by omega), hlader s.height, if_neg (by omega)]
          have hfalseR : ¬ (idxB b s.height % 2 = 1 ∧
              (idxB b s.height + 1) * 2 ^ s.height ≤ M.length) := by
            rintro ⟨_, hle⟩
            have hx1 : (i + 2) * 2 ^ s.height ≤ (idxB b s.height + 1) * 2 ^ s.height :=
              Nat.mul_le_mul_right _ (by omega)
            have hx2 : (i + 2) * 2 ^ s.height = (i + 1) * 2 ^ s.height + 2 ^ s.height := by ring
            omega
          have hfalseR' : ¬ (idxB b s.height % 2 = 1 ∧
              (idxB b s.height + 1) * 2 ^ s.height ≤ M.dropLast.length) := by
            rw [List.length_dropLast]
            rintro ⟨_, hle⟩
            have hx1 : (i + 2) * 2 ^ s.height ≤ (idxB b s.height + 1) * 2 ^ s.height :=
              Nat.mul_le_mul_right _ (by omega)
            have hx2 : (i + 2) * 2 ^ s.height = (i + 1) * 2 ^ s.height + 2 ^ s.height := by ring
            omega
          have hfalseL' : ¬ (idxA a s.height % 2 = 1 ∧
              (idxA a s.height + 1) * 2 ^ s.height ≤ M.dropLast.length) := by
            rw [List.length_dropLast, hAi]
            rintro ⟨_, hle⟩
            omega
          have htrueL : idxA a s.height % 2 = 1 ∧
              (idxA a s.height + 1) * 2 ^ s.height ≤ M.length := by
            rw [hAi]
            exact ⟨hodd, by omega⟩
          rw [pushSibs, pushSibs, if_neg hfalseL', if_neg hfalseR', if_pos htrueL,
            if_neg hfalseR, hssum, hAi]
          simp
        · rw [if_neg hℓ, hlader ℓ]
          by_cases h2ℓ : ℓ < s.height
          · rw [if_pos h2ℓ, if_pos (by omega)]
          · rw [if_neg h2ℓ, if_neg (by omega)]
      · by_cases hcap2 : ¬ c.contains a b ∧ s.contains a b
        · rw [if_neg hcap1, if_pos hcap2, if_pos hcnn]
          have hBi : idxB b s.height = i := by
            obtain ⟨hnc, hs1⟩ := hcap2
            obtain ⟨hB1, hB2⟩ := hsc.mp hs1
            rcases Nat.lt_or_ge i (idxB b s.height) with h' | h'
            · exact absurd (hcc.mpr ⟨by omega, h'⟩) hnc
            · omega
          have hAlt : idxA a s.height < i := by omega
          apply ih (joinSubTrees H s c) (addToLader lader s.height c.sum) H1' H2' H3' H4' H5'
          intro ℓ
          show (addToLader lader s.height c.sum).getD ℓ [] =
            if ℓ < s.height + 1 then pushSibs H f M a b ℓ else pushSibs H f M.dropLast a b ℓ
          rw [addToLader_getD]
          by_cases hℓ : ℓ = s.height
          · rw [if_pos hℓ, hℓ, if_pos (by omega), hlader s.height, if_neg (by omega)]
            have hL2 : (idxA a s.height + 1) * 2 ^ s.height ≤ M.length - 1 := by
              have hmm : (idxA a s.height + 1) * 2 ^ s.height ≤ i * 2 ^ s.height :=
                Nat.mul_le_mul_right _ (by omega)
              omega
            have htrueR : idxB b s.height % 2 = 1 ∧
                (idxB b s.height + 1) * 2 ^ s.height ≤ M.length := by
              rw [hBi]
              exact ⟨hodd, by omega⟩
            have hfalseR' : ¬ (idxB b s.height % 2 = 1 ∧
                (idxB b s.height + 1) * 2 ^ s.height ≤ M.dropLast.length) := by
              rw [List.length_dropLast, hBi]
              rintro ⟨_, hle⟩
              omega
            rw [pushSibs, pushSibs, if_neg hfalseR', if_pos htrueR, List.length_dropLast]
            by_cases hAodd : idxA a s.height % 2 = 1
            · rw [if_pos ⟨hAodd, hL2⟩, if_pos ⟨hAodd, by omega⟩,
                levelHashes_getD_dropLast H f M hM (idxA a s.height - 1) s.height (by
                  have hmm : (idxA a s.height - 1 + 1) * 2 ^ s.height ≤
                      (idxA a s.height + 1) * 2 ^ s.height :=
                    Nat.mul_le_mul_right _ (by omega)
                  omega),
                hcsum, hBi]
              simp
            · rw [if_neg (by tauto), if_neg (by tauto), hcsum, hBi]
              simp
          · rw [if_neg hℓ, hlader ℓ]
            by_cases h2ℓ : ℓ < s.height
            · rw [if_pos h2ℓ, if_pos (by omega)]
            · rw [if_neg h2ℓ, if_neg (by omega)]
        · rw [if_neg hcap1, if_neg hcap2, if_neg (by simp)]
          apply ih (joinSubTrees H s c) lader H1' H2' H3' H4' H5'
          intro ℓ
          show lader.getD ℓ [] =
            if ℓ < s.height + 1 then pushSibs H f M a b ℓ else pushSibs H f M.dropLast a b ℓ
          rw [hlader ℓ]
          rcases Nat.lt_trichotomy ℓ s.height with h2ℓ | h2ℓ | h2ℓ
          · rw [if_pos h2ℓ, if_pos (by omega)]
          · rw [if_neg (by omega), if_pos (by omega), h2ℓ]
            have hnotAi : idxA a s.height ≠ i := by
              intro he
              exact hcap1 ⟨hcc.mpr ⟨by omega, by omega⟩, fun hs1 => by
                obtain ⟨hx1, hx2⟩ := hsc.mp hs1
                omega⟩
            have hnotBi : idxB b s.height ≠ i := by
              intro he
              refine hcap2 ⟨fun hc1 => ?_, hsc.mpr ⟨by omega, by omega⟩⟩
              obtain ⟨hx1, hx2⟩ := hcc.mp hc1
              omega
            rw [pushSibs, pushSibs, List.length_dropLast]
            have hsegL : (if idxA a s.height % 2 = 1 ∧ (idxA a s.height + 1) * 2 ^ s.height ≤ M.length - 1
                then [(levelHashes H f M.dropLast s.height).getD (idxA a s.height - 1) []]
                else ([] : List Bytes)) =
                (if idxA a s.height % 2 = 1 ∧ (idxA a s.height + 1) * 2 ^ s.height ≤ M.length
                then [(levelHashes H f M s.height).getD (idxA a s.height - 1) []] else []) := by
              by_cases hc : idxA a s.height % 2 = 1 ∧ (idxA a s.height + 1) * 2 ^ s.height ≤ M.length - 1
              · rw [if_pos hc, if_pos ⟨hc.1, by omega⟩,
                  levelHashes_getD_dropLast H f M hM _ s.height (by
                    have hmm : (idxA a s.height - 1 + 1) * 2 ^ s.height ≤ (idxA a s.height + 1) * 2 ^ s.height :=
                      Nat.mul_le_mul_right _ (by omega)
                    omega)]
              · rw [if_neg hc, if_neg (by
                  rintro ⟨hx1, hx2⟩
                  apply hc
                  refine ⟨hx1, ?_⟩
                  rcases Nat.lt_or_ge ((idxA a s.height + 1) * 2 ^ s.height) M.length with h' | h'
                  · omega
                  · exfalso
                    apply hnotAi
                    have he : (idxA a s.height + 1) * 2 ^ s.height = (i + 1) * 2 ^ s.height := by omega
                    have := Nat.eq_of_mul_eq_mul_right hpos he
                    omega)]
            have hsegR : (if idxB b s.height % 2 = 1 ∧ (idxB b s.height + 1) * 2 ^ s.height ≤ M.length - 1
                then [(levelHashes H f M.dropLast s.height).getD (idxB b s.height) []]
                else ([] : List Bytes)) =
                (if idxB b s.height % 2 = 1 ∧ (idxB b s.height + 1) * 2 ^ s.height ≤ M.length
                then [(levelHashes H f M s.height).getD (idxB b s.height) []] else []) := by
              by_cases hc : idxB b s.height % 2 = 1 ∧ (idxB b s.height + 1) * 2 ^ s.height ≤ M.length - 1
              · rw [if_pos hc, if_pos ⟨hc.1, by omega⟩,
                  levelHashes_getD_dropLast H f M hM _ s.height hc.2]
              · rw [if_neg hc, if_neg (by
                  rintro ⟨hx1, hx2⟩
                  apply hc
                  refine ⟨hx1, ?_⟩
                  rcases Nat.lt_or_ge ((idxB b s.height + 1) * 2 ^ s.height) M.length with h' | h'
                  · omega
                  · exfalso
                    apply hnotBi
                    have he : (idxB b s.height + 1) * 2 ^ s.height = (i + 1) * 2 ^ s.height := by omega
                    have := Nat.eq_of_mul_eq_mul_right hpos he
                    omega)]
            rw [hsegL, hsegR]
          · rw [if_neg (by omega), if_neg (by omega)]

theorem push_lader (H : Bytes → Bytes) {t : Tree} {L : List Bytes} (x : Bytes)
    (hab : t.proofBegin < t.proofEnd)
    (hH : ∀ y, H y ≠ []) (hf : ∀ y, leafFun H t.cachedTree y ≠ [])
    (hs : StackModels H (leafFun H t.cachedTree) t.head L)
    (hi : t.currentIndex = L.length)
    (hlad : ∀ ℓ, t.lader.getD ℓ [] =
      pushSibs H (leafFun H t.cachedTree) L t.proofBegin t.proofEnd ℓ) :
    ∀ ℓ, (t.push H x).lader.getD ℓ [] =
      pushSibs H (leafFun H t.cachedTree) (L ++ [x]) t.proofBegin t.proofEnd ℓ := by
  have hdl : (L ++ [x]).dropLast = L := List.dropLast_concat
  apply pushFoldGo_lader H (leafFun H t.cachedTree) t.proofBegin t.proofEnd hab hH hf
    (L ++ [x]) t.head
  · simp [hi]
  · simp [hi]
  · show (if t.cachedTree then x else leafSum H x) =
      perfRoot H (leafFun H t.cachedTree) 0 ((L ++ [x]).drop t.currentIndex)
    rw [perfRoot, hi, List.drop_left]
    rfl
  · cases t.head with
    | nil => trivial
    | cons s _ => exact Nat.zero_le _
  · show StackModels H (leafFun H t.cachedTree) t.head ((L ++ [x]).take t.currentIndex)
    rw [hi, List.take_left]
    exact hs
  · show ∀ ℓ', t.lader.getD ℓ' [] =
      if ℓ' < 0 then pushSibs H (leafFun H t.cachedTree) (L ++ [x]) t.proofBegin t.proofEnd ℓ'
      else pushSibs H (leafFun H t.cachedTree) (L ++ [x]).dropLast t.proofBegin t.proofEnd ℓ'
    intro ℓ'
    rw [if_neg (by omega), hdl]
    exact hlad ℓ'

theorem pushList_lader (H : Bytes → Bytes) (a b : Nat) (cached : Bool) (M : List Bytes)
    (hab : a < b) (hH : ∀ y, H y ≠ []) (hf : ∀ y, leafFun H cached y ≠ []) :
    ∀ ℓ, (Tree.pushList H (Tree.fresh a b cached) M).lader.getD ℓ [] =
      pushSibs H (leafFun H cached) M a b ℓ := by
  induction M using List.reverseRecOn with
  | nil =>
    intro ℓ
    show ([] : ProofLader).getD ℓ [] = _
    have hp : (1 : Nat) ≤ 2 ^ ℓ := Nat.one_le_two_pow
    rw [pushSibs]
    rw [if_neg (by
      rintro ⟨_, hle⟩
      have := Nat.mul_le_mul (show 1 ≤ idxA a ℓ + 1 from by omega) hp
      simp only [List.length_nil] at hle
      omega)]
    rw [if_neg (by
      rintro ⟨_, hle⟩
      have := Nat.mul_le_mul (show 1 ≤ idxB b ℓ + 1 from by omega) hp
      simp only [List.length_nil] at hle
      omega)]
    rfl
  | append_singleton L x ih =>
    rw [Tree.pushList, List.foldl_concat]
    obtain ⟨ih1, ih2, ih3, ih4, ih5⟩ := pushList_invariant H a b cached L
    rw [Tree.pushList] at ih1 ih2 ih3 ih4 ih5
    rw [Tree.pushList] at ih
    set t := List.foldl (Tree.push H) (Tree.fresh a b cached) L with ht
    intro ℓ
    have happ := push_lader H (t := t) (L := L) x
      (by rw [ih3, ih4]; exact hab) hH
      (by rw [ih5]; exact hf)
      (by rw [ih5]; exact ih1) ih2
      (by
        intro ℓ'
        rw [ih5, ih3, ih4]
        exact ih ℓ')
    rw [happ ℓ, ih3, ih4, ih5]

/-- Alignment of the first node of a modelled stack: its end is a multiple
of its span and its begin a multiple of twice its span. -/
theorem StackModels_endAligned (H f : Bytes → Bytes) (s : SubTreeNode) (ss : Stack)
    (L : List Bytes) (hm : StackModels H f (s :: ss) L) :
    2 ^ (s.height + 1) ∣ s.beginIdx ∧ 2 ^ s.height ∣ s.endIdx := by
  obtain ⟨g1, g2, g3, g4, g5⟩ := hm
  have hble : s.beginIdx ≤ L.length := by
    have := Nat.one_le_two_pow (n := s.height)
    omega
  have hlen : (L.take s.beginIdx).length = s.beginIdx := by
    simp [List.length_take]
    omega
  have hle : heightLeStack (s.height + 1) ss := by
    cases ss with
    | nil => trivial
    | cons r rr => exact g4
  have hsx := StackModels_dvd H f ss (L.take s.beginIdx) (s.height + 1) g5 hle
  rw [hlen] at hsx
  refine ⟨hsx, ?_⟩
  have h1 : 2 ^ s.height ∣ s.beginIdx := dvd_trans (pow_dvd_pow 2 (by omega)) hsx
  have h2 : s.endIdx = s.beginIdx + 2 ^ s.height := by omega
  rw [h2]
  exact dvd_add h1 dvd_rfl

set_option maxHeartbeats 800000 in
/-- One collapsing join: the carried node, seen as the ragged tail node of
level `s.height`, pairs with the stack node `s` into the ragged tail node
of the next level. -/
theorem collapse_step (H f : Bytes → Bytes) (M : List Bytes) (s c : SubTreeNode) (rest : Stack)
    (hx : c.beginIdx < M.length)
    (hm : M.length ≤ c.beginIdx + 2 ^ s.height)
    (hsum : c.sum = (levelHashes H f M s.height).getD (c.beginIdx / 2 ^ s.height) [])
    (hmod : StackModels H f (s :: rest) (M.take c.beginIdx)) :
    (joinSubTrees H s c).beginIdx < M.length ∧
    M.length ≤ (joinSubTrees H s c).beginIdx + 2 ^ (s.height + 1) ∧
    (joinSubTrees H s c).sum =
      (levelHashes H f M (s.height + 1)).getD
        ((joinSubTrees H s c).beginIdx / 2 ^ (s.height + 1)) [] ∧
    2 ^ (s.height + 1) ∣ (joinSubTrees H s c).beginIdx ∧
    heightLeStack (s.height + 1) rest ∧
    StackModels H f rest (M.take (joinSubTrees H s c).beginIdx) := by
  obtain ⟨hsx, hex⟩ := StackModels_endAligned H f s rest (M.take c.beginIdx) hmod
  obtain ⟨g1, g2, g3, g4, g5⟩ := hmod
  have hpos : (0 : Nat) < 2 ^ s.height := by positivity
  have hxle : c.beginIdx ≤ M.length := le_of_lt hx
  have hlen : (M.take c.beginIdx).length = c.beginIdx := by
    simp [List.length_take]
    omega
  have g1' : s.endIdx = c.beginIdx := by rw [g1, hlen]
  have g2' : s.beginIdx + 2 ^ s.height = c.beginIdx := by rw [← hlen]; exact g2
  obtain ⟨q, hq⟩ := hsx
  have hsbeg : s.beginIdx = 2 ^ s.height * (2 * q) := by
    rw [hq, pow_succ]
    ring
  have hxeq : c.beginIdx = (2 * q + 1) * 2 ^ s.height := by
    rw [← g2', hsbeg]
    ring
  have hxdiv : c.beginIdx / 2 ^ s.height = 2 * q + 1 := by
    rw [hxeq]
    exact Nat.mul_div_cancel _ hpos
  have hm1 : 1 ≤ M.length := by omega
  have hlhlen : (levelHashes H f M s.height).length = idxB M.length s.height :=
    levelHashes_length H f M hm1 s.height
  have hqlt : 2 * q + 1 < (levelHashes H f M s.height).length := by
    rw [hlhlen, idxB]
    have hd : 2 * q + 1 ≤ (M.length - 1) / 2 ^ s.height := by
      rw [Nat.le_div_iff_mul_le hpos]
      omega
    omega
  have hjbeg : (joinSubTrees H s c).beginIdx = s.beginIdx := rfl
  have hjdiv : s.beginIdx / 2 ^ (s.height + 1) = q := by
    rw [hq]
    exact Nat.mul_div_cancel_left q (by positivity)
  have hssum : s.sum = (levelHashes H f M s.height).getD (2 * q) [] := by
    rw [levelHashes_getD_complete H f M s.height (2 * q) (by
        have he : (2 * q + 1) * 2 ^ s.height = c.beginIdx := hxeq.symm
        omega),
      chunkOf]
    rw [show (2 * q + 1) * 2 ^ s.height = c.beginIdx from hxeq.symm,
      show 2 * q * 2 ^ s.height = s.beginIdx from by rw [hsbeg]; ring, g3]
  refine ⟨?_, ?_, ?_, ?_, ?_, ?_⟩
  · show s.beginIdx < M.length
    omega
  · show M.length ≤ s.beginIdx + 2 ^ (s.height + 1)
    have hp : 2 ^ (s.height + 1) = 2 ^ s.height + 2 ^ s.height := by
      rw [pow_succ]
      omega
    omega
  · show nodeSum H s.sum c.sum =
      (levelHashes H f M (s.height + 1)).getD (s.beginIdx / 2 ^ (s.height + 1)) []
    rw [hjdiv]
    show nodeSum H s.sum c.sum = (chunkPairs H (levelHashes H f M s.height)).getD q []
    rw [chunkPairs_getD_pair H q _ hqlt, ← hssum, ← hxdiv, ← hsum]
  · rw [hjbeg]
    exact ⟨q, hq⟩
  · show heightLeStack (s.height + 1) rest
    cases rest with
    | nil => trivial
    | cons r _ => exact g4
  · show StackModels H f rest (M.take s.beginIdx)
    have hsble : s.beginIdx ≤ c.beginIdx := Nat.le.intro g2'
    rw [List.take_take, Nat.min_eq_left hsble] at g5
    exact g5

theorem rootFoldGo_lh (H f : Bytes → Bytes) (M : List Bytes) :
    ∀ (ss : Stack) (c : SubTreeNode) (ℓc : Nat),
      c.beginIdx < M.length →
      M.length ≤ c.beginIdx + 2 ^ ℓc →
      c.sum = (levelHashes H f M ℓc).getD (c.beginIdx / 2 ^ ℓc) [] →
      2 ^ ℓc ∣ c.beginIdx →
      heightLeStack ℓc ss →
      StackModels H f ss (M.take c.beginIdx) →
      ∀ ℓ', M.length ≤ 2 ^ ℓ' → ℓc ≤ ℓ' →
        rootFoldGo H c ss = (levelHashes H f M ℓ').getD 0 [] := by
  intro ss
  induction ss with
  | nil =>
    intro c ℓc hx hm hsum hdvd _ hmod ℓ' hml hle
    show c.sum = _
    have hble : c.beginIdx ≤ M.length := le_of_lt hx
    have hx0 : c.beginIdx = 0 := by
      have h50 : (M.take c.beginIdx) = [] := hmod
      have := congrArg List.length h50
      simp only [List.length_take, List.length_nil] at this
      omega
    rw [hx0] at hx hm
    rw [hsum, hx0, Nat.zero_div]
    have hlift := levelHashes_getD_liftLe H f M 0 ℓc ℓ' hle (dvd_zero _) hx (by omega)
    simp only [Nat.zero_div] at hlift
    exact hlift.symm
  | cons s rest ih =>
    intro c ℓc hx hm hsum hdvd hle hmod ℓ' hml hlee
    have hchs : ℓc ≤ s.height := hle
    obtain ⟨hsx, hex⟩ := StackModels_endAligned H f s rest (M.take c.beginIdx) hmod
    have hxle : c.beginIdx ≤ M.length := le_of_lt hx
    have hlen : (M.take c.beginIdx).length = c.beginIdx := by
      simp [List.length_take]
      omega
    have hxdvd : 2 ^ s.height ∣ c.beginIdx := by
      have g1 : s.endIdx = (M.take c.beginIdx).length := hmod.1
      rw [hlen] at g1
      rw [← g1]
      exact hex
    have hm_hs : M.length ≤ c.beginIdx + 2 ^ s.height := by
      have : (2 : Nat) ^ ℓc ≤ 2 ^ s.height := Nat.pow_le_pow_right (by omega) hchs
      omega
    have hsum_hs : c.sum =
        (levelHashes H f M s.height).getD (c.beginIdx / 2 ^ s.height) [] := by
      rw [hsum]
      exact (levelHashes_getD_liftLe H f M c.beginIdx ℓc s.height hchs hxdvd hx hm).symm
    obtain ⟨hj1, hj2, hj3, hj4, hj5, hj6⟩ :=
      collapse_step H f M s c rest hx hm_hs hsum_hs hmod
    show rootFoldGo H (joinSubTrees H s c) rest = _
    apply ih (joinSubTrees H s c) (s.height + 1) hj1 hj2 hj3 hj4 hj5 hj6 ℓ' hml
    have hxge : 2 ^ s.height ≤ c.beginIdx := by
      have g2 : s.beginIdx + 2 ^ s.height = (M.take c.beginIdx).length := hmod.2.1
      rw [hlen] at g2
      omega
    have hplt : (2 : Nat) ^ s.height < 2 ^ ℓ' := by omega
    have := (Nat.pow_lt_pow_iff_right (by omega : 1 < 2)).mp hplt
    omega

/-- The head of a modelled stack, read as the last node of its own level. -/
theorem StackModels_head_lh (H f : Bytes → Bytes) (M : List Bytes) (c : SubTreeNode)
    (ss : Stack) (hmod : StackModels H f (c :: ss) M) :
    c.beginIdx < M.length ∧
    M.length ≤ c.beginIdx + 2 ^ c.height ∧
    c.sum = (levelHashes H f M c.height).getD (c.beginIdx / 2 ^ c.height) [] ∧
    2 ^ c.height ∣ c.beginIdx ∧
    heightLeStack c.height ss ∧
    StackModels H f ss (M.take c.beginIdx) := by
  have hdvd := StackModels_aligned H f c ss M hmod
  obtain ⟨g1, g2, g3, g4, g5⟩ := hmod
  have hpos : (0 : Nat) < 2 ^ c.height := by positivity
  have hbeg : c.beginIdx / 2 ^ c.height * 2 ^ c.height = c.beginIdx :=
    Nat.div_mul_cancel hdvd
  refine ⟨by omega, by omega, ?_, hdvd, ?_, g5⟩
  · rw [levelHashes_getD_complete H f M c.height (c.beginIdx / 2 ^ c.height) (by
      have he : (c.beginIdx / 2 ^ c.height + 1) * 2 ^ c.height =
          c.beginIdx / 2 ^ c.height * 2 ^ c.height + 2 ^ c.height := by ring
      omega)]
    rw [chunkOf, show (c.beginIdx / 2 ^ c.height + 1) * 2 ^ c.height = M.length from by
      have he : (c.beginIdx / 2 ^ c.height + 1) * 2 ^ c.height =
          c.beginIdx / 2 ^ c.height * 2 ^ c.height + 2 ^ c.height := by ring
      omega]
    rw [List.take_length, hbeg, g3]
  · cases ss with
    | nil => trivial
    | cons r _ => exact Nat.le_of_lt g4

theorem pushList_root_lh (H : Bytes → Bytes) (a b : Nat) (cached : Bool) (M : List Bytes)
    (hM : M ≠ []) (ℓ' : Nat) (hml : M.length ≤ 2 ^ ℓ') :
    (Tree.pushList H (Tree.fresh a b cached) M).root H =
      (levelHashes H (leafFun H cached) M ℓ').getD 0 [] := by
  obtain ⟨ih1, ih2, ih3, ih4, ih5⟩ := pushList_invariant H a b cached M
  rw [Tree.root]
  cases hh : (Tree.pushList H (Tree.fresh a b cached) M).head with
  | nil =>
    exfalso
    rw [hh] at ih1
    exact hM ih1
  | cons c ss =>
    rw [hh] at ih1
    obtain ⟨k1, k2, k3, k4, k5⟩ := ih1
    obtain ⟨hj1, hj2, hj3, hj4, hj5, hj6⟩ :=
      StackModels_head_lh H (leafFun H cached) M c ss ⟨k1, k2, k3, k4, k5⟩
    show rootFoldGo H c ss = _
    apply rootFoldGo_lh H (leafFun H cached) M ss c c.height hj1 hj2 hj3 hj4 hj5 hj6 ℓ' hml
    have hpl : (2 : Nat) ^ c.height ≤ 2 ^ ℓ' := by omega
    exact (Nat.pow_le_pow_iff_right (by omega : 1 < 2)).mp hpl

theorem StackModels_heights_le (H f : Bytes → Bytes) :
    ∀ (ss : Stack) (P : List Bytes) (h0 : Nat), StackModels H f ss P →
      heightLeStack h0 ss → ∀ s' ∈ ss, h0 ≤ s'.height := by
  intro ss
  induction ss with
  | nil =>
    intro P h0 _ _ s' hmem
    exact absurd hmem (List.not_mem_nil s')
  | cons s rest ih =>
    intro P h0 hm hle s' hmem
    obtain ⟨g1, g2, g3, g4, g5⟩ := hm
    have hh0 : h0 ≤ s.height := hle
    rcases List.mem_cons.mp hmem with he | hmem'
    · rw [he]
      exact hh0
    · have hle' : heightLeStack h0 rest := by
        cases rest with
        | nil => trivial
        | cons r rr =>
          have : s.height < r.height := g4
          show h0 ≤ r.height
          omega
      exact ih (P.take s.beginIdx) h0 g5 hle' s' hmem'

/-- If some level has an odd ragged index over the pushed prefix, that
level is the height of a stack node strictly below the head. -/
theorem StackModels_ragged_mem (H f : Bytes → Bytes) :
    ∀ (ss : Stack) (P : List Bytes), StackModels H f ss P →
      ∀ ℓ, ¬ 2 ^ ℓ ∣ P.length → (P.length / 2 ^ ℓ) % 2 = 1 →
        ∃ s' ∈ ss.tail, s'.height = ℓ := by
  intro ss
  induction ss with
  | nil =>
    intro P hm ℓ hndvd _
    rw [hm] at hndvd
    simp at hndvd
  | cons s rest ih =>
    intro P hm ℓ hndvd hodd
    obtain ⟨hsx, hex⟩ := StackModels_endAligned H f s rest P hm
    obtain ⟨g1, g2, g3, g4, g5⟩ := hm
    have hpos : (0 : Nat) < 2 ^ s.height := by positivity
    have hposℓ : (0 : Nat) < 2 ^ ℓ := by positivity
    have hxd : 2 ^ s.height ∣ s.beginIdx := dvd_trans (pow_dvd_pow 2 (by omega)) hsx
    rcases Nat.lt_trichotomy ℓ s.height with hcmp | hcmp | hcmp
    · exfalso
      apply hndvd
      have h1 : 2 ^ ℓ ∣ s.beginIdx := dvd_trans (pow_dvd_pow 2 (by omega)) hxd
      have h2 : (2 : Nat) ^ ℓ ∣ 2 ^ s.height := pow_dvd_pow 2 (by omega)
      have := dvd_add h1 h2
      rwa [g2] at this
    · exfalso
      apply hndvd
      rw [← hcmp] at hxd
      have := dvd_add hxd (dvd_refl ((2 : Nat) ^ ℓ))
      rw [← hcmp] at g2
      rwa [g2] at this
    · -- ℓ above the head height
      have hxle : s.beginIdx ≤ P.length := by
        have := Nat.one_le_two_pow (n := s.height)
        omega
      have hlen : (P.take s.beginIdx).length = s.beginIdx := by
        simp [List.length_take]
        omega
      have hdecomp := Nat.div_add_mod s.beginIdx (2 ^ ℓ)
      set q := s.beginIdx / 2 ^ ℓ with hqdef
      set r := s.beginIdx % 2 ^ ℓ with hrdef
      have hdecomp' : q * 2 ^ ℓ + r = s.beginIdx := by
        rw [Nat.mul_comm]
        omega
      have hrlt : r < 2 ^ ℓ := Nat.mod_lt _ hposℓ
      have hrd : 2 ^ s.height ∣ r := by
        have h2 : 2 ^ s.height ∣ 2 ^ ℓ * q :=
          dvd_mul_of_dvd_left (pow_dvd_pow 2 (by omega)) q
        have := Nat.dvd_sub' hxd h2
        rwa [show s.beginIdx - 2 ^ ℓ * q = r from by omega] at this
      have hplt : (2 : Nat) ^ s.height < 2 ^ ℓ :=
        Nat.pow_lt_pow_right (by omega) hcmp
      by_cases hr0 : r = 0
      · -- the prefix is exactly aligned at level ℓ: its own head sits at height ℓ
        have he2 : q * 2 ^ ℓ = s.beginIdx := by omega
        have hdq : P.length / 2 ^ ℓ = q := by
          apply Nat.div_eq_of_lt_le
          · omega
          · have he : (q + 1) * 2 ^ ℓ = q * 2 ^ ℓ + 2 ^ ℓ := by ring
            omega
        rw [hdq] at hodd
        have hq1 : 1 ≤ q := by
          rcases Nat.eq_zero_or_pos q with h0 | h0
          · rw [h0] at hodd
            simp at hodd
          · exact h0
        have hx1 : 2 ^ ℓ ≤ s.beginIdx := by
          have hm1 : 1 * 2 ^ ℓ ≤ q * 2 ^ ℓ := Nat.mul_le_mul_right _ hq1
          rw [Nat.one_mul] at hm1
          omega
        cases hrest : rest with
        | nil =>
          exfalso
          rw [hrest] at g5
          have h50 : (P.take s.beginIdx) = [] := g5
          have := congrArg List.length h50
          rw [hlen] at this
          simp at this
          omega
        | cons r' rest' =>
          rw [hrest] at g5
          obtain ⟨hsx', hex'⟩ :=
            StackModels_endAligned H f r' rest' (P.take s.beginIdx) g5
          obtain ⟨f1, f2, f3, f4, f5⟩ := g5
          rw [hlen] at f1 f2
          have hposh' : (0 : Nat) < 2 ^ r'.height := by positivity
          have hheq : r'.height = ℓ := by
            rcases Nat.lt_trichotomy r'.height ℓ with hc2 | hc2 | hc2
            · exfalso
              have h1 : 2 ^ (r'.height + 1) ∣ s.beginIdx := by
                have h2 : 2 ^ (r'.height + 1) ∣ 2 ^ ℓ := pow_dvd_pow 2 (by omega)
                have h3 : 2 ^ ℓ ∣ s.beginIdx := ⟨q, by rw [← he2]; ring⟩
                exact dvd_trans h2 h3
              have h4 := Nat.dvd_sub' h1 hsx'
              rw [show s.beginIdx - r'.beginIdx = 2 ^ r'.height from by omega] at h4
              have h5 := Nat.le_of_dvd hposh' h4
              have h6 : (2 : Nat) ^ r'.height < 2 ^ (r'.height + 1) := by
                rw [pow_succ]
                omega
              omega
            · exact hc2
            · exfalso
              have h1 : 2 ^ (ℓ + 1) ∣ r'.beginIdx :=
                dvd_trans (pow_dvd_pow 2 (by omega)) hsx'
              have h2 : (2 : Nat) ^ (ℓ + 1) ∣ 2 ^ r'.height := pow_dvd_pow 2 (by omega)
              have h3 := dvd_add h1 h2
              rw [f2] at h3
              obtain ⟨k, hk⟩ := h3
              have hq2 : q = 2 * k := by
                have he3 : s.beginIdx = 2 * k * 2 ^ ℓ := by
                  rw [hk, pow_succ]
                  ring
                have := Nat.eq_of_mul_eq_mul_right hposℓ (he2.trans he3)
                omega
              omega
          refine ⟨r', ?_, hheq⟩
          show r' ∈ r' :: rest'
          exact List.mem_cons_self r' rest' 
      · -- the prefix is ragged at level ℓ as well: recurse
        obtain ⟨t, ht⟩ := hrd
        have hpow : (2 : Nat) ^ s.height * 2 ^ (ℓ - s.height) = 2 ^ ℓ := by
          rw [← pow_add]
          congr 1
          omega
        have htlt : t < 2 ^ (ℓ - s.height) := by
          by_contra hge
          push_neg at hge
          have : 2 ^ s.height * 2 ^ (ℓ - s.height) ≤ 2 ^ s.height * t :=
            Nat.mul_le_mul_left _ hge
          omega
        have hrsum : r + 2 ^ s.height ≤ 2 ^ ℓ := by
          have h1 : 2 ^ s.height * (t + 1) ≤ 2 ^ s.height * 2 ^ (ℓ - s.height) :=
            Nat.mul_le_mul_left _ (by omega)
          have h2 : 2 ^ s.height * (t + 1) = r + 2 ^ s.height := by
            rw [ht]
            ring
          omega
        have hrsum' : r + 2 ^ s.height < 2 ^ ℓ := by
          rcases Nat.lt_or_ge (r + 2 ^ s.height) (2 ^ ℓ) with h' | h'
          · exact h'
          · exfalso
            apply hndvd
            have he : P.length = (q + 1) * 2 ^ ℓ := by
              have he2 : (q + 1) * 2 ^ ℓ = q * 2 ^ ℓ + 2 ^ ℓ := by ring
              omega
            exact ⟨q + 1, by rw [he]; ring⟩
        have hdq : P.length / 2 ^ ℓ = q := by
          apply Nat.div_eq_of_lt_le
          · omega
          · have he : (q + 1) * 2 ^ ℓ = q * 2 ^ ℓ + 2 ^ ℓ := by ring
            omega
        rw [hdq] at hodd
        have hndvd' : ¬ 2 ^ ℓ ∣ s.beginIdx := by
          intro hd
          obtain ⟨u, hu⟩ := hd
          apply hr0
          rw [hrdef, hu, Nat.mul_mod_right]
        have hodd' : (s.beginIdx / 2 ^ ℓ) % 2 = 1 := hodd
        have hih := ih (P.take s.beginIdx) g5 ℓ (by rwa [hlen]) (by rwa [hlen])
        obtain ⟨s', hmem, hh⟩ := hih
        exact ⟨s', List.mem_of_mem_tail hmem, hh⟩

/-- At a level with no odd ragged node, the pushed ladder slot already
equals the verifier's sibling set. -/
theorem pushSibs_eq_sibsAt (H f : Bytes → Bytes) (M : List Bytes) (a b ℓ : Nat)
    (hab : a < b) (hb : b ≤ M.length)
    (hno : ∀ X : Nat, X % 2 = 1 → X * 2 ^ ℓ < M.length → M.length < (X + 1) * 2 ^ ℓ → False) :
    pushSibs H f M a b ℓ = sibsAt H f M a b ℓ := by
  have hpos : (0 : Nat) < 2 ^ ℓ := by positivity
  rw [pushSibs, sibsAt]
  have hL : (idxA a ℓ % 2 = 1 ∧ (idxA a ℓ + 1) * 2 ^ ℓ ≤ M.length) ↔ idxA a ℓ % 2 = 1 := by
    constructor
    · exact fun h => h.1
    · intro hA
      refine ⟨hA, ?_⟩
      by_contra hnot
      apply hno (idxA a ℓ) hA
      · have h1 : idxA a ℓ * 2 ^ ℓ ≤ a := Nat.div_mul_le_self a (2 ^ ℓ)
        omega
      · omega
  have hR : (idxB b ℓ % 2 = 1 ∧ (idxB b ℓ + 1) * 2 ^ ℓ ≤ M.length) ↔
      (idxB b ℓ % 2 = 1 ∧ idxB b ℓ < idxB M.length ℓ) := by
    have hN : idxB M.length ℓ = (M.length - 1) / 2 ^ ℓ + 1 := rfl
    constructor
    · rintro ⟨hB, hle⟩
      refine ⟨hB, ?_⟩
      rw [hN]
      have h1 : idxB b ℓ * 2 ^ ℓ ≤ M.length - 2 ^ ℓ := by
        have he : (idxB b ℓ + 1) * 2 ^ ℓ = idxB b ℓ * 2 ^ ℓ + 2 ^ ℓ := by ring
        omega
      have h2 : idxB b ℓ ≤ (M.length - 1) / 2 ^ ℓ := by
        rw [Nat.le_div_iff_mul_le hpos]
        omega
      omega
    · rintro ⟨hB, hlt⟩
      refine ⟨hB, ?_⟩
      rw [hN] at hlt
      have h1 : idxB b ℓ ≤ (M.length - 1) / 2 ^ ℓ := by omega
      have h2 : idxB b ℓ * 2 ^ ℓ ≤ M.length - 1 := (Nat.le_div_iff_mul_le hpos).mp h1
      have hm1 : 1 ≤ M.length := by omega
      by_contra hnot
      exact hno (idxB b ℓ) hB (by omega) (by omega)
  have e1 : (if idxA a ℓ % 2 = 1 ∧ (idxA a ℓ + 1) * 2 ^ ℓ ≤ M.length
      then [(levelHashes H f M ℓ).getD (idxA a ℓ - 1) []] else ([] : List Bytes)) =
      (if idxA a ℓ % 2 = 1
      then [(levelHashes H f M ℓ).getD (idxA a ℓ - 1) []] else []) := by
    by_cases hc : idxA a ℓ % 2 = 1
    · rw [if_pos (hL.mpr hc), if_pos hc]
    · rw [if_neg (by tauto), if_neg hc]
  have e2 : (if idxB b ℓ % 2 = 1 ∧ (idxB b ℓ + 1) * 2 ^ ℓ ≤ M.length
      then [(levelHashes H f M ℓ).getD (idxB b ℓ) []] else ([] : List Bytes)) =
      (if idxB b ℓ % 2 = 1 ∧ idxB b ℓ < idxB M.length ℓ
      then [(levelHashes H f M ℓ).getD (idxB b ℓ) []] else []) := by
    by_cases hc : idxB b ℓ % 2 = 1 ∧ idxB b ℓ < idxB M.length ℓ
    · rw [if_pos (hR.mpr hc), if_pos hc]
    · rw [if_neg (fun h => hc (hR.mp h)), if_neg hc]
  rw [e1, e2]

theorem proveFoldGo_cons (H : Bytes → Bytes) (a b : Nat) (c s : SubTreeNode) (rest : Stack)
    (lader : ProofLader) :
    proveFoldGo H a b c (s :: rest) lader =
      proveFoldGo H a b (joinSubTrees H s c) rest
        (if c.contains a b ∧ ¬ s.contains a b then addToLader lader s.height s.sum
         else if ¬ c.contains a b ∧ s.contains a b then addToLader lader s.height c.sum
         else lader) := by
  rw [proveFoldGo]

set_option maxHeartbeats 1600000 in
/-- The residual collapse of Prove finishes the ladder: every slot of the
result is exactly the verifier's sibling set of its level. -/
theorem proveFoldGo_lader (H f : Bytes → Bytes) (a b : Nat) (hab : a < b) (M : List Bytes)
    (hb : b ≤ M.length) :
    ∀ (ss : Stack) (c : SubTreeNode) (lader : ProofLader) (ℓc : Nat),
      c.endIdx = M.length →
      c.beginIdx < M.length →
      M.length ≤ c.beginIdx + 2 ^ ℓc →
      (M.length < c.beginIdx + 2 ^ ℓc ∨ heightLtStack ℓc ss) →
      c.sum = (levelHashes H f M ℓc).getD (c.beginIdx / 2 ^ ℓc) [] →
      2 ^ ℓc ∣ c.beginIdx →
      heightLeStack ℓc ss →
      StackModels H f ss (M.take c.beginIdx) →
      (∀ ℓ, lader.getD ℓ [] =
        if (∃ s' ∈ ss, s'.height = ℓ) then pushSibs H f M a b ℓ
        else sibsAt H f M a b ℓ) →
      ∀ ℓ, (proveFoldGo H a b c ss lader).getD ℓ [] = sibsAt H f M a b ℓ := by
  intro ss
  induction ss with
  | nil =>
    intro c lader ℓc _ _ _ _ _ _ _ _ hlader ℓ
    show lader.getD ℓ [] = _
    rw [hlader ℓ, if_neg (by simp)]
  | cons s rest ih =>
    intro c lader ℓc h1 hx hm hstrict hsum hdvd hle hmod hlader
    have hchs : ℓc ≤ s.height := hle
    obtain ⟨hsx, hex⟩ := StackModels_endAligned H f s rest (M.take c.beginIdx) hmod
    obtain ⟨g1, g2, g3, g4, g5⟩ := hmod
    have hmod' : StackModels H f (s :: rest) (M.take c.beginIdx) := ⟨g1, g2, g3, g4, g5⟩
    have hpos : (0 : Nat) < 2 ^ s.height := by positivity
    have hxle : c.beginIdx ≤ M.length := le_of_lt hx
    have hlen : (M.take c.beginIdx).length = c.beginIdx := by
      simp [List.length_take]
      omega
    have g1' : s.endIdx = c.beginIdx := by rw [g1, hlen]
    have g2' : s.beginIdx + 2 ^ s.height = c.beginIdx := by rw [← hlen]; exact g2
    have hxdvd : 2 ^ s.height ∣ c.beginIdx := by rw [← g1']; exact hex
    have hragged : M.length < c.beginIdx + 2 ^ s.height := by
      rcases hstrict with hst | hst
      · have hp : (2 : Nat) ^ ℓc ≤ 2 ^ s.height := Nat.pow_le_pow_right (by omega) hchs
        omega
      · have hlt : ℓc < s.height := hst
        have hp : (2 : Nat) ^ ℓc < 2 ^ s.height := Nat.pow_lt_pow_right (by omega) hlt
        omega
    have hm_hs : M.length ≤ c.beginIdx + 2 ^ s.height := le_of_lt hragged
    have hsum_hs : c.sum =
        (levelHashes H f M s.height).getD (c.beginIdx / 2 ^ s.height) [] := by
      rw [hsum]
      exact (levelHashes_getD_liftLe H f M c.beginIdx ℓc s.height hchs hxdvd hx hm).symm
    obtain ⟨hj1, hj2, hj3, hj4, hj5, hj6⟩ :=
      collapse_step H f M s c rest hx hm_hs hsum_hs hmod'
    obtain ⟨qq, hqq⟩ := hsx
    set i := c.beginIdx / 2 ^ s.height with hidef
    have hbeg : i * 2 ^ s.height = c.beginIdx := Nat.div_mul_cancel hxdvd
    have hieq : i = 2 * qq + 1 := by
      have hxeq : c.beginIdx = (2 * qq + 1) * 2 ^ s.height := by
        rw [← g2', hqq, pow_succ]
        ring
      rw [hidef, hxeq]
      exact Nat.mul_div_cancel _ hpos
    have hodd : i % 2 = 1 := by omega
    have hi1 : 1 ≤ i := by omega
    have hsbeg : s.beginIdx = (i - 1) * 2 ^ s.height := by
      rw [hqq, pow_succ, show i - 1 = 2 * qq from by omega]
      ring
    have hm1 : 1 ≤ M.length := by omega
    have hsucci : (i + 1) * 2 ^ s.height = i * 2 ^ s.height + 2 ^ s.height := by ring
    have hNval : idxB M.length s.height = i + 1 := by
      rw [idxB]
      have hd : (M.length - 1) / 2 ^ s.height = i := by
        apply Nat.div_eq_of_lt_le
        · omega
        · omega
      omega
    have hAB := idxA_lt_idxB a b s.height hab
    have hBle : idxB b s.height ≤ i + 1 := by
      rw [← hNval]
      show (b - 1) / 2 ^ s.height + 1 ≤ (M.length - 1) / 2 ^ s.height + 1
      have := Nat.div_le_div_right (c := 2 ^ s.height) (show b - 1 ≤ M.length - 1 from by omega)
      omega
    have hcc : c.contains a b ↔ (idxA a s.height ≤ i ∧ i < idxB b s.height) := by
      apply contains_iff_ragged c i s.height a b hab (by omega) hbeg.symm
      omega
    have hsc : s.contains a b ↔
        (idxA a s.height ≤ i - 1 ∧ i - 1 < idxB b s.height) := by
      apply contains_iff s (i - 1) s.height a b hab hsbeg
      rw [g1', show i - 1 + 1 = i from by omega]
      exact hbeg.symm
    have hssum : s.sum = (levelHashes H f M s.height).getD (i - 1) [] := by
      rw [levelHashes_getD_complete H f M s.height (i - 1) (by
          rw [show i - 1 + 1 = i from by omega]
          omega),
        chunkOf, show i - 1 + 1 = i from by omega, hbeg, ← hsbeg, g3]
    have hsnot : ¬ ∃ s' ∈ rest, s'.height = s.height := by
      rintro ⟨s', hmem, hh'⟩
      have hge := StackModels_heights_le H f rest ((M.take c.beginIdx).take s.beginIdx)
        (s.height + 1) g5 (by
          cases rest with
          | nil => trivial
          | cons r _ => exact g4) s' hmem
      omega
    have hstrict' : M.length < (joinSubTrees H s c).beginIdx + 2 ^ (s.height + 1) ∨
        heightLtStack (s.height + 1) rest := by
      left
      show M.length < s.beginIdx + 2 ^ (s.height + 1)
      have hp : (2 : Nat) ^ (s.height + 1) = 2 ^ s.height + 2 ^ s.height := by
        rw [pow_succ]
        omega
      omega
    have hequiv : ∀ ℓ, ℓ ≠ s.height →
        ((∃ s' ∈ s :: rest, s'.height = ℓ) ↔ (∃ s' ∈ rest, s'.height = ℓ)) := by
      intro ℓ hℓ
      constructor
      · rintro ⟨s', hmem, hh'⟩
        rcases List.mem_cons.mp hmem with he | hm2
        · exfalso
          apply hℓ
          rw [← hh', he]
        · exact ⟨s', hm2, hh'⟩
      · rintro ⟨s', hm2, hh'⟩
        exact ⟨s', List.mem_cons_of_mem s hm2, hh'⟩
    rw [proveFoldGo_cons H a b c s rest lader]
    by_cases hcap1 : c.contains a b ∧ ¬ s.contains a b
    · rw [if_pos hcap1]
      have hAi : idxA a s.height = i := by
        obtain ⟨hc1, hs1⟩ := hcap1
        obtain ⟨hA1, hA2⟩ := hcc.mp hc1
        rcases Nat.lt_or_ge (i - 1) (idxA a s.height) with h' | h'
        · omega
        · exact absurd (hsc.mpr ⟨h', by omega⟩) hs1
      have hiB : i < idxB b s.height := (hcc.mp hcap1.1).2
      have hBi1 : idxB b s.height = i + 1 := by omega
      apply ih (joinSubTrees H s c) (addToLader lader s.height s.sum) (s.height + 1)
        h1 hj1 hj2 hstrict' hj3 hj4 hj5 hj6
      intro ℓ
      rw [addToLader_getD]
      by_cases hℓ : ℓ = s.height
      · rw [if_pos hℓ, hℓ, if_neg hsnot, hlader s.height,
          if_pos ⟨s, List.mem_cons_self s rest, rfl⟩]
        rw [pushSibs, sibsAt]
        have hpL : ¬ (idxA a s.height % 2 = 1 ∧
            (idxA a s.height + 1) * 2 ^ s.height ≤ M.length) := by
          rintro ⟨_, hle⟩
          rw [hAi] at hle
          omega
        have hpR : ¬ (idxB b s.height % 2 = 1 ∧
            (idxB b s.height + 1) * 2 ^ s.height ≤ M.length) := by
          rintro ⟨ho, _⟩
          omega
        have hsL : idxA a s.height % 2 = 1 := by
          rw [hAi]
          exact hodd
        have hsR : ¬ (idxB b s.height % 2 = 1 ∧
            idxB b s.height < idxB M.length s.height) := by
          rintro ⟨ho, _⟩
          omega
        rw [if_neg hpL, if_neg hpR, if_pos hsL, if_neg hsR, hssum, hAi]
        simp
      · rw [if_neg hℓ, hlader ℓ]
        by_cases hc : ∃ s' ∈ rest, s'.height = ℓ
        · rw [if_pos ((hequiv ℓ hℓ).mpr hc), if_pos hc]
        · rw [if_neg (fun h => hc ((hequiv ℓ hℓ).mp h)), if_neg hc]
    · by_cases hcap2 : ¬ c.contains a b ∧ s.contains a b
      · rw [if_neg hcap1, if_pos hcap2]
        have hBi : idxB b s.height = i := by
          obtain ⟨hnc, hs1⟩ := hcap2
          obtain ⟨hB1, hB2⟩ := hsc.mp hs1
          rcases Nat.lt_or_ge i (idxB b s.height) with h' | h'
          · exact absurd (hcc.mpr ⟨by omega, h'⟩) hnc
          · omega
        have hAle1 : idxA a s.height ≤ i - 1 := by omega
        apply ih (joinSubTrees H s c) (addToLader lader s.height c.sum) (s.height + 1)
          h1 hj1 hj2 hstrict' hj3 hj4 hj5 hj6
        intro ℓ
        rw [addToLader_getD]
        by_cases hℓ : ℓ = s.height
        · rw [if_pos hℓ, hℓ, if_neg hsnot, hlader s.height,
            if_pos ⟨s, List.mem_cons_self s rest, rfl⟩]
          rw [pushSibs, sibsAt]
          have hpR : ¬ (idxB b s.height % 2 = 1 ∧
              (idxB b s.height + 1) * 2 ^ s.height ≤ M.length) := by
            rintro ⟨_, hle⟩
            rw [hBi] at hle
            omega
          have hsR : idxB b s.height % 2 = 1 ∧
              idxB b s.height < idxB M.length s.height := by
            rw [hBi, hNval]
            exact ⟨hodd, by omega⟩
          rw [if_neg hpR, if_pos hsR]
          have hAle2 : (idxA a s.height + 1) * 2 ^ s.height ≤ M.length := by
            have hmm : (idxA a s.height + 1) * 2 ^ s.height ≤ i * 2 ^ s.height :=
              Nat.mul_le_mul_right _ (by omega)
            omega
          by_cases hAodd : idxA a s.height % 2 = 1
          · rw [if_pos (show idxA a s.height % 2 = 1 ∧
                  (idxA a s.height + 1) * 2 ^ s.height ≤ M.length from ⟨hAodd, hAle2⟩),
              if_pos hAodd, hsum_hs, hBi]
            simp
          · rw [if_neg (show ¬ (idxA a s.height % 2 = 1 ∧
                  (idxA a s.height + 1) * 2 ^ s.height ≤ M.length) from by tauto),
              if_neg hAodd, hsum_hs, hBi]
            simp
        · rw [if_neg hℓ, hlader ℓ]
          by_cases hc : ∃ s' ∈ rest, s'.height = ℓ
          · rw [if_pos ((hequiv ℓ hℓ).mpr hc), if_pos hc]
          · rw [if_neg (fun h => hc ((hequiv ℓ hℓ).mp h)), if_neg hc]
      · rw [if_neg hcap1, if_neg hcap2]
        have hAne : idxA a s.height ≠ i := by
          intro he
          exact hcap1 ⟨hcc.mpr ⟨by omega, by omega⟩, fun hs1 => by
            obtain ⟨hx1, hx2⟩ := hsc.mp hs1
            omega⟩
        have hBne : idxB b s.height ≠ i := by
          intro he
          refine hcap2 ⟨fun hc1 => ?_, hsc.mpr ⟨by omega, by omega⟩⟩
          obtain ⟨hx1, hx2⟩ := hcc.mp hc1
          omega
        apply ih (joinSubTrees H s c) lader (s.height + 1)
          h1 hj1 hj2 hstrict' hj3 hj4 hj5 hj6
        intro ℓ
        rw [hlader ℓ]
        by_cases hℓ : ℓ = s.height
        · rw [hℓ, if_pos ⟨s, List.mem_cons_self s rest, rfl⟩, if_neg hsnot]
          rw [pushSibs, sibsAt]
          have hAle1 : idxA a s.height ≤ i - 1 := by omega
          have hsegL : (if idxA a s.height % 2 = 1 ∧
              (idxA a s.height + 1) * 2 ^ s.height ≤ M.length
              then [(levelHashes H f M s.height).getD (idxA a s.height - 1) []]
              else ([] : List Bytes)) =
              (if idxA a s.height % 2 = 1
              then [(levelHashes H f M s.height).getD (idxA a s.height - 1) []] else []) := by
            by_cases hAodd : idxA a s.height % 2 = 1
            · rw [if_pos ⟨hAodd, by
                  have hmm : (idxA a s.height + 1) * 2 ^ s.height ≤ i * 2 ^ s.height :=
                    Nat.mul_le_mul_right _ (by omega)
                  omega⟩,
                if_pos hAodd]
            · rw [if_neg (by tauto), if_neg hAodd]
          have hsegR : (if idxB b s.height % 2 = 1 ∧
              (idxB b s.height + 1) * 2 ^ s.height ≤ M.length
              then [(levelHashes H f M s.height).getD (idxB b s.height) []]
              else ([] : List Bytes)) =
              (if idxB b s.height % 2 = 1 ∧ idxB b s.height < idxB M.length s.height
              then [(levelHashes H f M s.height).getD (idxB b s.height) []] else []) := by
            by_cases hBtop : idxB b s.height = i + 1
            · rw [if_neg (by
                  rintro ⟨_, hle⟩
                  rw [hBtop] at hle
                  have he2 : (i + 1 + 1) * 2 ^ s.height =
                      (i + 1) * 2 ^ s.height + 2 ^ s.height := by ring
                  omega),
                if_neg (by
                  rintro ⟨_, hlt⟩
                  rw [hBtop, hNval] at hlt
                  omega)]
            · have hBle1 : idxB b s.height ≤ i - 1 := by omega
              by_cases hBodd : idxB b s.height % 2 = 1
              · rw [if_pos ⟨hBodd, by
                    have hmm : (idxB b s.height + 1) * 2 ^ s.height ≤ i * 2 ^ s.height :=
                      Nat.mul_le_mul_right _ (by omega)
                    omega⟩,
                  if_pos ⟨hBodd, by rw [hNval]; omega⟩]
              · rw [if_neg (by tauto), if_neg (by tauto)]
          rw [hsegL, hsegR]
        · by_cases hc : ∃ s' ∈ rest, s'.height = ℓ
          · rw [if_pos ((hequiv ℓ hℓ).mpr hc), if_pos hc]
          · rw [if_neg (fun h => hc ((hequiv ℓ hℓ).mp h)), if_neg hc]

theorem pushList_bases (H : Bytes → Bytes) (a b : Nat) (cached : Bool) (M : List Bytes) :
    (Tree.pushList H (Tree.fresh a b cached) M).bases = (M.take b).drop a := by
  induction M using List.reverseRecOn with
  | nil =>
    show ([] : List Bytes) = _
    simp
  | append_singleton L x ih =>
    rw [Tree.pushList, List.foldl_concat]
    obtain ⟨ih1, ih2, ih3, ih4, ih5⟩ := pushList_invariant H a b cached L
    rw [Tree.pushList] at ih ih2 ih3 ih4
    set t := List.foldl (Tree.push H) (Tree.fresh a b cached) L with ht
    show (if t.proofBegin ≤ t.currentIndex ∧ t.currentIndex < t.proofEnd
        then t.bases ++ [x] else t.bases) = ((L ++ [x]).take b).drop a
    rw [ih2, ih3, ih4, ih]
    by_cases hc : a ≤ L.length ∧ L.length < b
    · rw [if_pos hc]
      rw [List.take_of_length_le (by omega), List.take_of_length_le (by simp; omega)]
      rw [List.drop_append_of_le_length (by omega)]
    · rw [if_neg hc]
      rcases Nat.lt_or_ge L.length b with hlb | hlb
      · have hla : L.length < a := by omega
        have h1 : (L.take b).drop a = [] :=
          List.drop_eq_nil_of_le (by simp [List.length_take]; omega)
        have h2 : ((L ++ [x]).take b).drop a = [] :=
          List.drop_eq_nil_of_le (by simp [List.length_take]; omega)
        rw [h1, h2]
      · rw [List.take_append_of_le_length hlb]

/-- A list is the `range`-indexed table of its own slots. -/
theorem lader_list_eq (lader : ProofLader) (g : Nat → List Bytes)
    (hg : ∀ ℓ, lader.getD ℓ [] = g ℓ) :
    lader = (List.range lader.length).map g := by
  apply List.ext_getElem
  · simp
  · intro n h1 h2
    have := hg n
    rw [List.getD_eq_getElem lader [] h1] at this
    rw [this]
    simp

theorem sibsAt_length_le (H f : Bytes → Bytes) (M : List Bytes) (a b ℓ : Nat) :
    (sibsAt H f M a b ℓ).length ≤ 2 := by
  rw [sibsAt]
  split <;> split <;> simp

/-- A level entirely above the data contributes no siblings. -/
theorem sibsAt_nil_of_le (H f : Bytes → Bytes) (M : List Bytes) (a b ℓ : Nat)
    (ha : a < M.length) (hml : M.length ≤ 2 ^ ℓ) :
    sibsAt H f M a b ℓ = [] := by
  have hpos : (0 : Nat) < 2 ^ ℓ := by positivity
  rw [sibsAt]
  rw [if_neg (by
    intro hA
    have h0 : idxA a ℓ = 0 := by
      rw [idxA]
      exact Nat.div_eq_of_lt (by omega)
    rw [h0] at hA
    simp at hA)]
  rw [if_neg (by
    rintro ⟨_, hlt⟩
    have h1 : idxB M.length ℓ ≤ 1 := idxB_le_one M.length ℓ hml
    have h2 := one_le_idxB b ℓ
    omega)]
  rfl

theorem foldLader_flatten (lader : ProofLader)
    (h2 : ∀ st ∈ lader, st.length ≤ 2) : foldLader lader = some lader.flatten := by
  induction lader with
  | nil => rfl
  | cons st rest ih =>
    rw [foldLader]
    rw [if_neg (by
      have := h2 st (List.mem_cons_self st rest)
      omega)]
    rw [ih (fun s hs => h2 s (List.mem_cons_of_mem st hs))]
    rfl

theorem flatten_range_congr (g : Nat → List Bytes) (K K' : Nat) (hK : K ≤ K')
    (hnil : ∀ ℓ, K ≤ ℓ → g ℓ = []) :
    ((List.range K').map g).flatten = ((List.range K).map g).flatten := by
  have hsplit : K' = K + (K' - K) := by omega
  rw [hsplit, List.range_add, List.map_append, List.flatten_append]
  have hz : ((List.range (K' - K)).map (g ∘ fun x => K + x)).flatten = [] := by
    rw [List.flatten_eq_nil_iff]
    intro l hl
    simp only [List.mem_map, Function.comp] at hl
    obtain ⟨x, _, hx⟩ := hl
    rw [← hx]
    exact hnil (K + x) (by omega)
  rw [List.map_map, hz, List.append_nil]

theorem getD_of_mem (l : ProofLader) (st : List Bytes) (hm : st ∈ l) :
    ∃ i, i < l.length ∧ l.getD i [] = st := by
  obtain ⟨i, hi, he⟩ := List.mem_iff_getElem.mp hm
  exact ⟨i, hi, by rw [List.getD_eq_getElem l [] hi, he]⟩

set_option maxHeartbeats 800000 in
/-- After pushing all leaves, the residual collapse of Prove leaves the
verifier's sibling set in every ladder slot. -/
theorem pushList_prove_sibs (H : Bytes → Bytes) (a b : Nat) (cached : Bool) (M : List Bytes)
    (hab : a < b) (hb : b ≤ M.length) (hH : ∀ y, H y ≠ [])
    (hf : ∀ y, leafFun H cached y ≠ []) :
    ∀ ℓ, (proveFold H a b (Tree.pushList H (Tree.fresh a b cached) M).head
        (Tree.pushList H (Tree.fresh a b cached) M).lader).getD ℓ [] =
      sibsAt H (leafFun H cached) M a b ℓ := by
  obtain ⟨ih1, ih2, ih3, ih4, ih5⟩ := pushList_invariant H a b cached M
  have hm1 : 1 ≤ M.length := by omega
  have hM : M ≠ [] := by
    intro he
    rw [he] at hm1
    simp at hm1
  cases hh : (Tree.pushList H (Tree.fresh a b cached) M).head with
  | nil =>
    exfalso
    rw [hh] at ih1
    exact hM ih1
  | cons c ss =>
    rw [hh] at ih1
    obtain ⟨k1, k2, k3, k4, k5⟩ := ih1
    obtain ⟨hj1, hj2, hj3, hj4, hj5, hj6⟩ :=
      StackModels_head_lh H (leafFun H cached) M c ss ⟨k1, k2, k3, k4, k5⟩
    show ∀ ℓ, (proveFoldGo H a b c ss
        (Tree.pushList H (Tree.fresh a b cached) M).lader).getD ℓ [] = _
    apply proveFoldGo_lader H (leafFun H cached) a b hab M hb ss c _ c.height
      k1 hj1 hj2 (Or.inr k4) hj3 hj4 hj5 hj6
    intro ℓ
    rw [pushList_lader H a b cached M hab hH hf ℓ]
    by_cases hc : ∃ s' ∈ ss, s'.height = ℓ
    · rw [if_pos hc]
    · rw [if_neg hc]
      apply pushSibs_eq_sibsAt H (leafFun H cached) M a b ℓ hab hb
      intro X hXodd hX1 hX2
      have hpos : (0 : Nat) < 2 ^ ℓ := by positivity
      have hdq : M.length / 2 ^ ℓ = X := Nat.div_eq_of_lt_le (le_of_lt hX1) hX2
      have hnd : ¬ 2 ^ ℓ ∣ M.length := by
        rintro ⟨k, hk⟩
        have hk' : M.length = k * 2 ^ ℓ := by rw [hk]; ring
        rw [hk'] at hX1 hX2
        have hlt1 : X < k := Nat.lt_of_mul_lt_mul_right hX1
        have hlt2 : k < X + 1 := Nat.lt_of_mul_lt_mul_right hX2
        omega
      have := StackModels_ragged_mem H (leafFun H cached) (c :: ss) M
        ⟨k1, k2, k3, k4, k5⟩ ℓ hnd (by rw [hdq]; exact hXodd)
      exact hc this

set_option maxHeartbeats 800000 in
/-- Prove on a fully pushed tree: ready, with proof set equal to the
slice's leaves followed by the flattened per-level sibling sets. -/
theorem pushList_prove_eq (H : Bytes → Bytes) (a b : Nat) (cached : Bool) (M : List Bytes)
    (hab : a < b) (hb : b ≤ M.length) (hH : ∀ y, H y ≠ [])
    (hf : ∀ y, leafFun H cached y ≠ []) :
    (Tree.pushList H (Tree.fresh a b cached) M).prove H =
      some ⟨(Tree.pushList H (Tree.fresh a b cached) M).root H,
        some ((M.take b).drop a ++
          ((List.range M.length).map
            (fun ℓ => sibsAt H (leafFun H cached) M a b ℓ)).flatten),
        a, M.length⟩ := by
  obtain ⟨ih1, ih2, ih3, ih4, ih5⟩ := pushList_invariant H a b cached M
  have hm1 : 1 ≤ M.length := by omega
  have hM : M ≠ [] := by
    intro he
    rw [he] at hm1
    simp at hm1
  have hhead : (Tree.pushList H (Tree.fresh a b cached) M).head ≠ [] := by
    intro he
    rw [he] at ih1
    exact hM ih1
  set t := Tree.pushList H (Tree.fresh a b cached) M with ht
  rw [Tree.prove]
  rw [if_neg (by
    rintro (he | hlt)
    · exact hhead he
    · rw [ih2, ih4] at hlt
      omega)]
  have hslots := pushList_prove_sibs H a b cached M hab hb hH hf
  rw [← ht] at hslots
  rw [ih3, ih4]
  set final := proveFold H a b t.head t.lader with hfin
  have hle2 : ∀ st ∈ final, st.length ≤ 2 := by
    intro st hst
    obtain ⟨i, _, he⟩ := getD_of_mem final st hst
    rw [← he, hslots i]
    exact sibsAt_length_le H (leafFun H cached) M a b i
  rw [foldLader_flatten final hle2]
  have hlist : final = (List.range final.length).map
      (fun ℓ => sibsAt H (leafFun H cached) M a b ℓ) :=
    lader_list_eq final _ hslots
  have hflat : final.flatten = ((List.range M.length).map
      (fun ℓ => sibsAt H (leafFun H cached) M a b ℓ)).flatten := by
    conv_lhs => rw [hlist]
    rcases Nat.le_total final.length M.length with hl | hl
    · rw [flatten_range_congr _ final.length M.length hl (fun ℓ hℓ => by
        rw [← hslots ℓ, List.getD_eq_default]
        omega)]
    · rw [flatten_range_congr _ M.length final.length hl (fun ℓ hℓ => by
        apply sibsAt_nil_of_le H (leafFun H cached) M a b ℓ (by omega)
        have h1 : M.length < 2 ^ M.length := Nat.lt_two_pow _
        have h2 : (2 : Nat) ^ M.length ≤ 2 ^ ℓ := Nat.pow_le_pow_right (by omega) hℓ
        omega)]
  rw [hflat, pushList_bases H a b cached M, ih2]

theorem chunkPairs_take (H : Bytes → Bytes) :
    ∀ (L : List Bytes) (B : Nat), B % 2 = 0 ∨ L.length ≤ B →
      chunkPairs H (L.take B) = (chunkPairs H L).take ((B + 1) / 2)
  | [], B, _ => by simp [chunkPairs]
  | [x], B, hB => by
    match B, hB with
    | 0, _ => simp [chunkPairs]
    | B + 1, _ =>
      rw [List.take_of_length_le (by rw [List.length_singleton]; omega)]
      rw [List.take_of_length_le (by
        rw [show chunkPairs H [x] = [x] from rfl, List.length_singleton]
        omega)]
  | x :: y :: rest, B, hB => by
    match B, hB with
    | 0, _ => simp [chunkPairs]
    | 1, hB =>
      rcases hB with h | h
      · omega
      · simp at h
    | B + 2, hB =>
      rw [show (x :: y :: rest).take (B + 2) = x :: y :: rest.take B from rfl]
      rw [show chunkPairs H (x :: y :: rest.take B) =
        nodeSum H x y :: chunkPairs H (rest.take B) from rfl]
      rw [show chunkPairs H (x :: y :: rest) =
        nodeSum H x y :: chunkPairs H rest from rfl]
      rw [show (B + 2 + 1) / 2 = (B + 1) / 2 + 1 from by omega]
      rw [List.take_succ_cons]
      rw [chunkPairs_take H rest B (by
        rcases hB with h | h
        · left
          omega
        · right
          simp at h
          omega)]

theorem chunkPairs_drop (H : Bytes → Bytes) :
    ∀ (L : List Bytes) (A : Nat), A % 2 = 0 →
      chunkPairs H (L.drop A) = (chunkPairs H L).drop (A / 2)
  | L, 0, _ => by simp
  | [], A, _ => by simp [chunkPairs]
  | [x], A + 1, hA => by
    match A, hA with
    | A + 1, _ =>
      rw [List.drop_of_length_le (by rw [List.length_singleton]; omega)]
      rw [List.drop_of_length_le (by
        rw [show chunkPairs H [x] = [x] from rfl, List.length_singleton]
        omega)]
      rfl
  | x :: y :: rest, A + 1, hA => by
    match A, hA with
    | A + 1, hA =>
      rw [show (x :: y :: rest).drop (A + 1 + 1) = rest.drop A from rfl]
      rw [show chunkPairs H (x :: y :: rest) =
        nodeSum H x y :: chunkPairs H rest from rfl]
      rw [show (A + 1 + 1) / 2 = A / 2 + 1 from by omega]
      rw [List.drop_succ_cons]
      rw [chunkPairs_drop H rest A (by omega)]

/-- Collapsing one level commutes with slicing at even boundaries (or up
to the end of the level). -/
theorem chunkPairs_slice (H : Bytes → Bytes) (L : List Bytes) (A B : Nat)
    (hA2 : A % 2 = 0) (hBend : B % 2 = 0 ∨ L.length ≤ B) :
    chunkPairs H ((L.take B).drop A) =
      ((chunkPairs H L).take ((B + 1) / 2)).drop (A / 2) := by
  rw [chunkPairs_drop H (L.take B) A hA2, chunkPairs_take H L B hBend]

theorem verifyLoop_stop (H : Bytes → Bytes) (root : Bytes) (fuel : Nat) (sums ps : List Bytes)
    (pb pe nl : Nat) (h : ¬ 1 < nl) :
    verifyLoop H root fuel sums ps pb pe nl =
      if ps.length ≠ 0 then some false
      else match sums with
        | [] => none
        | s :: _ => some (decide (s = root)) := by
  rw [verifyLoop.eq_def]
  change (if 1 < nl then _ else _) = _
  rw [if_neg h]

theorem verifyLoop_succ (H : Bytes → Bytes) (root : Bytes) (fuel : Nat) (sums ps : List Bytes)
    (pb pe nl : Nat) (h : 1 < nl) :
    verifyLoop H root (fuel + 1) sums ps pb pe nl =
      (if pb % 2 = 1 ∧ ps = [] then some false
      else
        let sums1 := if pb % 2 = 1 then ps.headD [] :: sums else sums
        let proofSet1 := if pb % 2 = 1 then ps.tail else ps
        let proofBegin1 := if pb % 2 = 1 then pb - 1 else pb
        if sums1.length % 2 = 1 ∧ pe < nl ∧ proofSet1 = [] then some false
        else
          let absorbR := sums1.length % 2 = 1 ∧ pe < nl
          let sums2 := if absorbR then sums1 ++ [proofSet1.headD []] else sums1
          let proofSet2 := if absorbR then proofSet1.tail else proofSet1
          let proofEnd2 := if absorbR then pe + 1 else pe
          verifyLoop H root fuel (chunkPairs H sums2) proofSet2
            (proofBegin1 / 2) ((proofEnd2 + 1) / 2) ((nl + 1) / 2)) := by
  rw [verifyLoop.eq_def]
  change (if 1 < nl then _ else _) = _
  rw [if_pos h]

set_option maxHeartbeats 1600000 in
/-- One verifier iteration from the canonical state of a level (working
sums are the slice of that level's hashes, proof set starts with that
level's sibling set) to the canonical state of the next level. -/
theorem verifyLoop_step (H f : Bytes → Bytes) (M : List Bytes) (a b : Nat)
    (hab : a < b) (hb : b ≤ M.length) (root : Bytes) (fuel' : Nat) (PS : List Bytes)
    (ℓ : Nat) (hN2 : 1 < idxB M.length ℓ) :
    verifyLoop H root (fuel' + 1)
      (((levelHashes H f M ℓ).take (idxB b ℓ)).drop (idxA a ℓ))
      (sibsAt H f M a b ℓ ++ PS)
      (idxA a ℓ) (idxB b ℓ) (idxB M.length ℓ) =
    verifyLoop H root fuel'
      (((levelHashes H f M (ℓ + 1)).take (idxB b (ℓ + 1))).drop (idxA a (ℓ + 1)))
      PS (idxA a (ℓ + 1)) (idxB b (ℓ + 1)) (idxB M.length (ℓ + 1)) := by
  have hm1 : 1 ≤ M.length := by omega
  have hlenlvl : (levelHashes H f M ℓ).length = idxB M.length ℓ :=
    levelHashes_length H f M hm1 ℓ
  have hAB : idxA a ℓ < idxB b ℓ := idxA_lt_idxB a b ℓ hab
  have hBN : idxB b ℓ ≤ idxB M.length ℓ := by
    show (b - 1) / 2 ^ ℓ + 1 ≤ (M.length - 1) / 2 ^ ℓ + 1
    have := Nat.div_le_div_right (c := 2 ^ ℓ) (show b - 1 ≤ M.length - 1 from by omega)
    omega
  have htakeB : ((levelHashes H f M ℓ).take (idxB b ℓ)).length = idxB b ℓ := by
    rw [List.length_take, hlenlvl]
    omega
  have hsumlen : (((levelHashes H f M ℓ).take (idxB b ℓ)).drop (idxA a ℓ)).length
      = idxB b ℓ - idxA a ℓ := by
    rw [List.length_drop, htakeB]
  have hA1 : idxA a (ℓ + 1) = idxA a ℓ / 2 := idxA_succ a ℓ
  have hB1 : idxB b (ℓ + 1) = (idxB b ℓ + 1) / 2 := idxB_succ b ℓ
  have hN1 : idxB M.length (ℓ + 1) = (idxB M.length ℓ + 1) / 2 := idxB_succ M.length ℓ
  have hlvl1 : levelHashes H f M (ℓ + 1) = chunkPairs H (levelHashes H f M ℓ) := rfl
  by_cases hAodd : idxA a ℓ % 2 = 1
  · -- a left sibling is absorbed at this level
    have hWlt : idxA a ℓ - 1 < ((levelHashes H f M ℓ).take (idxB b ℓ)).length := by
      rw [htakeB]
      omega
    have hconsA : (levelHashes H f M ℓ).getD (idxA a ℓ - 1) [] ::
        (((levelHashes H f M ℓ).take (idxB b ℓ)).drop (idxA a ℓ)) =
        ((levelHashes H f M ℓ).take (idxB b ℓ)).drop (idxA a ℓ - 1) := by
      rw [List.drop_eq_getElem_cons hWlt,
        show idxA a ℓ - 1 + 1 = idxA a ℓ from by omega]
      congr 1
      rw [List.getElem_take]
      exact List.getD_eq_getElem (levelHashes H f M ℓ) [] (by rw [hlenlvl]; omega)
    have hlen1 : (((levelHashes H f M ℓ).take (idxB b ℓ)).drop (idxA a ℓ - 1)).length
        = idxB b ℓ - (idxA a ℓ - 1) := by
      rw [List.length_drop, htakeB]
    by_cases hBc : idxB b ℓ % 2 = 1 ∧ idxB b ℓ < idxB M.length ℓ
    · -- a right sibling is absorbed as well
      have hps : sibsAt H f M a b ℓ ++ PS =
          (levelHashes H f M ℓ).getD (idxA a ℓ - 1) [] ::
          (levelHashes H f M ℓ).getD (idxB b ℓ) [] :: PS := by
        rw [sibsAt, if_pos hAodd, if_pos hBc]
        rfl
      rw [hps, verifyLoop_succ H root fuel' _ _ _ _ _ hN2]
      rw [if_neg (by rintro ⟨_, he⟩; simp at he)]
      simp only []
      rw [if_pos hAodd, if_pos hAodd, if_pos hAodd]
      simp only [List.headD_cons, List.tail_cons]
      simp only [hconsA]
      rw [if_neg (by rintro ⟨_, _, he⟩; simp at he)]
      have hcondR : (((levelHashes H f M ℓ).take (idxB b ℓ)).drop
            (idxA a ℓ - 1)).length % 2 = 1
          ∧ idxB b ℓ < idxB M.length ℓ := by
        refine ⟨?_, hBc.2⟩
        rw [hlen1]
        have hB2 := hBc.1
        omega
      rw [if_pos hcondR, if_pos hcondR, if_pos hcondR]
      have hBlt : idxB b ℓ < (levelHashes H f M ℓ).length := by
        rw [hlenlvl]
        exact hBc.2
      have htakesucc : (levelHashes H f M ℓ).take (idxB b ℓ + 1) =
          (levelHashes H f M ℓ).take (idxB b ℓ) ++
            [(levelHashes H f M ℓ).getD (idxB b ℓ) []] := by
        rw [List.take_succ, List.getElem?_eq_getElem hBlt,
          List.getD_eq_getElem (levelHashes H f M ℓ) [] hBlt]
        rfl
      have happend : (((levelHashes H f M ℓ).take (idxB b ℓ)).drop (idxA a ℓ - 1))
          ++ [(levelHashes H f M ℓ).getD (idxB b ℓ) []] =
          ((levelHashes H f M ℓ).take (idxB b ℓ + 1)).drop (idxA a ℓ - 1) := by
        rw [htakesucc, List.drop_append_of_le_length (by rw [htakeB]; omega)]
      rw [happend]
      rw [chunkPairs_slice H (levelHashes H f M ℓ) (idxA a ℓ - 1) (idxB b ℓ + 1)
        (by omega) (Or.inl (by have := hBc.1; omega))]
      rw [← hlvl1]
      rw [show (idxA a ℓ - 1) / 2 = idxA a (ℓ + 1) from by rw [hA1]; omega]
      rw [show (idxB b ℓ + 1 + 1) / 2 = idxB b (ℓ + 1) from by
        rw [hB1]
        have := hBc.1
        omega]
      rw [← hN1]
    · -- no right sibling at this level
      have hps : sibsAt H f M a b ℓ ++ PS =
          (levelHashes H f M ℓ).getD (idxA a ℓ - 1) [] :: PS := by
        rw [sibsAt, if_pos hAodd, if_neg hBc]
        rfl
      rw [hps, verifyLoop_succ H root fuel' _ _ _ _ _ hN2]
      rw [if_neg (by rintro ⟨_, he⟩; simp at he)]
      simp only []
      rw [if_pos hAodd, if_pos hAodd, if_pos hAodd]
      simp only [List.headD_cons, List.tail_cons]
      simp only [hconsA]
      have hnotR : ¬ ((((levelHashes H f M ℓ).take (idxB b ℓ)).drop
            (idxA a ℓ - 1)).length % 2 = 1
          ∧ idxB b ℓ < idxB M.length ℓ) := by
        rintro ⟨hp, hlt⟩
        rw [hlen1] at hp
        exact hBc ⟨by omega, hlt⟩
      rw [if_neg (by rintro ⟨hp, hlt, _⟩; exact hnotR ⟨hp, hlt⟩)]
      rw [if_neg hnotR, if_neg hnotR, if_neg hnotR]
      have hBend : idxB b ℓ % 2 = 0 ∨ (levelHashes H f M ℓ).length ≤ idxB b ℓ := by
        by_cases hBo : idxB b ℓ % 2 = 1
        · right
          rw [hlenlvl]
          by_contra hlt
          exact hBc ⟨hBo, by omega⟩
        · left
          omega
      rw [chunkPairs_slice H (levelHashes H f M ℓ) (idxA a ℓ - 1) (idxB b ℓ)
        (by omega) hBend]
      rw [← hlvl1]
      rw [show (idxA a ℓ - 1) / 2 = idxA a (ℓ + 1) from by rw [hA1]; omega]
      rw [← hB1, ← hN1]
  · -- no left sibling at this level
    by_cases hBc : idxB b ℓ % 2 = 1 ∧ idxB b ℓ < idxB M.length ℓ
    · -- only a right sibling
      have hps : sibsAt H f M a b ℓ ++ PS =
          (levelHashes H f M ℓ).getD (idxB b ℓ) [] :: PS := by
        rw [sibsAt, if_neg hAodd, if_pos hBc]
        rfl
      rw [hps, verifyLoop_succ H root fuel' _ _ _ _ _ hN2]
      rw [if_neg (by rintro ⟨hp, _⟩; exact hAodd hp)]
      simp only []
      rw [if_neg hAodd, if_neg hAodd, if_neg hAodd]
      rw [if_neg (by rintro ⟨_, _, he⟩; simp at he)]
      have hcondR : (((levelHashes H f M ℓ).take (idxB b ℓ)).drop
            (idxA a ℓ)).length % 2 = 1
          ∧ idxB b ℓ < idxB M.length ℓ := by
        refine ⟨?_, hBc.2⟩
        rw [hsumlen]
        have := hBc.1
        omega
      rw [if_pos hcondR, if_pos hcondR, if_pos hcondR]
      simp only [List.headD_cons, List.tail_cons]
      have hBlt : idxB b ℓ < (levelHashes H f M ℓ).length := by
        rw [hlenlvl]
        exact hBc.2
      have htakesucc : (levelHashes H f M ℓ).take (idxB b ℓ + 1) =
          (levelHashes H f M ℓ).take (idxB b ℓ) ++
            [(levelHashes H f M ℓ).getD (idxB b ℓ) []] := by
        rw [List.take_succ, List.getElem?_eq_getElem hBlt,
          List.getD_eq_getElem (levelHashes H f M ℓ) [] hBlt]
        rfl
      have happend : (((levelHashes H f M ℓ).take (idxB b ℓ)).drop (idxA a ℓ))
          ++ [(levelHashes H f M ℓ).getD (idxB b ℓ) []] =
          ((levelHashes H f M ℓ).take (idxB b ℓ + 1)).drop (idxA a ℓ) := by
        rw [htakesucc, List.drop_append_of_le_length (by rw [htakeB]; omega)]
      rw [happend]
      rw [chunkPairs_slice H (levelHashes H f M ℓ) (idxA a ℓ) (idxB b ℓ + 1)
        (by omega) (Or.inl (by have := hBc.1; omega))]
      rw [← hlvl1]
      rw [← hA1]
      rw [show (idxB b ℓ + 1 + 1) / 2 = idxB b (ℓ + 1) from by
        rw [hB1]
        have := hBc.1
        omega]
      rw [← hN1]
    · -- no sibling at all at this level
      have hps : sibsAt H f M a b ℓ ++ PS = PS := by
        rw [sibsAt, if_neg hAodd, if_neg hBc]
        rfl
      rw [hps, verifyLoop_succ H root fuel' _ _ _ _ _ hN2]
      rw [if_neg (by rintro ⟨hp, _⟩; exact hAodd hp)]
      simp only []
      rw [if_neg hAodd, if_neg hAodd, if_neg hAodd]
      have hnotR : ¬ ((((levelHashes H f M ℓ).take (idxB b ℓ)).drop
            (idxA a ℓ)).length % 2 = 1
          ∧ idxB b ℓ < idxB M.length ℓ) := by
        rintro ⟨hp, hlt⟩
        rw [hsumlen] at hp
        exact hBc ⟨by omega, hlt⟩
      rw [if_neg (by rintro ⟨hp, hlt, _⟩; exact hnotR ⟨hp, hlt⟩)]
      rw [if_neg hnotR, if_neg hnotR, if_neg hnotR]
      have hBend : idxB b ℓ % 2 = 0 ∨ (levelHashes H f M ℓ).length ≤ idxB b ℓ := by
        by_cases hBo : idxB b ℓ % 2 = 1
        · right
          rw [hlenlvl]
          by_contra hlt
          exact hBc ⟨hBo, by omega⟩
        · left
          omega
      rw [chunkPairs_slice H (levelHashes H f M ℓ) (idxA a ℓ) (idxB b ℓ)
        (by omega) hBend]
      rw [← hlvl1, ← hA1, ← hB1, ← hN1]

/-- At a level covering all the data the verifier has consumed every
sibling and accepts. -/
theorem verifyLoop_top (H f : Bytes → Bytes) (M : List Bytes) (a b : Nat)
    (hab : a < b) (hb : b ≤ M.length) (root : Bytes)
    (hroot : ∀ ℓ', M.length ≤ 2 ^ ℓ' → root = (levelHashes H f M ℓ').getD 0 [])
    (fuel ℓ : Nat) (hN : ¬ 1 < idxB M.length ℓ) :
    verifyLoop H root fuel
      (((levelHashes H f M ℓ).take (idxB b ℓ)).drop (idxA a ℓ))
      (((List.range fuel).map (fun j => sibsAt H f M a b (ℓ + j))).flatten)
      (idxA a ℓ) (idxB b ℓ) (idxB M.length ℓ) = some true := by
  have hm1 : 1 ≤ M.length := by omega
  have hNv : idxB M.length ℓ = 1 := by
    have := one_le_idxB M.length ℓ
    omega
  have hml : M.length ≤ 2 ^ ℓ := by
    by_contra hlt
    have h1 : 1 ≤ (M.length - 1) / 2 ^ ℓ :=
      (Nat.one_le_div_iff (by positivity)).mpr (by omega)
    have h2 : idxB M.length ℓ = (M.length - 1) / 2 ^ ℓ + 1 := rfl
    omega
  have hps : ((List.range fuel).map (fun j => sibsAt H f M a b (ℓ + j))).flatten = [] := by
    rw [List.flatten_eq_nil_iff]
    intro x hx
    obtain ⟨j, hj, he⟩ := List.mem_map.mp hx
    rw [← he]
    exact sibsAt_nil_of_le H f M a b (ℓ + j) (by omega)
      (le_trans hml (Nat.pow_le_pow_right (by omega) (by omega)))
  rw [hps, verifyLoop_stop H root fuel _ _ _ _ _ hN]
  rw [if_neg (by simp)]
  have hBle : idxB b ℓ ≤ idxB M.length ℓ := by
    show (b - 1) / 2 ^ ℓ + 1 ≤ (M.length - 1) / 2 ^ ℓ + 1
    have := Nat.div_le_div_right (c := 2 ^ ℓ) (show b - 1 ≤ M.length - 1 from by omega)
    omega
  have hBv : idxB b ℓ = 1 := by
    have := one_le_idxB b ℓ
    omega
  have hAv : idxA a ℓ = 0 := by
    have := idxA_lt_idxB a b ℓ hab
    omega
  rw [hAv, hBv]
  have hlen : (levelHashes H f M ℓ).length = 1 := by
    rw [levelHashes_length H f M hm1 ℓ, hNv]
  obtain ⟨x, hx⟩ := List.length_eq_one.mp hlen
  rw [hx]
  show some (decide (x = root)) = some true
  have hr : root = x := by
    have hr0 := hroot ℓ hml
    rw [hx] at hr0
    simpa using hr0
  rw [hr]
  simp

/-- Completeness of the verifier loop: from the canonical state of any
level, given each level's sibling sets in order, it accepts. -/
theorem verifyLoop_complete (H f : Bytes → Bytes) (M : List Bytes) (a b : Nat)
    (hab : a < b) (hb : b ≤ M.length) (root : Bytes)
    (hroot : ∀ ℓ', M.length ≤ 2 ^ ℓ' → root = (levelHashes H f M ℓ').getD 0 []) :
    ∀ (fuel ℓ : Nat), idxB M.length ℓ ≤ fuel + 1 →
    verifyLoop H root fuel
      (((levelHashes H f M ℓ).take (idxB b ℓ)).drop (idxA a ℓ))
      (((List.range fuel).map (fun j => sibsAt H f M a b (ℓ + j))).flatten)
      (idxA a ℓ) (idxB b ℓ) (idxB M.length ℓ) = some true := by
  intro fuel
  induction fuel with
  | zero =>
    intro ℓ hfuel
    exact verifyLoop_top H f M a b hab hb root hroot 0 ℓ (by omega)
  | succ fuel ih =>
    intro ℓ hfuel
    by_cases hN : 1 < idxB M.length ℓ
    · have hcomp : ((fun j => sibsAt H f M a b (ℓ + j)) ∘ Nat.succ) =
          (fun j => sibsAt H f M a b (ℓ + 1 + j)) := by
        funext j
        show sibsAt H f M a b (ℓ + Nat.succ j) = sibsAt H f M a b (ℓ + 1 + j)
        exact congrArg (sibsAt H f M a b) (by omega)
      have hdecomp :
          ((List.range (fuel + 1)).map (fun j => sibsAt H f M a b (ℓ + j))).flatten =
          sibsAt H f M a b ℓ ++
            ((List.range fuel).map (fun j => sibsAt H f M a b (ℓ + 1 + j))).flatten := by
        rw [List.range_succ_eq_map, List.map_cons, List.flatten_cons, List.map_map, hcomp]
        rfl
      rw [hdecomp]
      rw [verifyLoop_step H f M a b hab hb root fuel _ ℓ hN]
      apply ih (ℓ + 1)
      have h1 : idxB M.length (ℓ + 1) = (idxB M.length ℓ + 1) / 2 := idxB_succ M.length ℓ
      omega
    · exact verifyLoop_top H f M a b hab hb root hroot (fuel + 1) ℓ hN

/-- Every hash of a collapsed level is a pair hash or carried from the
level below. -/
theorem chunkPairs_mem (H : Bytes → Bytes) :
    ∀ (l : List Bytes) (x : Bytes), x ∈ chunkPairs H l →
      (∃ u v, x = nodeSum H u v) ∨ x ∈ l
  | [], x, hx => Or.inr hx
  | [y], x, hx => Or.inr hx
  | a :: c :: rest, x, hx => by
    rw [show chunkPairs H (a :: c :: rest) = nodeSum H a c :: chunkPairs H rest
      from rfl] at hx
    rcases List.mem_cons.mp hx with he | hm
    · exact Or.inl ⟨a, c, he⟩
    · rcases chunkPairs_mem H rest x hm with h | h
      · exact Or.inl h
      · exact Or.inr (by simp [h])

/-- With a hash and leaf transform that never return nil, no level hash
is nil. -/
theorem levelHashes_ne_nil (H f : Bytes → Bytes) (M : List Bytes)
    (hH : ∀ y, H y ≠ []) (hf : ∀ y, f y ≠ []) :
    ∀ (ℓ : Nat) (x : Bytes), x ∈ levelHashes H f M ℓ → x ≠ []
  | 0, x, hx => by
    obtain ⟨y, _, he⟩ := List.mem_map.mp hx
    rw [← he]
    exact hf y
  | ℓ + 1, x, hx => by
    rcases chunkPairs_mem H (levelHashes H f M ℓ) x hx with ⟨u, v, he⟩ | hm
    · rw [he]
      exact hH _
    · exact levelHashes_ne_nil H f M hH hf ℓ x hm

set_option maxHeartbeats 800000 in
/-- Round trip: Prove on a fully pushed sliced tree succeeds and its
output verifies. -/
theorem prove_verify_slice (H : Bytes → Bytes) (hH : ∀ y, H y ≠ []) (a b : Nat)
    (M : List Bytes) (hab : a < b) (hb : b ≤ M.length) :
    (Tree.pushList H (Tree.fresh a b false) M).prove H =
      some ⟨(Tree.pushList H (Tree.fresh a b false) M).root H,
        some ((M.take b).drop a ++
          ((List.range M.length).map (fun ℓ => sibsAt H (leafSum H) M a b ℓ)).flatten),
        a, M.length⟩ ∧
    VerifyProofOfSlice H ((Tree.pushList H (Tree.fresh a b false) M).root H)
      ((M.take b).drop a ++
        ((List.range M.length).map (fun ℓ => sibsAt H (leafSum H) M a b ℓ)).flatten)
      a b M.length = some true := by
  have hm1 : 1 ≤ M.length := by omega
  have hM : M ≠ [] := by
    intro he
    rw [he] at hm1
    simp at hm1
  have hf : ∀ y, leafFun H false y ≠ [] := by
    rw [leafFun_false]
    exact fun y => hH _
  have hPE := pushList_prove_eq H a b false M hab hb hH hf
  rw [leafFun_false] at hPE
  refine ⟨hPE, ?_⟩
  have hroot : ∀ ℓ', M.length ≤ 2 ^ ℓ' →
      (Tree.pushList H (Tree.fresh a b false) M).root H =
        (levelHashes H (leafSum H) M ℓ').getD 0 [] := by
    intro ℓ' h
    have := pushList_root_lh H a b false M hM ℓ' h
    rw [leafFun_false] at this
    exact this
  have hml : M.length ≤ 2 ^ M.length := le_of_lt (Nat.lt_two_pow _)
  have hlvlpos : 0 < (levelHashes H (leafSum H) M M.length).length := by
    rw [levelHashes_length H (leafSum H) M hm1]
    exact one_le_idxB _ _
  have hmem : (levelHashes H (leafSum H) M M.length).getD 0 [] ∈
      levelHashes H (leafSum H) M M.length := by
    rw [List.getD_eq_getElem _ [] hlvlpos]
    exact List.getElem_mem _
  have hrne : (Tree.pushList H (Tree.fresh a b false) M).root H ≠ [] := by
    rw [hroot M.length hml]
    exact levelHashes_ne_nil H (leafSum H) M hH (fun y => hH _) M.length _ hmem
  rw [VerifyProofOfSlice]
  rw [if_neg hrne]
  rw [if_neg (by omega)]
  rw [if_neg (by omega)]
  have hX : ((M.take b).drop a).length = b - a := by
    rw [List.length_drop, List.length_take]
    omega
  rw [if_neg (by rw [List.length_append, hX]; omega)]
  have htk : (((M.take b).drop a ++
      ((List.range M.length).map
        (fun ℓ => sibsAt H (leafSum H) M a b ℓ)).flatten).take (b - a)) =
      (M.take b).drop a := by
    rw [List.take_append_of_le_length (by omega), List.take_of_length_le (by omega)]
  have hdr : (((M.take b).drop a ++
      ((List.range M.length).map
        (fun ℓ => sibsAt H (leafSum H) M a b ℓ)).flatten).drop (b - a)) =
      ((List.range M.length).map (fun ℓ => sibsAt H (leafSum H) M a b ℓ)).flatten := by
    rw [← hX]
    exact List.drop_left _ _
  rw [htk, hdr]
  rw [show ((M.take b).drop a).map (leafSum H) =
    ((M.map (leafSum H)).take b).drop a from by rw [List.map_drop, List.map_take]]
  have hA0 : idxA a 0 = a := by
    rw [idxA, pow_zero, Nat.div_one]
  have hB0 : idxB b 0 = b := by
    rw [idxB, pow_zero, Nat.div_one]
    omega
  have hN0 : idxB M.length 0 = M.length := by
    rw [idxB, pow_zero, Nat.div_one]
    omega
  have HC := verifyLoop_complete H (leafSum H) M a b hab hb
    ((Tree.pushList H (Tree.fresh a b false) M).root H) hroot M.length 0
    (by rw [hN0]; omega)
  rw [hA0, hB0, hN0] at HC
  rw [show levelHashes H (leafSum H) M 0 = M.map (leafSum H) from rfl] at HC
  rw [show (fun j => sibsAt H (leafSum H) M a b (0 + j)) =
    (fun ℓ => sibsAt H (leafSum H) M a b ℓ) from by
      funext j
      rw [Nat.zero_add]] at HC
  exact HC

/-- C1: on a fresh tree with `SetSlice(a,b)` (`0 ≤ a < b ≤ n`), pushing
the `n` leaves and calling Prove yields root, proof set, index `a` and
leaf count `n` that VerifyProofOfSlice accepts; via
`SetIndex i = SetSlice(i, i+1)` this specialises to VerifyProof accepting
at every single index `i < n`. -/
theorem claim_C1 (H : Bytes → Bytes) (hH : ∀ y, H y ≠ []) (n : Nat) (M : List Bytes)
    (hn : 1 ≤ n) (hlen : M.length = n) :
    (∀ a b, a < b → b ≤ n →
      ∃ t0 r ps, Tree.new.setSlice a b = .ok t0 ∧
        (Tree.pushList H t0 M).prove H = some r ∧
        r.merkleRoot = (Tree.pushList H t0 M).root H ∧
        r.proofSet = some ps ∧ r.proofBegin = a ∧ r.numLeaves = n ∧
        VerifyProofOfSlice H r.merkleRoot ps a b n = some true) ∧
    (∀ i, i < n →
      ∃ t0 r ps, Tree.new.setIndex i = .ok t0 ∧
        (Tree.pushList H t0 M).prove H = some r ∧
        r.proofSet = some ps ∧ r.proofBegin = i ∧ r.numLeaves = n ∧
        VerifyProof H r.merkleRoot ps i n = some true) := by
  subst hlen
  constructor
  · intro a b hab hb
    obtain ⟨h1, h2⟩ := prove_verify_slice H hH a b M hab hb
    exact ⟨Tree.fresh a b false, _, _, setSlice_new a b, h1, rfl, rfl, rfl, rfl, h2⟩
  · intro i hi
    obtain ⟨h1, h2⟩ := prove_verify_slice H hH i (i + 1) M (by omega) (by omega)
    exact ⟨Tree.fresh i (i + 1) false, _, _, setSlice_new i (i + 1), h1, rfl, rfl, rfl, h2⟩

theorem claim_C1_witness :
    ((∀ y : Bytes, probeHash y ≠ []) ∧ 1 ≤ 3 ∧
      ([[1], [2], [3]] : List Bytes).length = 3) ∧
    (∃ t0 r ps, Tree.new.setSlice 1 3 = .ok t0 ∧
      (Tree.pushList probeHash t0 [[1], [2], [3]]).prove probeHash = some r ∧
      r.merkleRoot = (Tree.pushList probeHash t0 [[1], [2], [3]]).root probeHash ∧
      r.proofSet = some ps ∧ r.proofBegin = 1 ∧ r.numLeaves = 3 ∧
      VerifyProofOfSlice probeHash r.merkleRoot ps 1 3 3 = some true) ∧
    (∃ t0 r ps, Tree.new.setIndex 0 = .ok t0 ∧
      (Tree.pushList probeHash t0 [[1], [2], [3]]).prove probeHash = some r ∧
      r.proofSet = some ps ∧ r.proofBegin = 0 ∧ r.numLeaves = 3 ∧
      VerifyProof probeHash r.merkleRoot ps 0 3 = some true) :=
  ⟨⟨fun y => List.cons_ne_nil 9 y, by decide, rfl⟩,
    (claim_C1 probeHash (fun y => List.cons_ne_nil 9 y) 3 [[1], [2], [3]]
      (by decide) rfl).1 1 3 (by decide) (by decide),
    (claim_C1 probeHash (fun y => List.cons_ne_nil 9 y) 3 [[1], [2], [3]]
      (by decide) rfl).2 0 (by decide)⟩

theorem pushSibs_length_le (H f : Bytes → Bytes) (M : List Bytes) (a b ℓ : Nat) :
    (pushSibs H f M a b ℓ).length ≤ 2 := by
  rw [pushSibs]
  split <;> split <;> simp

/-- C5: with a proof slice `a < b` set, after any sequence of pushes no
ladder height ever holds more than two hashes — neither in the push-time
ladder nor in the ladder after Prove's residual collapse — and Prove
returns a result: the foldLader abort (Go's panic on a third proof of the
same height) is unreachable. -/
theorem claim_C5 (H : Bytes → Bytes) (hH : ∀ y, H y ≠ []) (a b : Nat) (hab : a < b)
    (M : List Bytes) :
    (∀ ℓ, ((Tree.pushList H (Tree.fresh a b false) M).lader.getD ℓ []).length ≤ 2) ∧
    (b ≤ M.length →
      ∀ ℓ, ((proveFold H a b (Tree.pushList H (Tree.fresh a b false) M).head
          (Tree.pushList H (Tree.fresh a b false) M).lader).getD ℓ []).length ≤ 2) ∧
    ((Tree.pushList H (Tree.fresh a b false) M).prove H).isSome = true := by
  have hf : ∀ y, leafFun H false y ≠ [] := by
    rw [leafFun_false]
    exact fun y => hH _
  refine ⟨?_, ?_, ?_⟩
  · intro ℓ
    rw [pushList_lader H a b false M hab hH hf ℓ]
    exact pushSibs_length_le H (leafFun H false) M a b ℓ
  · intro hb ℓ
    rw [pushList_prove_sibs H a b false M hab hb hH hf ℓ]
    exact sibsAt_length_le H (leafFun H false) M a b ℓ
  · by_cases hb : b ≤ M.length
    · rw [pushList_prove_eq H a b false M hab hb hH hf]
      rfl
    · obtain ⟨ih1, ih2, ih3, ih4, ih5⟩ := pushList_invariant H a b false M
      rw [Tree.prove, if_pos (Or.inr (by rw [ih2, ih4]; omega))]
      rfl

theorem claim_C5_witness :
    ((∀ y : Bytes, probeHash y ≠ []) ∧ 0 < 2) ∧
    ((∀ ℓ, ((Tree.pushList probeHash (Tree.fresh 0 2 false)
        [[1], [2], [3]]).lader.getD ℓ []).length ≤ 2) ∧
      (2 ≤ ([[1], [2], [3]] : List Bytes).length →
        ∀ ℓ, ((proveFold probeHash 0 2
            (Tree.pushList probeHash (Tree.fresh 0 2 false) [[1], [2], [3]]).head
            (Tree.pushList probeHash (Tree.fresh 0 2 false)
              [[1], [2], [3]]).lader).getD ℓ []).length ≤ 2) ∧
      ((Tree.pushList probeHash (Tree.fresh 0 2 false)
        [[1], [2], [3]]).prove probeHash).isSome = true) :=
  ⟨⟨fun y => List.cons_ne_nil 9 y, by decide⟩,
    claim_C5 probeHash (fun y => List.cons_ne_nil 9 y) 0 2 (by decide) [[1], [2], [3]]⟩

end Merkle
